import Mathlib

/-!
Verification development for the half-edge mesh of `nvmesh/halfedge/Mesh.h`.

The header declares the `Mesh` container (vertex/edge/face arrays, the
ordered-pair edge lookup, the mutable diagnostic triple) together with the
construction, welding, compaction and validity operations.  The method bodies
are not part of the header, so every operation below is modelled from the
design document accompanying the header; each such definition says so in its
doc comment.  Entities are addressed by stable integer indices (ids), matching
the pointer-arena design: `some` slots are live entities, `none` slots are
removed ones awaiting compaction.
-/

namespace HalfEdge

/-- Modelled from the spec: the 3-component point type used only as opaque
vertex position data; the core needs nothing but decidable equality of
positions, so integer components suffice for the model. -/
structure Vector3 where
  x : Int
  y : Int
  z : Int
deriving DecidableEq, Repr

/-- Modelled from the spec: a Vertex record holds a stable id, the opaque
position, one reference to an incident half-edge, and the colocal link
threading a circular chain of vertices sharing the same position. -/
structure Vertex where
  id : Nat
  pos : Vector3
  edge : Option Nat
  colocal : Nat
deriving DecidableEq, Repr

/-- Modelled from the spec: a directed half-edge with id, origin vertex,
`pair` (opposite half-edge, absent for boundary), `next`/`prev` links around
the owning face, and the owning face (absent for boundary half-edges). -/
structure Edge where
  id : Nat
  vertex : Nat
  pair : Option Nat
  next : Option Nat
  prev : Option Nat
  face : Option Nat
deriving DecidableEq, Repr

/-- Modelled from the spec: a Face record holds its id and one incident
half-edge; the degree is derived by walking `next`. -/
structure Face where
  id : Nat
  edge : Option Nat
deriving DecidableEq, Repr

/-- Modelled from the spec: the Mesh owns three dense arrays of entities
(indices are ids), the ordered-vertex-pair edge lookup, the colocal-group
count, and the mutable diagnostic triple updated by the last failing
operation. -/
structure Mesh where
  vertexArray : List (Option Vertex)
  edgeArray : List (Option Edge)
  faceArray : List (Option Face)
  edgeMap : List ((Nat × Nat) × Nat)
  colocalVertexCount : Nat
  errorCount : Nat
  errorIndex0 : Nat
  errorIndex1 : Nat
deriving DecidableEq, Repr

/-- The freshly constructed Mesh: empty arrays, empty lookup, zeroed counts. -/
def emptyMesh : Mesh :=
  { vertexArray := [], edgeArray := [], faceArray := [], edgeMap := [],
    colocalVertexCount := 0, errorCount := 0, errorIndex0 := 0, errorIndex1 := 0 }

def Mesh.vertexCount (m : Mesh) : Nat := m.vertexArray.length

def Mesh.edgeCount (m : Mesh) : Nat := m.edgeArray.length

def Mesh.faceCount (m : Mesh) : Nat := m.faceArray.length

/-- Live vertex at an index: `none` for removed slots and out-of-range ids. -/
def lookupVertex (m : Mesh) (k : Nat) : Option Vertex := (m.vertexArray[k]?).join

/-- Live edge at an index: `none` for removed slots and out-of-range ids. -/
def lookupEdge (m : Mesh) (k : Nat) : Option Edge := (m.edgeArray[k]?).join

/-- Live face at an index: `none` for removed slots and out-of-range ids. -/
def lookupFace (m : Mesh) (k : Nat) : Option Face := (m.faceArray[k]?).join

/-- Modelled from the spec: `findEdge(i,j)` is the O(1) lookup of the directed
half-edge from vertex `i` to vertex `j` in the edge map, or none. -/
def Mesh.findEdge (m : Mesh) (i j : Nat) : Option Nat :=
  (m.edgeMap.find? (fun kv => decide (kv.1 = (i, j)))).map (fun kv => kv.2)

/-- The destination vertex of a half-edge: the origin of its `next`. -/
def edgeDest (m : Mesh) (k : Nat) : Option Nat :=
  ((lookupEdge m k).bind (fun e => e.next)).bind (fun n => (lookupEdge m n).map (fun e => e.vertex))

/-- Modelled from the spec: `addVertex(pos)` appends a new Vertex with the next
id; its incident edge is empty and its colocal chain is the singleton self. -/
def Mesh.addVertex (m : Mesh) (p : Vector3) : Mesh :=
  { m with vertexArray := m.vertexArray ++
      [some { id := m.vertexArray.length, pos := p, edge := none, colocal := m.vertexArray.length }] }

/-- The consecutive index pairs (including wrap-around) of the face window
`indexArray[first .. first+num)`. -/
def facePairs (idx : List Nat) (first num : Nat) : List (Nat × Nat) :=
  (List.range num).map (fun k => (idx.getD (first + k) 0, idx.getD (first + (k + 1) % num) 0))

/-- Modelled from the spec: the per-pair validity check of `canAddFace`:
the indices are in range, the directed edge is not in the lookup yet (the
lookup holds at most one half-edge per ordered pair, and a third face at an
already-fully-paired edge is rejected), the directed pair occurs only once in
the face itself, and the undirected pair gains no more than two half-edges in
total (an existing reverse half-edge forbids a reverse inside the face). -/
def okPair (m : Mesh) (ps : List (Nat × Nat)) (q : Nat × Nat) : Bool :=
  decide (q.1 < m.vertexCount) && decide (q.2 < m.vertexCount) &&
  (m.findEdge q.1 q.2).isNone &&
  (ps.countP (fun r => decide (r = q)) == 1) &&
  (!(m.findEdge q.2 q.1).isSome || (ps.countP (fun r => decide (r = (q.2, q.1))) == 0))

/-- The first consecutive pair violating `okPair`, scanning in face order;
`canAddFace` succeeds exactly when there is none. -/
def firstViolation (m : Mesh) (ps : List (Nat × Nat)) : Option (Nat × Nat) :=
  ps.find? (fun q => !(okPair m ps q))

/-- Modelled from the spec: `canAddFace` runs the pure per-edge check over
every consecutive index pair of the face, including wrap-around. -/
def canAddFace (m : Mesh) (ps : List (Nat × Nat)) : Bool :=
  (firstViolation m ps).isNone

/-- Whether the edge slot `p` currently carries a pair link. -/
def pairedAt (m : Mesh) (p : Nat) : Bool :=
  match lookupEdge m p with
  | some e => e.pair.isSome
  | none => false

/-- Replace the pair link of the edge in slot `k` (a live slot) by `q`. -/
def setPairAt (arr : List (Option Edge)) (k q : Nat) : List (Option Edge) :=
  match arr[k]? with
  | some (some e) => arr.set k (some { e with pair := some q })
  | _ => arr

/-- A freshly created half-edge: id, origin and possibly a pair partner; the
face, next and prev links are wired later by `addFace`. -/
def freshEdge (eid i : Nat) (popt : Option Nat) : Edge :=
  { id := eid, vertex := i, pair := popt, next := none, prev := none, face := none }

/-- Modelled from the spec: `addEdge(i,j)` creates a new half-edge from `i` to
`j` with the next id and registers it in the edge lookup; if an unpaired
reverse half-edge `(j,i)` exists it is reused by pairing it mutually with the
new half-edge.  Face, next and prev wiring is left to `addFace`. -/
def Mesh.addEdge (m : Mesh) (i j : Nat) : Mesh × Nat :=
  let eid := m.edgeArray.length
  match m.findEdge j i with
  | some p =>
    if pairedAt m p then
      ({ m with edgeArray := m.edgeArray ++ [some (freshEdge eid i none)],
                edgeMap := m.edgeMap ++ [((i, j), eid)] }, eid)
    else
      ({ m with edgeArray := setPairAt m.edgeArray p eid ++ [some (freshEdge eid i (some p))],
                edgeMap := m.edgeMap ++ [((i, j), eid)] }, eid)
  | none =>
    ({ m with edgeArray := m.edgeArray ++ [some (freshEdge eid i none)],
              edgeMap := m.edgeMap ++ [((i, j), eid)] }, eid)

/-- Create or reuse one half-edge per consecutive pair of the face, in face
order, threading the mesh through `addEdge`. -/
def addEdgesFold (m : Mesh) (ps : List (Nat × Nat)) : Mesh :=
  ps.foldl (fun acc q => (Mesh.addEdge acc q.1 q.2).1) m

/-- Map a function receiving the index over a list, starting at index `k`. -/
def mapWithIndexFrom (f : Nat → α → β) : Nat → List α → List β
  | _, [] => []
  | k, a :: as => f k a :: mapWithIndexFrom f (k + 1) as

/-- Map a function receiving the index over a list. -/
def mapWithIndex (f : Nat → α → β) (l : List α) : List β := mapWithIndexFrom f 0 l

/-- Modelled from the spec: link the `num` half-edges created for a face
(they occupy the contiguous id range `[e0, e0+num)`) into a cyclic
`next`/`prev` chain and point them at the owning face `fid`. -/
def linkFaceEdges (m : Mesh) (e0 num fid : Nat) : Mesh :=
  { m with edgeArray := mapWithIndex (fun k oe =>
      if e0 ≤ k ∧ k < e0 + num then
        oe.map (fun e => { e with next := some (e0 + (k - e0 + 1) % num),
                                  prev := some (e0 + (k - e0 + num - 1) % num),
                                  face := some fid })
      else oe) m.edgeArray }

/-- Give vertex `v` the incident half-edge `eid` if it currently lacks one. -/
def setVertexEdge (arr : List (Option Vertex)) (v eid : Nat) : List (Option Vertex) :=
  match arr[v]? with
  | some (some vv) => if vv.edge.isNone then arr.set v (some { vv with edge := some eid }) else arr
  | _ => arr

/-- Modelled from the spec: update each participating vertex's incident-edge
reference, if it currently lacks one, to the face half-edge originating there. -/
def setFaceVertexEdges (arr : List (Option Vertex)) (ps : List (Nat × Nat)) (e0 : Nat) : List (Option Vertex) :=
  (List.range ps.length).foldl (fun a t => setVertexEdge a (ps.getD t (0, 0)).1 (e0 + t)) arr

/-- Modelled from the spec: `addFace(indexArray, first, num)` first runs
`canAddFace`; on violation it records the offending pair in the diagnostic
triple, bumps the error count and returns no face with the mesh otherwise
unchanged.  On success it creates/reuses the `num` half-edges via `addEdge`,
links them into a cyclic chain owned by the new face, appends the Face
pointing at the first half-edge, and fills in missing vertex incident-edge
references.  The `num >= 3` window precondition is a debug assertion in the
original design; the model makes it an inert guard. -/
def Mesh.addFace (m : Mesh) (idx : List Nat) (first num : Nat) : Mesh × Option Nat :=
  if 3 ≤ num ∧ first + num ≤ idx.length then
    let ps := facePairs idx first num
    match firstViolation m ps with
    | some q => ({ m with errorCount := m.errorCount + 1,
                          errorIndex0 := q.1, errorIndex1 := q.2 }, none)
    | none =>
      let e0 := m.edgeArray.length
      let fid := m.faceArray.length
      let m1 := addEdgesFold m ps
      let m2 := linkFaceEdges m1 e0 num fid
      let m3 := { m2 with vertexArray := setFaceVertexEdges m2.vertexArray ps e0,
                          faceArray := m2.faceArray ++ [some { id := fid, edge := some e0 }] }
      (m3, some fid)
  else (m, none)

/-- The three-index form `addFace(v0, v1, v2)` of the header. -/
def Mesh.addFace3 (m : Mesh) (v0 v1 v2 : Nat) : Mesh × Option Nat :=
  m.addFace [v0, v1, v2] 0 3

/-- The four-index form `addFace(v0, v1, v2, v3)` of the header. -/
def Mesh.addFace4 (m : Mesh) (v0 v1 v2 v3 : Nat) : Mesh × Option Nat :=
  m.addFace [v0, v1, v2, v3] 0 4

/-- The position stored at a vertex slot, if the slot is live. -/
def posAt (m : Mesh) (k : Nat) : Option Vector3 := (lookupVertex m k).map (fun v => v.pos)

/-- The ascending list of live vertex indices sharing position `p`. -/
def colocalGroup (m : Mesh) (p : Vector3) : List Nat :=
  (List.range m.vertexCount).filter (fun j => decide (posAt m j = some p))

/-- The successor of vertex `k` on the circular colocal chain of its position
group: the next larger index with the same position, wrapping to the smallest. -/
def colocalSucc (m : Mesh) (k : Nat) : Nat :=
  match posAt m k with
  | none => k
  | some p =>
    match (colocalGroup m p).filter (fun j => decide (k < j)) with
    | x :: _ => x
    | [] => (colocalGroup m p).headD k

/-- Modelled from the spec: `linkColocals()` groups live vertices by equal
position, threads each group into a circular chain via the colocal link, and
sets `colocalVertexCount` to the number of distinct position groups. -/
def Mesh.linkColocals (m : Mesh) : Mesh :=
  { m with
    vertexArray := mapWithIndex (fun k ov => ov.map (fun v => { v with colocal := colocalSucc m k })) m.vertexArray,
    colocalVertexCount := ((m.vertexArray.filterMap id).map Vertex.pos).dedup.length }

/-- Modelled from the spec: `clear()` resets the container to the freshly
constructed state: all entity arrays, the lookup and the counters empty. -/
def Mesh.clear (_ : Mesh) : Mesh := emptyMesh

/-- The canonical id an externally supplied canonical map assigns to vertex
`k`; absent entries default to the vertex's own index (its own group). -/
def canonOf (canon : List Nat) (k : Nat) : Nat := canon.getD k k

/-- The ascending list of live vertex indices with canonical id `c`. -/
def canonGroup (m : Mesh) (canon : List Nat) (c : Nat) : List Nat :=
  (List.range m.vertexCount).filter
    (fun j => (lookupVertex m j).isSome && (canonOf canon j == c))

/-- The successor of vertex `k` on the circular colocal chain of its canonical
group: the next larger index with the same canonical id, wrapping around. -/
def canonSucc (m : Mesh) (canon : List Nat) (k : Nat) : Nat :=
  match lookupVertex m k with
  | none => k
  | some _ =>
    match (canonGroup m canon (canonOf canon k)).filter (fun j => decide (k < j)) with
    | x :: _ => x
    | [] => (canonGroup m canon (canonOf canon k)).headD k

/-- Modelled from the spec: `linkColocalsWithCanonicalMap(map)` groups live
vertices by an externally supplied canonical id instead of by position,
threads each group into a circular colocal chain, and sets
`colocalVertexCount` to the number of distinct groups. -/
def Mesh.linkColocalsWithCanonicalMap (m : Mesh) (canon : List Nat) : Mesh :=
  { m with
    vertexArray := mapWithIndex (fun k ov => ov.map (fun v => { v with colocal := canonSucc m canon k })) m.vertexArray,
    colocalVertexCount := (((List.range m.vertexCount).filter
      (fun j => (lookupVertex m j).isSome)).map (canonOf canon)).dedup.length }

/-- Number of live (non-removed) slots strictly before index `k`: the new id a
surviving entity receives from compaction. -/
def survivorsBefore (arr : List (Option α)) (k : Nat) : Nat :=
  (arr.take k).countP (fun s => s.isSome)

/-- The old-id to new-id map built by a compaction pass: defined exactly on
live in-range slots; references to removed or out-of-range ids have no image. -/
def remapRef (arr : List (Option α)) (k : Nat) : Option Nat :=
  match arr[k]? with
  | some (some _) => some (survivorsBefore arr k)
  | _ => none

/-- Remap a mandatory (non-optional) reference, keeping it unchanged when the
old-id to new-id map has no entry for it. -/
def remapKeep (arr : List (Option α)) (k : Nat) : Nat := (remapRef arr k).getD k

/-- Modelled from the spec: `compactVertices()` drops removed slots from the
vertex array, assigns new contiguous ids in original relative order, and
rewrites the vertex cross-references (edge origin, colocal link) through the
old-id to new-id map. -/
def Mesh.compactVertices (m : Mesh) : Mesh :=
  let old := m.vertexArray
  { m with
    vertexArray := mapWithIndex (fun k v =>
        some { v with id := k, colocal := remapKeep old v.colocal }) (old.filterMap id),
    edgeArray := m.edgeArray.map (Option.map (fun e => { e with vertex := remapKeep old e.vertex })) }

/-- Modelled from the spec: `compactEdges()` drops removed slots from the edge
array, assigns new contiguous ids in original relative order, and rewrites the
edge cross-references (vertex incident edge, edge next/prev/pair, face edge)
through the old-id to new-id map. -/
def Mesh.compactEdges (m : Mesh) : Mesh :=
  let old := m.edgeArray
  { m with
    edgeArray := mapWithIndex (fun k e =>
        some { e with id := k,
                      next := e.next.bind (remapRef old),
                      prev := e.prev.bind (remapRef old),
                      pair := e.pair.bind (remapRef old) }) (old.filterMap id),
    vertexArray := m.vertexArray.map (Option.map (fun v => { v with edge := v.edge.bind (remapRef old) })),
    faceArray := m.faceArray.map (Option.map (fun f => { f with edge := f.edge.bind (remapRef old) })) }

/-- Modelled from the spec: `compactFaces()` drops removed slots from the face
array, assigns new contiguous ids in original relative order, and rewrites the
face cross-references (edge owning face) through the old-id to new-id map. -/
def Mesh.compactFaces (m : Mesh) : Mesh :=
  let old := m.faceArray
  { m with
    faceArray := mapWithIndex (fun k f => some { f with id := k }) (old.filterMap id),
    edgeArray := m.edgeArray.map (Option.map (fun e => { e with face := e.face.bind (remapRef old) })) }

/-- The `next` link of the half-edge in slot `k`. -/
def nextOf (m : Mesh) (k : Nat) : Option Nat := (lookupEdge m k).bind (fun e => e.next)

/-- Invariant 1 at one edge slot: a present pair links back mutually, and the
pair's origin is this half-edge's destination. -/
def pairInvAt (m : Mesh) (k : Nat) : Bool :=
  match lookupEdge m k with
  | none => true
  | some e =>
    match e.pair with
    | none => true
    | some p =>
      match lookupEdge m p with
      | none => false
      | some e2 => e2.pair == some k && edgeDest m k == some e2.vertex

/-- Invariant 2 at one edge slot: the `next` link exists and `prev` undoes it. -/
def nextPrevAt (m : Mesh) (k : Nat) : Bool :=
  match lookupEdge m k with
  | none => true
  | some e =>
    match e.next with
    | none => false
    | some n =>
      match lookupEdge m n with
      | none => false
      | some en => en.prev == some k

/-- One step of the face-cycle audit: check that the current edge belongs to
the face, that `prev` undoes `next`, and that the walk returns to the starting
half-edge within the given fuel. -/
def cycleWalk (m : Mesh) (fid e0 : Nat) : Nat → Nat → Bool
  | 0, _ => false
  | fuel + 1, cur =>
    match lookupEdge m cur with
    | none => false
    | some e =>
      (e.face == some fid) &&
      (match e.next with
       | none => false
       | some n =>
         (match lookupEdge m n with
          | none => false
          | some en => en.prev == some cur) &&
         (if n == e0 then true else cycleWalk m fid e0 fuel n))

/-- Invariant 3 at one face slot: walking `next` from the incident half-edge
returns to it, staying on the face, with `prev` inverting `next` throughout. -/
def faceCycleCheck (m : Mesh) (fid : Nat) : Bool :=
  match lookupFace m fid with
  | none => true
  | some f =>
    match f.edge with
    | none => false
    | some e0 => cycleWalk m fid e0 (m.edgeCount + 1) e0

/-- Invariant 4: the edge lookup holds at most one half-edge per ordered
vertex pair, and both directions of one undirected pair only as mutual pairs. -/
def mapInvCheck (m : Mesh) : Bool :=
  decide ((m.edgeMap.map Prod.fst).Nodup) &&
  m.edgeMap.all (fun kv =>
    match m.findEdge kv.1.2 kv.1.1 with
    | none => true
    | some b =>
      match lookupEdge m kv.2 with
      | none => false
      | some e => e.pair == some b)

/-- Whether the half-edge in slot `k` is a boundary half-edge (absent pair). -/
def edgeIsBoundary (m : Mesh) (k : Nat) : Bool :=
  match lookupEdge m k with
  | some e => e.pair.isNone
  | none => false

/-- Invariant 5 at one vertex slot: if any half-edge originating here is a
boundary one, the vertex's incident half-edge reference is a boundary one. -/
def boundaryPrefAt (m : Mesh) (v : Nat) : Bool :=
  match lookupVertex m v with
  | none => true
  | some vv =>
    if (List.range m.edgeCount).any (fun k =>
        match lookupEdge m k with
        | some e => e.vertex == v && e.pair.isNone
        | none => false) then
      match vv.edge with
      | some b => edgeIsBoundary m b
      | none => false
    else true

/-- Modelled from the spec: the first invariant violation found by the
`isValid` audit, scanning edges (invariants 1 and 2), faces (invariant 3), the
edge lookup (invariant 4) and vertices (invariant 5) in that order. -/
def firstInvariantViolation (m : Mesh) : Option Nat :=
  match (List.range m.edgeCount).find? (fun k => !(pairInvAt m k && nextPrevAt m k)) with
  | some k => some k
  | none =>
    match (List.range m.faceCount).find? (fun f => !(faceCycleCheck m f)) with
    | some f => some f
    | none =>
      if !(mapInvCheck m) then some 0
      else
        match (List.range m.vertexCount).find? (fun v => !(boundaryPrefAt m v)) with
        | some v => some v
        | none => none

/-- Modelled from the spec: `isValid()` re-derives the five structural
invariants across all entities; on the first violation it populates the
diagnostic triple and reports failure, otherwise success.  It is purely
observational: the entity arrays, lookup and counts are returned untouched. -/
def Mesh.isValidRun (m : Mesh) : Mesh × Bool :=
  match firstInvariantViolation m with
  | some k => ({ m with errorCount := m.errorCount + 1, errorIndex0 := k, errorIndex1 := k }, false)
  | none => (m, true)

/-- The result of sewing one side: the half-edge gains the pair `p` and
loses its boundary-loop links.  Per the data model, `next`/`prev` of a
boundary (face-less) half-edge are its boundary-loop links and are cleared
by sewing; for a face-owned half-edge they are face links and sewing leaves
them be. -/
def sewnEdge (e : Edge) (p : Nat) : Edge :=
  { e with pair := some p,
           next := (if e.face.isSome then e.next else none),
           prev := (if e.face.isSome then e.prev else none) }

/-- Sew one side: replace the half-edge in slot `k` by its sewn version. -/
def setSewnAt (arr : List (Option Edge)) (k p : Nat) : List (Option Edge) :=
  match arr[k]? with
  | some (some e) => arr.set k (some (sewnEdge e p))
  | _ => arr

/-- Modelled from the spec: sew the half-edges in slots `k` and `c` together:
set mutual `pair` links and clear the boundary-loop links of both. -/
def sewAttach (m : Mesh) (k c : Nat) : Mesh :=
  { m with edgeArray := setSewnAt (setSewnAt m.edgeArray k c) c k }

/-- The per-candidate acceptance test of the `sewBoundary` match search:
a boundary half-edge other than `k` whose endpoints correspond, through
colocal positions, to the endpoints of `k` traversed in the opposite
direction. -/
def sewPred (m : Mesh) (k c : Nat) : Bool :=
  decide (c ≠ k) && edgeIsBoundary m c &&
  decide ((lookupEdge m c).bind (fun e => posAt m e.vertex) = (edgeDest m k).bind (posAt m)) &&
  decide ((edgeDest m c).bind (posAt m) = (lookupEdge m k).bind (fun e => posAt m e.vertex)) &&
  ((edgeDest m c).bind (posAt m)).isSome && ((edgeDest m k).bind (posAt m)).isSome

/-- Modelled from the spec: the colocal match search of `sewBoundary`: find a
boundary half-edge other than `k` whose endpoints correspond, through colocal
positions, to the endpoints of `k` traversed in the opposite direction. -/
def sewMatch (m : Mesh) (k : Nat) : Option Nat :=
  (List.range m.edgeCount).find? (sewPred m k)

/-- Modelled from the spec: the walk of `sewBoundary` along the boundary loop
starting at `start`: at each boundary half-edge, attempt the colocal match and
on success pair the two mutually and clear their boundary-loop links; stop
with the current half-edge when no further match exists, or with none when
the loop closes. -/
def sewLoop (start : Nat) : Nat → Mesh → Nat → Option Nat × Mesh
  | 0, m, k => (some k, m)
  | fuel + 1, m, k =>
    if edgeIsBoundary m k then
      match sewMatch m k with
      | none => (some k, m)
      | some c =>
        let m2 := sewAttach m k c
        match nextOf m k with
        | none => (some k, m2)
        | some n => if n = start then (none, m2) else sewLoop start fuel m2 n
    else
      match nextOf m k with
      | none => (some k, m)
      | some n => if n = start then (none, m) else sewLoop start fuel m n

/-- Modelled from the spec: `sewBoundary(startEdge)` walks the boundary loop
through `startEdge`, pairing each boundary half-edge with a colocal
counterpart when one exists; it returns one half-edge that still belongs to
the boundary, or none if the loop sewed completely shut. -/
def Mesh.sewBoundary (m : Mesh) (start : Nat) : Option Nat × Mesh :=
  sewLoop start (m.edgeCount + 1) m start

/-- The random-access accessor `vertexAt(int i)`: the source indexes the
backing array directly with a signed index and no range check, so the model
gives the access a defined result exactly on in-range indices. -/
def Mesh.vertexAt (m : Mesh) (i : Int) : Option (Option Vertex) :=
  if i < 0 then none else m.vertexArray[i.toNat]?

/-- The random-access accessor `faceAt(int i)`, unchecked as in the source. -/
def Mesh.faceAt (m : Mesh) (i : Int) : Option (Option Face) :=
  if i < 0 then none else m.faceArray[i.toNat]?

/-- The random-access accessor `edgeAt(int i)`, unchecked as in the source. -/
def Mesh.edgeAt (m : Mesh) (i : Int) : Option (Option Edge) :=
  if i < 0 then none else m.edgeArray[i.toNat]?

/-- The source's `VertexIterator`: a mesh cursor starting at zero. -/
structure VertexIterator where
  mesh : Mesh
  mCurrent : Nat

/-- The source's `vertices()`: an iterator with the cursor at index 0. -/
def Mesh.vertices (m : Mesh) : VertexIterator := ⟨m, 0⟩

/-- The source's `VertexIterator::advance()`: increment the cursor by one. -/
def VertexIterator.advance (it : VertexIterator) : VertexIterator :=
  { it with mCurrent := it.mCurrent + 1 }

/-- The source's `VertexIterator::isDone()`: cursor equals the vertex count. -/
def VertexIterator.isDone (it : VertexIterator) : Bool :=
  it.mCurrent == it.mesh.vertexCount

/-- The source's `VertexIterator::current()`: `vertexAt` at the cursor. -/
def VertexIterator.current (it : VertexIterator) : Option (Option Vertex) :=
  it.mesh.vertexAt (Int.ofNat it.mCurrent)

/-- The source's `FaceIterator`: a mesh cursor starting at zero. -/
structure FaceIterator where
  mesh : Mesh
  mCurrent : Nat

/-- The source's `faces()`: an iterator with the cursor at index 0. -/
def Mesh.faces (m : Mesh) : FaceIterator := ⟨m, 0⟩

/-- The source's `FaceIterator::advance()`: increment the cursor by one. -/
def FaceIterator.advance (it : FaceIterator) : FaceIterator :=
  { it with mCurrent := it.mCurrent + 1 }

/-- The source's `FaceIterator::isDone()`: cursor equals the face count. -/
def FaceIterator.isDone (it : FaceIterator) : Bool :=
  it.mCurrent == it.mesh.faceCount

/-- The source's `FaceIterator::current()`: `faceAt` at the cursor. -/
def FaceIterator.current (it : FaceIterator) : Option (Option Face) :=
  it.mesh.faceAt (Int.ofNat it.mCurrent)

/-- The source's `EdgeIterator`: a mesh cursor starting at zero. -/
structure EdgeIterator where
  mesh : Mesh
  mCurrent : Nat

/-- The source's `edges()`: an iterator with the cursor at index 0. -/
def Mesh.edges (m : Mesh) : EdgeIterator := ⟨m, 0⟩

/-- The source's `EdgeIterator::advance()`: increment the cursor by one. -/
def EdgeIterator.advance (it : EdgeIterator) : EdgeIterator :=
  { it with mCurrent := it.mCurrent + 1 }

/-- The source's `EdgeIterator::isDone()`: cursor equals the edge count. -/
def EdgeIterator.isDone (it : EdgeIterator) : Bool :=
  it.mCurrent == it.mesh.edgeCount

/-- The source's `EdgeIterator::current()`: `edgeAt` at the cursor. -/
def EdgeIterator.current (it : EdgeIterator) : Option (Option Edge) :=
  it.mesh.edgeAt (Int.ofNat it.mCurrent)

/-- A full iteration with a `VertexIterator`: collect `current()` then
`advance()` until `isDone()`, with explicit fuel. -/
def VertexIterator.collect : Nat → VertexIterator → List (Option (Option Vertex))
  | 0, _ => []
  | fuel + 1, it => if it.isDone then [] else it.current :: VertexIterator.collect fuel it.advance

/-- A full iteration with a `FaceIterator`, with explicit fuel. -/
def FaceIterator.collect : Nat → FaceIterator → List (Option (Option Face))
  | 0, _ => []
  | fuel + 1, it => if it.isDone then [] else it.current :: FaceIterator.collect fuel it.advance

/-- A full iteration with an `EdgeIterator`, with explicit fuel. -/
def EdgeIterator.collect : Nat → EdgeIterator → List (Option (Option Edge))
  | 0, _ => []
  | fuel + 1, it => if it.isDone then [] else it.current :: EdgeIterator.collect fuel it.advance

/-! Basic lemmas about the indexed map and the slot lookups. -/

theorem mapWithIndexFrom_length (f : Nat → α → β) (k : Nat) (l : List α) :
    (mapWithIndexFrom f k l).length = l.length := by
  induction l generalizing k with
  | nil => rfl
  | cons a as ih => simp [mapWithIndexFrom, ih]

theorem mapWithIndexFrom_getElem? (f : Nat → α → β) (k t : Nat) (l : List α) :
    (mapWithIndexFrom f k l)[t]? = (l[t]?).map (f (k + t)) := by
  induction l generalizing k t with
  | nil => simp [mapWithIndexFrom]
  | cons a as ih =>
    cases t with
    | zero => simp [mapWithIndexFrom]
    | succ t =>
      simp only [mapWithIndexFrom, List.getElem?_cons_succ, ih (k + 1) t]
      have h : k + 1 + t = k + (t + 1) := by omega
      rw [h]

theorem mapWithIndex_length (f : Nat → α → β) (l : List α) :
    (mapWithIndex f l).length = l.length := mapWithIndexFrom_length f 0 l

theorem mapWithIndex_getElem? (f : Nat → α → β) (t : Nat) (l : List α) :
    (mapWithIndex f l)[t]? = (l[t]?).map (f t) := by
  have h := mapWithIndexFrom_getElem? f 0 t l
  simpa using h

theorem lookupEdge_lt (m : Mesh) (k : Nat) (e : Edge) (h : lookupEdge m k = some e) :
    k < m.edgeCount := by
  unfold lookupEdge at h
  rcases hx : m.edgeArray[k]? with _ | oe
  · rw [hx] at h; cases h
  · exact (List.getElem?_eq_some_iff.mp hx).1

theorem lookupVertex_lt (m : Mesh) (k : Nat) (v : Vertex) (h : lookupVertex m k = some v) :
    k < m.vertexCount := by
  unfold lookupVertex at h
  rcases hx : m.vertexArray[k]? with _ | ov
  · rw [hx] at h; cases h
  · exact (List.getElem?_eq_some_iff.mp hx).1

theorem lookupFace_lt (m : Mesh) (k : Nat) (f : Face) (h : lookupFace m k = some f) :
    k < m.faceCount := by
  unfold lookupFace at h
  rcases hx : m.faceArray[k]? with _ | og
  · rw [hx] at h; cases h
  · exact (List.getElem?_eq_some_iff.mp hx).1

theorem lookupEdge_eq_some_iff (m : Mesh) (k : Nat) (e : Edge) :
    lookupEdge m k = some e ↔ m.edgeArray[k]? = some (some e) := by
  unfold lookupEdge
  rcases hx : m.edgeArray[k]? with _ | oe
  · simp [Option.join]
  · cases oe <;> simp [Option.join]

theorem lookupVertex_eq_some_iff (m : Mesh) (k : Nat) (v : Vertex) :
    lookupVertex m k = some v ↔ m.vertexArray[k]? = some (some v) := by
  unfold lookupVertex
  rcases hx : m.vertexArray[k]? with _ | ov
  · simp [Option.join]
  · cases ov <;> simp [Option.join]

theorem lookupFace_eq_some_iff (m : Mesh) (k : Nat) (f : Face) :
    lookupFace m k = some f ↔ m.faceArray[k]? = some (some f) := by
  unfold lookupFace
  rcases hx : m.faceArray[k]? with _ | og
  · simp [Option.join]
  · cases og <;> simp [Option.join]

theorem edgeDest_some_inv (m : Mesh) (k vd : Nat) (h : edgeDest m k = some vd) :
    ∃ e n en, lookupEdge m k = some e ∧ e.next = some n ∧
      lookupEdge m n = some en ∧ en.vertex = vd := by
  have h2 : (((lookupEdge m k).bind (fun e => e.next)).bind
      (fun n => (lookupEdge m n).map (fun e => e.vertex))) = some vd := h
  rcases he : lookupEdge m k with _ | e
  · rw [he] at h2
    simp at h2
  · rw [he] at h2
    have h3 : (e.next.bind (fun n => (lookupEdge m n).map (fun e => e.vertex))) = some vd := h2
    rcases hn : e.next with _ | n
    · rw [hn] at h3
      simp at h3
    · rw [hn] at h3
      have h4 : (lookupEdge m n).map (fun e => e.vertex) = some vd := h3
      rcases hen : lookupEdge m n with _ | en
      · rw [hen] at h4
        simp at h4
      · rw [hen] at h4
        exact ⟨e, n, en, rfl, hn, hen, by simpa using h4⟩

/-! Iterator lemmas: a full iteration at cursor `c` visits indices `c` up to
the entity count, in increasing order. -/

theorem vertexCollect_from (m : Mesh) (fuel c : Nat) (h : c + fuel = m.vertexCount) :
    VertexIterator.collect fuel ⟨m, c⟩ = (List.range' c fuel).map (fun k => m.vertexArray[k]?) := by
  induction fuel generalizing c with
  | zero => simp [VertexIterator.collect]
  | succ fuel ih =>
    have hne : c ≠ m.vertexCount := by omega
    have hdone : (VertexIterator.isDone ⟨m, c⟩) = false := by
      simp [VertexIterator.isDone, hne]
    have hcur : (VertexIterator.current ⟨m, c⟩) = m.vertexArray[c]? := by
      simp [VertexIterator.current, Mesh.vertexAt, Int.ofNat]
    simp only [VertexIterator.collect, hdone, Bool.false_eq_true, if_false, hcur,
      VertexIterator.advance, List.range']
    rw [ih (c + 1) (by omega)]
    simp

theorem faceCollect_from (m : Mesh) (fuel c : Nat) (h : c + fuel = m.faceCount) :
    FaceIterator.collect fuel ⟨m, c⟩ = (List.range' c fuel).map (fun k => m.faceArray[k]?) := by
  induction fuel generalizing c with
  | zero => simp [FaceIterator.collect]
  | succ fuel ih =>
    have hne : c ≠ m.faceCount := by omega
    have hdone : (FaceIterator.isDone ⟨m, c⟩) = false := by
      simp [FaceIterator.isDone, hne]
    have hcur : (FaceIterator.current ⟨m, c⟩) = m.faceArray[c]? := by
      simp [FaceIterator.current, Mesh.faceAt, Int.ofNat]
    simp only [FaceIterator.collect, hdone, Bool.false_eq_true, if_false, hcur,
      FaceIterator.advance, List.range']
    rw [ih (c + 1) (by omega)]
    simp

theorem edgeCollect_from (m : Mesh) (fuel c : Nat) (h : c + fuel = m.edgeCount) :
    EdgeIterator.collect fuel ⟨m, c⟩ = (List.range' c fuel).map (fun k => m.edgeArray[k]?) := by
  induction fuel generalizing c with
  | zero => simp [EdgeIterator.collect]
  | succ fuel ih =>
    have hne : c ≠ m.edgeCount := by omega
    have hdone : (EdgeIterator.isDone ⟨m, c⟩) = false := by
      simp [EdgeIterator.isDone, hne]
    have hcur : (EdgeIterator.current ⟨m, c⟩) = m.edgeArray[c]? := by
      simp [EdgeIterator.current, Mesh.edgeAt, Int.ofNat]
    simp only [EdgeIterator.collect, hdone, Bool.false_eq_true, if_false, hcur,
      EdgeIterator.advance, List.range']
    rw [ih (c + 1) (by omega)]
    simp

/-- C9: each entity iterator starts at cursor 0, `advance` increments the
cursor by exactly one, `isDone` holds exactly when the cursor reaches the
entity count, `current` reads the entity slot at the cursor, and a full
iteration visits exactly the slots at indices 0 through count-1 in increasing
index order. -/
theorem iterators_enumerate_entities (m : Mesh) :
    (m.vertices.mCurrent = 0 ∧ m.faces.mCurrent = 0 ∧ m.edges.mCurrent = 0) ∧
    (∀ it : VertexIterator, it.advance.mCurrent = it.mCurrent + 1 ∧
      (it.isDone = true ↔ it.mCurrent = it.mesh.vertexCount) ∧
      it.current = it.mesh.vertexArray[it.mCurrent]?) ∧
    (∀ it : FaceIterator, it.advance.mCurrent = it.mCurrent + 1 ∧
      (it.isDone = true ↔ it.mCurrent = it.mesh.faceCount) ∧
      it.current = it.mesh.faceArray[it.mCurrent]?) ∧
    (∀ it : EdgeIterator, it.advance.mCurrent = it.mCurrent + 1 ∧
      (it.isDone = true ↔ it.mCurrent = it.mesh.edgeCount) ∧
      it.current = it.mesh.edgeArray[it.mCurrent]?) ∧
    VertexIterator.collect m.vertexCount m.vertices =
      (List.range m.vertexCount).map (fun k => m.vertexArray[k]?) ∧
    FaceIterator.collect m.faceCount m.faces =
      (List.range m.faceCount).map (fun k => m.faceArray[k]?) ∧
    EdgeIterator.collect m.edgeCount m.edges =
      (List.range m.edgeCount).map (fun k => m.edgeArray[k]?) := by
  refine ⟨⟨rfl, rfl, rfl⟩, ?_, ?_, ?_, ?_, ?_, ?_⟩
  · intro it
    exact ⟨rfl, by simp [VertexIterator.isDone],
      by simp [VertexIterator.current, Mesh.vertexAt, Int.ofNat]⟩
  · intro it
    exact ⟨rfl, by simp [FaceIterator.isDone],
      by simp [FaceIterator.current, Mesh.faceAt, Int.ofNat]⟩
  · intro it
    exact ⟨rfl, by simp [EdgeIterator.isDone],
      by simp [EdgeIterator.current, Mesh.edgeAt, Int.ofNat]⟩
  · rw [Mesh.vertices, vertexCollect_from m m.vertexCount 0 (by omega), List.range_eq_range']
  · rw [Mesh.faces, faceCollect_from m m.faceCount 0 (by omega), List.range_eq_range']
  · rw [Mesh.edges, edgeCollect_from m m.edgeCount 0 (by omega), List.range_eq_range']

/-- C10: the random-access accessors index the backing arrays directly; with
the genuine precondition 0 <= i < count they return the i-th slot (a defined
result), and outside the precondition the access yields no defined result. -/
theorem accessors_unchecked (m : Mesh) (i : Int) :
    (0 ≤ i ∧ i.toNat < m.vertexCount →
      m.vertexAt i = m.vertexArray[i.toNat]? ∧ (m.vertexAt i).isSome = true) ∧
    (i < 0 ∨ m.vertexCount ≤ i.toNat → m.vertexAt i = none) ∧
    (0 ≤ i ∧ i.toNat < m.faceCount →
      m.faceAt i = m.faceArray[i.toNat]? ∧ (m.faceAt i).isSome = true) ∧
    (i < 0 ∨ m.faceCount ≤ i.toNat → m.faceAt i = none) ∧
    (0 ≤ i ∧ i.toNat < m.edgeCount →
      m.edgeAt i = m.edgeArray[i.toNat]? ∧ (m.edgeAt i).isSome = true) ∧
    (i < 0 ∨ m.edgeCount ≤ i.toNat → m.edgeAt i = none) := by
  refine ⟨?_, ?_, ?_, ?_, ?_, ?_⟩
  · rintro ⟨h0, hlt⟩
    have : ¬ i < 0 := by omega
    refine ⟨by simp [Mesh.vertexAt, this], ?_⟩
    simp [Mesh.vertexAt, this, List.getElem?_eq_getElem hlt]
  · rintro (h | h)
    · simp [Mesh.vertexAt, h]
    · by_cases hneg : i < 0
      · simp [Mesh.vertexAt, hneg]
      · simp [Mesh.vertexAt, hneg, List.getElem?_eq_none h]
  · rintro ⟨h0, hlt⟩
    have : ¬ i < 0 := by omega
    refine ⟨by simp [Mesh.faceAt, this], ?_⟩
    simp [Mesh.faceAt, this, List.getElem?_eq_getElem hlt]
  · rintro (h | h)
    · simp [Mesh.faceAt, h]
    · by_cases hneg : i < 0
      · simp [Mesh.faceAt, hneg]
      · simp [Mesh.faceAt, hneg, List.getElem?_eq_none h]
  · rintro ⟨h0, hlt⟩
    have : ¬ i < 0 := by omega
    refine ⟨by simp [Mesh.edgeAt, this], ?_⟩
    simp [Mesh.edgeAt, this, List.getElem?_eq_getElem hlt]
  · rintro (h | h)
    · simp [Mesh.edgeAt, h]
    · by_cases hneg : i < 0
      · simp [Mesh.edgeAt, hneg]
      · simp [Mesh.edgeAt, hneg, List.getElem?_eq_none h]

/-- Concrete mesh used by witnesses: three vertices at distinct positions. -/
def witnessBase : Mesh :=
  ((emptyMesh.addVertex ⟨0, 0, 0⟩).addVertex ⟨1, 0, 0⟩).addVertex ⟨0, 1, 0⟩

/-- Witness for the accessor theorem: at index 1 of the three-vertex mesh the
in-range branch fires, and at index 5 the out-of-range branch fires. -/
theorem accessors_unchecked_witness :
    (witnessBase.vertexAt 1 = witnessBase.vertexArray[(1 : Int).toNat]? ∧
      (witnessBase.vertexAt 1).isSome = true) ∧ witnessBase.faceAt 5 = none := by
  refine ⟨(accessors_unchecked witnessBase 1).1 ⟨by decide, by decide⟩, ?_⟩
  exact (accessors_unchecked witnessBase 5).2.2.2.1 (Or.inr (by decide))

/-- C8: `isValid` is purely observational: the entity arrays, the edge lookup
and the counts come back exactly as they were; on the first invariant
violation it populates the diagnostic triple and reports failure, otherwise it
reports success. -/
theorem isValid_observational (m : Mesh) :
    (m.isValidRun.1.vertexArray = m.vertexArray ∧
     m.isValidRun.1.edgeArray = m.edgeArray ∧
     m.isValidRun.1.faceArray = m.faceArray ∧
     m.isValidRun.1.edgeMap = m.edgeMap ∧
     m.isValidRun.1.colocalVertexCount = m.colocalVertexCount) ∧
    (m.isValidRun.2 = true ↔ firstInvariantViolation m = none) ∧
    (∀ k, firstInvariantViolation m = some k →
      m.isValidRun.2 = false ∧ m.isValidRun.1.errorCount = m.errorCount + 1 ∧
      m.isValidRun.1.errorIndex0 = k ∧ m.isValidRun.1.errorIndex1 = k) := by
  unfold Mesh.isValidRun
  rcases h : firstInvariantViolation m with _ | k
  · simp
  · simp

/-- A deliberately inconsistent mesh: one half-edge with no `next` link. -/
def brokenMesh : Mesh :=
  { emptyMesh with edgeArray :=
      [some { id := 0, vertex := 0, pair := none, next := none, prev := none, face := none }] }

/-- Witness for the `isValid` theorem: on the broken one-edge mesh the audit
fails, bumps the error count and records the offending index. -/
theorem isValid_observational_witness :
    brokenMesh.isValidRun.2 = false ∧
    brokenMesh.isValidRun.1.errorCount = brokenMesh.errorCount + 1 ∧
    brokenMesh.isValidRun.1.errorIndex0 = 0 ∧ brokenMesh.isValidRun.1.errorIndex1 = 0 :=
  (isValid_observational brokenMesh).2.2 0 (by decide)

/-- C1: an `addFace` call whose index tuple has a consecutive pair that is out
of range or lies on an already-fully-paired undirected edge returns no face,
leaves every non-diagnostic component of the mesh exactly as it was, and
records the first offending pair in the diagnostic triple with an incremented
error count. -/
theorem addFace_rejects_invalid (m : Mesh) (idx : List Nat) (first num : Nat)
    (h3 : 3 ≤ num) (hw : first + num ≤ idx.length)
    (hbad : ∃ q, q ∈ facePairs idx first num ∧
      (¬ (q.1 < m.vertexCount ∧ q.2 < m.vertexCount) ∨
       ((m.findEdge q.1 q.2).isSome = true ∧ (m.findEdge q.2 q.1).isSome = true))) :
    (m.addFace idx first num).2 = none ∧
    (m.addFace idx first num).1.vertexArray = m.vertexArray ∧
    (m.addFace idx first num).1.edgeArray = m.edgeArray ∧
    (m.addFace idx first num).1.faceArray = m.faceArray ∧
    (m.addFace idx first num).1.edgeMap = m.edgeMap ∧
    (m.addFace idx first num).1.colocalVertexCount = m.colocalVertexCount ∧
    (m.addFace idx first num).1.errorCount = m.errorCount + 1 ∧
    (∃ q, firstViolation m (facePairs idx first num) = some q ∧
      (m.addFace idx first num).1.errorIndex0 = q.1 ∧
      (m.addFace idx first num).1.errorIndex1 = q.2) := by
  obtain ⟨q, hmem, hq⟩ := hbad
  have hok : okPair m (facePairs idx first num) q = false := by
    rcases hq with hq | ⟨hq1, hq2⟩
    · rcases Decidable.not_and_iff_or_not.mp hq with h | h <;>
        simp [okPair, decide_eq_false h]
    · have h1 : (m.findEdge q.1 q.2).isNone = false := by
        rcases hx : m.findEdge q.1 q.2 with _ | e
        · rw [hx] at hq1; cases hq1
        · rfl
      simp [okPair, h1]
  have hsome : (firstViolation m (facePairs idx first num)).isSome = true := by
    unfold firstViolation
    exact List.find?_isSome.mpr ⟨q, hmem, by simp [hok]⟩
  rcases hv : firstViolation m (facePairs idx first num) with _ | q0
  · rw [hv] at hsome; cases hsome
  · have hcond : 3 ≤ num ∧ first + num ≤ idx.length := ⟨h3, hw⟩
    have hres : m.addFace idx first num =
        ({ m with errorCount := m.errorCount + 1,
                  errorIndex0 := q0.1, errorIndex1 := q0.2 }, none) := by
      simp [Mesh.addFace, hcond, hv]
    rw [hres]
    exact ⟨rfl, rfl, rfl, rfl, rfl, rfl, rfl, q0, rfl, rfl, rfl⟩

/-- Witness for the `addFace` rejection theorem: the face (0, 1, 5) on the
three-vertex mesh has the out-of-range pair (1, 5). -/
theorem addFace_rejects_invalid_witness :
    (witnessBase.addFace [0, 1, 5] 0 3).2 = none ∧
    (witnessBase.addFace [0, 1, 5] 0 3).1.vertexArray = witnessBase.vertexArray ∧
    (witnessBase.addFace [0, 1, 5] 0 3).1.edgeArray = witnessBase.edgeArray ∧
    (witnessBase.addFace [0, 1, 5] 0 3).1.faceArray = witnessBase.faceArray ∧
    (witnessBase.addFace [0, 1, 5] 0 3).1.edgeMap = witnessBase.edgeMap ∧
    (witnessBase.addFace [0, 1, 5] 0 3).1.colocalVertexCount = witnessBase.colocalVertexCount ∧
    (witnessBase.addFace [0, 1, 5] 0 3).1.errorCount = witnessBase.errorCount + 1 ∧
    (∃ q, firstViolation witnessBase (facePairs [0, 1, 5] 0 3) = some q ∧
      (witnessBase.addFace [0, 1, 5] 0 3).1.errorIndex0 = q.1 ∧
      (witnessBase.addFace [0, 1, 5] 0 3).1.errorIndex1 = q.2) :=
  addFace_rejects_invalid witnessBase [0, 1, 5] 0 3 (by decide) (by decide)
    ⟨(1, 5), by decide, Or.inl (by decide)⟩

/-- The spec scenario mesh: three vertices, then the face (0, 1, 2). -/
def demoStep1 : Mesh × Option Nat := witnessBase.addFace3 0 1 2

/-- The spec scenario, second step: the face (1, 0, 2) with consistent
winding, traversing the shared edge {0, 1} in the opposite direction. -/
def demoStep2 : Mesh × Option Nat := demoStep1.1.addFace3 1 0 2

/-- The spec scenario, third step: the face (0, 1, 2) again, identically. -/
def demoStep3 : Mesh × Option Nat := demoStep2.1.addFace3 0 1 2

/-- C4: after `addFace(0,1,2)`, the call `addFace(1,0,2)` succeeds and makes
the two half-edges of the shared undirected edge {0, 1} mutual pairs; calling
`addFace(0,1,2)` a second time identically after that fails and leaves the
error count strictly positive. -/
theorem shared_edge_scenario :
    demoStep1.2.isSome = true ∧ demoStep2.2.isSome = true ∧
    (∃ a b, demoStep2.1.findEdge 0 1 = some a ∧ demoStep2.1.findEdge 1 0 = some b ∧
      (lookupEdge demoStep2.1 a).map Edge.pair = some (some b) ∧
      (lookupEdge demoStep2.1 b).map Edge.pair = some (some a)) ∧
    demoStep3.2 = none ∧ 0 < demoStep3.1.errorCount :=
  ⟨by decide, by decide, ⟨0, 3, by decide, by decide, by decide, by decide⟩, by decide, by decide⟩

/-! Structural well-formedness: the conjunction of the pointer and lookup
invariants that the construction operations maintain. -/

/-- A face cycle: a nonempty duplicate-free list of edge ids such that each
one belongs to the face, `next` steps cyclically forward through the list and
`prev` steps cyclically backward (so `prev` inverts `next` along the cycle). -/
def FaceCycle (m : Mesh) (fid : Nat) (cyc : List Nat) : Prop :=
  cyc ≠ [] ∧ cyc.Nodup ∧
  ∀ t, t < cyc.length →
    ∃ e, lookupEdge m (cyc.getD t 0) = some e ∧ e.face = some fid ∧
      e.next = some (cyc.getD ((t + 1) % cyc.length) 0) ∧
      e.prev = some (cyc.getD ((t + cyc.length - 1) % cyc.length) 0)

/-- The well-formedness invariant of a mesh under construction: live slots
with index-valued ids, in-range cross references, a coherent edge lookup
(keys unique, values unique, origin/destination faithful, covering all
edges), mutual pairing whose origin stays colocal with the destination,
in-range `next`/`prev` links, and a genuine cycle for every face with `prev`
inverting `next` along it. -/
structure WF (m : Mesh) : Prop where
  vSlot : ∀ k, k < m.vertexCount → ∃ v, m.vertexArray[k]? = some (some v) ∧ v.id = k
  eSlot : ∀ k, k < m.edgeCount → ∃ e, m.edgeArray[k]? = some (some e) ∧ e.id = k
  fSlot : ∀ k, k < m.faceCount → ∃ f, m.faceArray[k]? = some (some f) ∧ f.id = k
  vEdgeRange : ∀ k v e, lookupVertex m k = some v → v.edge = some e → e < m.edgeCount
  vColRange : ∀ k v, lookupVertex m k = some v → v.colocal < m.vertexCount
  eVertRange : ∀ k e, lookupEdge m k = some e → e.vertex < m.vertexCount
  eFaceRange : ∀ k e f, lookupEdge m k = some e → e.face = some f → f < m.faceCount
  mapKeysNodup : (m.edgeMap.map Prod.fst).Nodup
  mapValsNodup : (m.edgeMap.map Prod.snd).Nodup
  mapEntryOrigin : ∀ i j eid, ((i, j), eid) ∈ m.edgeMap →
    eid < m.edgeCount ∧ ∀ e, lookupEdge m eid = some e → e.vertex = i ∧
      ∀ n en, e.next = some n → lookupEdge m n = some en → en.vertex = j
  mapCover : ∀ eid e, lookupEdge m eid = some e → ∃ i j, ((i, j), eid) ∈ m.edgeMap
  pairSym : ∀ k e p, lookupEdge m k = some e → e.pair = some p →
    ∃ e2, lookupEdge m p = some e2 ∧ e2.pair = some k
  pairColoc : ∀ k e p, lookupEdge m k = some e → e.pair = some p →
    ∃ ep, lookupEdge m p = some ep ∧ ∀ vd, edgeDest m k = some vd →
      posAt m ep.vertex = posAt m vd
  nextBound : ∀ k e n, lookupEdge m k = some e → e.next = some n → n < m.edgeCount
  prevBound : ∀ k e n, lookupEdge m k = some e → e.prev = some n → n < m.edgeCount
  faceCycles : ∀ fid f, lookupFace m fid = some f →
    ∃ cyc, f.edge = some (cyc.headD 0) ∧ FaceCycle m fid cyc

/-- Changing only the diagnostic triple preserves well-formedness. -/
theorem WF.diag (w : WF m) (a b c : Nat) :
    WF { m with errorCount := a, errorIndex0 := b, errorIndex1 := c } := by
  rcases w with ⟨w1, w2, w3, w4, w5, w6, w7, w8, w9, w10, w11, w12, w13, w14, w15, w16⟩
  exact ⟨w1, w2, w3, w4, w5, w6, w7, w8, w9, w10, w11, w12, w13, w14, w15, w16⟩

/-- The empty mesh is well-formed. -/
theorem WF.empty : WF emptyMesh := by
  refine ⟨?_, ?_, ?_, ?_, ?_, ?_, ?_, ?_, ?_, ?_, ?_, ?_, ?_, ?_, ?_, ?_⟩ <;>
    simp [emptyMesh, Mesh.vertexCount, Mesh.edgeCount, Mesh.faceCount,
      lookupVertex, lookupEdge, lookupFace]

/-- Adding a vertex preserves well-formedness. -/
theorem WF.addVertex (w : WF m) (p : Vector3) : WF (m.addVertex p) := by
  have hva : (m.addVertex p).vertexArray =
      m.vertexArray ++ [some { id := m.vertexArray.length, pos := p,
                               edge := none, colocal := m.vertexArray.length }] := rfl
  have hcount : (m.addVertex p).vertexCount = m.vertexCount + 1 := by
    simp [Mesh.addVertex, Mesh.vertexCount]
  have hlookup : ∀ k, k < m.vertexCount →
      (m.addVertex p).vertexArray[k]? = m.vertexArray[k]? := by
    intro k hk
    rw [hva]
    exact List.getElem?_append_left hk
  have hlookupV : ∀ k v, lookupVertex (m.addVertex p) k = some v →
      lookupVertex m k = some v ∨
        (k = m.vertexCount ∧ v = { id := m.vertexArray.length, pos := p,
                                   edge := none, colocal := m.vertexArray.length }) := by
    intro k v hv
    rw [lookupVertex_eq_some_iff] at hv
    by_cases hk : k < m.vertexCount
    · left
      rw [lookupVertex_eq_some_iff]
      rw [hlookup k hk] at hv
      exact hv
    · right
      rw [hva] at hv
      have hk2 : m.vertexArray.length ≤ k := by
        simpa [Mesh.vertexCount] using hk
      rw [List.getElem?_append_right hk2] at hv
      rcases Nat.lt_or_ge (k - m.vertexArray.length) 1 with hlt | hge
      · have he : k - m.vertexArray.length = 0 := by omega
        rw [he] at hv
        simp at hv
        exact ⟨by simp [Mesh.vertexCount]; omega, hv.symm⟩
      · rw [List.getElem?_eq_none (by simpa using hge)] at hv
        cases hv
  have heq : ∀ k, lookupEdge (m.addVertex p) k = lookupEdge m k := fun k => rfl
  have hfq : ∀ k, lookupFace (m.addVertex p) k = lookupFace m k := fun k => rfl
  have hde : ∀ x, edgeDest (m.addVertex p) x = edgeDest m x := fun x => rfl
  have hposA : ∀ v, v < m.vertexCount → posAt (m.addVertex p) v = posAt m v := by
    intro v hv
    simp only [posAt, lookupVertex]
    rw [hlookup v hv]
  refine ⟨?_, ?_, ?_, ?_, ?_, ?_, ?_, w.mapKeysNodup, w.mapValsNodup, ?_, ?_, ?_, ?_, ?_, ?_, ?_⟩
  · intro k hk
    rw [hcount] at hk
    rcases Nat.lt_or_ge k m.vertexCount with hlt | hge
    · obtain ⟨v, hv, hid⟩ := w.vSlot k hlt
      exact ⟨v, by rw [hlookup k hlt]; exact hv, hid⟩
    · have hke : k = m.vertexCount := by omega
      subst hke
      refine ⟨{ id := m.vertexArray.length, pos := p, edge := none,
                colocal := m.vertexArray.length }, ?_, rfl⟩
      rw [hva]
      rw [List.getElem?_append_right (by simp [Mesh.vertexCount])]
      simp [Mesh.vertexCount]
  · intro k hk
    obtain ⟨e, he, hid⟩ := w.eSlot k hk
    exact ⟨e, he, hid⟩
  · intro k hk
    obtain ⟨f, hf, hid⟩ := w.fSlot k hk
    exact ⟨f, hf, hid⟩
  · intro k v e hv he
    rcases hlookupV k v hv with h | ⟨hk, hveq⟩
    · exact w.vEdgeRange k v e h he
    · rw [hveq] at he; cases he
  · intro k v hv
    rw [hcount]
    rcases hlookupV k v hv with h | ⟨hk, hveq⟩
    · exact Nat.lt_succ_of_lt (w.vColRange k v h)
    · rw [hveq]
      simp [Mesh.vertexCount]
  · intro k e he
    rw [heq] at he
    rw [hcount]
    exact Nat.lt_succ_of_lt (w.eVertRange k e he)
  · intro k e f he hf
    rw [heq] at he
    exact w.eFaceRange k e f he hf
  · intro i j eid hmem
    obtain ⟨h1, h2⟩ := w.mapEntryOrigin i j eid hmem
    exact ⟨h1, fun e he => by rw [heq] at he; exact ⟨(h2 e he).1,
      fun n en hn hen => (h2 e he).2 n en hn (by rw [heq] at hen; exact hen)⟩⟩
  · intro eid e he
    rw [heq] at he
    exact w.mapCover eid e he
  · intro k e pp he hp
    rw [heq] at he
    obtain ⟨e2, he2, hp2⟩ := w.pairSym k e pp he hp
    exact ⟨e2, by rw [heq]; exact he2, hp2⟩
  · intro k e pp he hp
    rw [heq] at he
    obtain ⟨ep, hep, hcol⟩ := w.pairColoc k e pp he hp
    refine ⟨ep, by rw [heq]; exact hep, ?_⟩
    intro vd hvd
    rw [hde k] at hvd
    have hv1 : ep.vertex < m.vertexCount := w.eVertRange pp ep hep
    have hv2 : vd < m.vertexCount := by
      obtain ⟨e3, n, en, _, _, hen, hvv⟩ := edgeDest_some_inv m k vd hvd
      rw [← hvv]
      exact w.eVertRange n en hen
    rw [hposA _ hv1, hposA _ hv2]
    exact hcol vd hvd
  · intro k e n he hn
    rw [heq] at he
    exact w.nextBound k e n he hn
  · intro k e n he hn
    rw [heq] at he
    exact w.prevBound k e n he hn
  · intro fid f hf
    rw [hfq] at hf
    obtain ⟨cyc, hfe, hne, hnd, hstep⟩ := w.faceCycles fid f hf
    refine ⟨cyc, hfe, hne, hnd, ?_⟩
    intro t ht
    obtain ⟨e, he, hface, hnext, hprev⟩ := hstep t ht
    exact ⟨e, by rw [heq]; exact he, hface, hnext, hprev⟩

/-- The colocal successor of an in-range vertex is in range. -/
theorem colocalSucc_lt (m : Mesh) (k : Nat) (hk : k < m.vertexCount) :
    colocalSucc m k < m.vertexCount := by
  unfold colocalSucc
  rcases hpos : posAt m k with _ | p
  · exact hk
  · have hgen : ∀ (l : List Nat), (∀ x, x ∈ l → x < m.vertexCount) →
        (match l.filter (fun j => decide (k < j)) with
         | x :: _ => x
         | [] => l.headD k) < m.vertexCount := by
      intro l hl
      rcases hfl : l.filter (fun j => decide (k < j)) with _ | ⟨x, xs⟩
      · rcases l with _ | ⟨y, ys⟩
        · simpa using hk
        · exact hl y (List.mem_cons_self y ys)
      · have hx : x ∈ l := List.mem_of_mem_filter (by rw [hfl]; exact List.mem_cons_self x xs)
        exact hl x hx
    exact hgen (colocalGroup m p) (fun x hx => List.mem_range.mp (List.mem_of_mem_filter hx))

/-- Rewiring every vertex's colocal link through an in-range successor
function (and resetting the colocal-group counter) preserves
well-formedness; both colocal-welding variants are instances. -/
theorem WF.recolocal (w : WF m) (f : Nat → Nat) (cnt : Nat)
    (hf : ∀ k, k < m.vertexCount → f k < m.vertexCount) :
    WF { m with
      vertexArray := mapWithIndex (fun k ov => ov.map (fun v => { v with colocal := f k })) m.vertexArray,
      colocalVertexCount := cnt } := by
  have hva : ({ m with
      vertexArray := mapWithIndex (fun k ov => ov.map (fun v => { v with colocal := f k })) m.vertexArray,
      colocalVertexCount := cnt } : Mesh).vertexArray =
      mapWithIndex (fun k ov => ov.map (fun v : Vertex => { v with colocal := f k }))
        m.vertexArray := rfl
  set m2 : Mesh := { m with
      vertexArray := mapWithIndex (fun k ov => ov.map (fun v => { v with colocal := f k })) m.vertexArray,
      colocalVertexCount := cnt } with hm2
  have hcount : m2.vertexCount = m.vertexCount := by
    have h2 := congrArg List.length hva
    simpa [Mesh.vertexCount, mapWithIndex_length] using h2
  have hslot : ∀ k, m2.vertexArray[k]? =
      (m.vertexArray[k]?).map (Option.map (fun v : Vertex => { v with colocal := f k })) := by
    intro k
    rw [hva, mapWithIndex_getElem?]
  have hlv : ∀ k, lookupVertex m2 k =
      (lookupVertex m k).map (fun v => { v with colocal := f k }) := by
    intro k
    unfold lookupVertex
    rw [hslot k]
    rcases m.vertexArray[k]? with _ | ov
    · rfl
    · cases ov <;> rfl
  have hpos : ∀ v, posAt m2 v = posAt m v := by
    intro v
    simp only [posAt]
    rw [hlv v]
    rcases lookupVertex m v with _ | v0 <;> rfl
  refine ⟨?_, w.eSlot, w.fSlot, ?_, ?_, ?_, ?_, w.mapKeysNodup, w.mapValsNodup,
    w.mapEntryOrigin, w.mapCover, w.pairSym, ?_, w.nextBound, w.prevBound, w.faceCycles⟩
  · intro k hk
    rw [hcount] at hk
    obtain ⟨v, hv, hid⟩ := w.vSlot k hk
    refine ⟨{ id := v.id, pos := v.pos, edge := v.edge, colocal := f k }, ?_, hid⟩
    rw [hslot k, hv]
    rfl
  · intro k v e hv he
    rw [hlv k] at hv
    rcases hv0 : lookupVertex m k with _ | v0
    · rw [hv0] at hv; cases hv
    · rw [hv0] at hv
      have hv2 : (some { v0 with colocal := f k } : Option Vertex) = some v := hv
      have hveq : v = { v0 with colocal := f k } := (Option.some_inj.mp hv2).symm
      have hedge : v0.edge = some e := by
        rw [hveq] at he
        exact he
      exact w.vEdgeRange k v0 e hv0 hedge
  · intro k v hv
    rw [hlv k] at hv
    rcases hv0 : lookupVertex m k with _ | v0
    · rw [hv0] at hv; cases hv
    · rw [hv0] at hv
      have hv2 : (some { v0 with colocal := f k } : Option Vertex) = some v := hv
      have hveq : v = { v0 with colocal := f k } := (Option.some_inj.mp hv2).symm
      have hgoal : v.colocal = f k := by rw [hveq]
      rw [hgoal, hcount]
      exact hf k (lookupVertex_lt m k v0 hv0)
  · intro k e he
    rw [hcount]
    exact w.eVertRange k e he
  · exact w.eFaceRange
  · intro k e pp he hp
    obtain ⟨ep, hep, hcol⟩ := w.pairColoc k e pp he hp
    refine ⟨ep, hep, ?_⟩
    intro vd hvd
    rw [hpos ep.vertex, hpos vd]
    exact hcol vd hvd

/-- The canonical-group successor of an in-range vertex is in range. -/
theorem canonSucc_lt (m : Mesh) (canon : List Nat) (k : Nat) (hk : k < m.vertexCount) :
    canonSucc m canon k < m.vertexCount := by
  unfold canonSucc
  rcases hl : lookupVertex m k with _ | v
  · exact hk
  · have hgen : ∀ (l : List Nat), (∀ x, x ∈ l → x < m.vertexCount) →
        (match l.filter (fun j => decide (k < j)) with
         | x :: _ => x
         | [] => l.headD k) < m.vertexCount := by
      intro l hl2
      rcases hfl : l.filter (fun j => decide (k < j)) with _ | ⟨x, xs⟩
      · rcases l with _ | ⟨y, ys⟩
        · simpa using hk
        · exact hl2 y (List.mem_cons_self y ys)
      · have hx : x ∈ l := List.mem_of_mem_filter (by rw [hfl]; exact List.mem_cons_self x xs)
        exact hl2 x hx
    exact hgen (canonGroup m canon (canonOf canon k))
      (fun x hx => List.mem_range.mp (List.mem_of_mem_filter hx))

/-- Linking colocals preserves well-formedness. -/
theorem WF.linkColocals (w : WF m) : WF m.linkColocals :=
  WF.recolocal w (colocalSucc m) (((m.vertexArray.filterMap id).map Vertex.pos).dedup.length)
    (fun k hk => colocalSucc_lt m k hk)

/-- Linking colocals through a canonical map preserves well-formedness. -/
theorem WF.linkColocalsCanonical (w : WF m) (canon : List Nat) :
    WF (m.linkColocalsWithCanonicalMap canon) :=
  WF.recolocal w (canonSucc m canon)
    ((((List.range m.vertexCount).filter (fun j => (lookupVertex m j).isSome)).map
      (canonOf canon)).dedup.length)
    (fun k hk => canonSucc_lt m canon k hk)

/-! Compaction: on a well-formed mesh every slot is live and every reference
is in range, so each compaction pass is the identity; in general, one pass
normalizes the mesh so that a second pass is the identity. -/

theorem countP_take_all (l : List (Option α)) (k : Nat)
    (hall : ∀ x ∈ l, Option.isSome x = true) :
    (l.take k).countP (fun s => s.isSome) = (l.take k).length := by
  apply List.countP_eq_length.mpr
  intro x hx
  exact hall x (List.mem_of_mem_take hx)

theorem remapRef_all_some (l : List (Option α))
    (hall : ∀ x ∈ l, Option.isSome x = true) (k : Nat) :
    remapRef l k = if k < l.length then some k else none := by
  unfold remapRef survivorsBefore
  rcases hx : l[k]? with _ | ox
  · have hk : ¬ k < l.length := by
      intro hk
      rw [List.getElem?_eq_getElem hk] at hx
      cases hx
    simp [hk]
  · have hk : k < l.length := (List.getElem?_eq_some_iff.mp hx).1
    have hox : ox.isSome = true := by
      have : ox ∈ l := by
        have := List.getElem?_eq_some_iff.mp hx
        obtain ⟨h1, h2⟩ := this
        rw [← h2]
        exact List.getElem_mem h1
      exact hall ox this
    rcases ox with _ | x
    · cases hox
    · rw [countP_take_all l k hall]
      simp [hk, List.length_take, Nat.min_def, Nat.le_of_lt hk]

theorem remapKeep_all_some (l : List (Option α))
    (hall : ∀ x ∈ l, Option.isSome x = true) (k : Nat) :
    remapKeep l k = k := by
  unfold remapKeep
  rw [remapRef_all_some l hall k]
  by_cases hk : k < l.length <;> simp [hk]

theorem mapWithIndexFrom_filterMap_reconstruct (g : Nat → α → α) :
    ∀ (l : List (Option α)) (s : Nat),
      (∀ k, k < l.length → ∃ a, l[k]? = some (some a) ∧ g (s + k) a = a) →
      mapWithIndexFrom (fun k a => some (g k a)) s (l.filterMap id) = l := by
  intro l
  induction l with
  | nil => intro s _; rfl
  | cons o rest ih =>
    intro s h
    obtain ⟨a, ha, hga⟩ := h 0 (by simp)
    simp only [List.getElem?_cons_zero] at ha
    have ho : o = some a := Option.some_inj.mp ha
    subst ho
    have hstep : ∀ k, k < rest.length → ∃ a, rest[k]? = some (some a) ∧ g (s + 1 + k) a = a := by
      intro k hk
      obtain ⟨b, hb, hgb⟩ := h (k + 1) (by simpa using Nat.succ_lt_succ hk)
      refine ⟨b, by simpa using hb, ?_⟩
      have harith : s + 1 + k = s + (k + 1) := by omega
      rw [harith]
      exact hgb
    simp only [List.filterMap_cons, id]
    rw [show (mapWithIndexFrom (fun k a => some (g k a)) s (a :: rest.filterMap id)) =
        some (g s a) :: mapWithIndexFrom (fun k a => some (g k a)) (s + 1) (rest.filterMap id)
      from rfl]
    rw [ih (s + 1) hstep]
    simp only [Nat.add_zero] at hga
    rw [hga]

theorem mapWithIndex_filterMap_reconstruct (g : Nat → α → α) (l : List (Option α))
    (h : ∀ k, k < l.length → ∃ a, l[k]? = some (some a) ∧ g k a = a) :
    mapWithIndex (fun k a => some (g k a)) (l.filterMap id) = l := by
  unfold mapWithIndex
  apply mapWithIndexFrom_filterMap_reconstruct g l 0
  intro k hk
  obtain ⟨a, ha, hg⟩ := h k hk
  exact ⟨a, ha, by simpa using hg⟩

theorem filterMap_id_length (l : List (Option α)) :
    (l.filterMap id).length = l.countP (fun s => s.isSome) := by
  induction l with
  | nil => rfl
  | cons o rest ih =>
    rcases o with _ | a <;> simp [List.filterMap_cons, ih, List.countP_cons]

theorem remapRef_lt (arr : List (Option α)) (k r : Nat) (h : remapRef arr k = some r) :
    r < (arr.filterMap id).length := by
  unfold remapRef at h
  rcases hx : arr[k]? with _ | ox
  · rw [hx] at h; cases h
  · rcases ox with _ | a
    · rw [hx] at h; cases h
    · rw [hx] at h
      have hr : r = survivorsBefore arr k := (Option.some_inj.mp h).symm
      subst hr
      rw [filterMap_id_length]
      have hk : k < arr.length := (List.getElem?_eq_some_iff.mp hx).1
      have hsplit : arr.countP (fun s => s.isSome) =
          (arr.take k).countP (fun s => s.isSome) + (arr.drop k).countP (fun s => s.isSome) := by
        rw [← List.countP_append, List.take_append_drop]
      have hdrop : 1 ≤ (arr.drop k).countP (fun s => s.isSome) := by
        have hd : (arr.drop k)[0]? = some (some a) := by
          rw [List.getElem?_drop]
          simpa using hx
        rcases hdl : arr.drop k with _ | ⟨y, ys⟩
        · rw [hdl] at hd; cases hd
        · rw [hdl] at hd
          simp only [List.getElem?_cons_zero] at hd
          have hy : y = some a := Option.some_inj.mp hd
          rw [List.countP_cons]
          have : (fun s : Option α => s.isSome) y = true := by rw [hy]; rfl
          simp [this]
      unfold survivorsBefore
      omega

theorem headD_eq_getD (l : List Nat) (h : l ≠ []) : l.headD 0 = l.getD 0 0 := by
  cases l with
  | nil => cases h rfl
  | cons a as => rfl

theorem map_option_congr_id (l : List (Option α)) (g : α → α)
    (h : ∀ (k : Nat) (a : α), l[k]? = some (some a) → g a = a) :
    l.map (Option.map g) = l := by
  induction l with
  | nil => rfl
  | cons o rest ih =>
    have hrest : ∀ (k : Nat) (a : α), rest[k]? = some (some a) → g a = a := by
      intro k a ha
      have hc : (o :: rest)[k + 1]? = some (some a) := by
        rw [List.getElem?_cons_succ]
        exact ha
      exact h (k + 1) a hc
    rw [List.map_cons, ih hrest]
    rcases o with _ | a
    · rfl
    · rw [show Option.map g (some a) = some (g a) from rfl, h 0 a (by simp)]

theorem all_isSome_of_slots (l : List (Option α))
    (hsome : ∀ k, k < l.length → ∃ a, l[k]? = some (some a)) :
    ∀ x, x ∈ l → Option.isSome x = true := by
  intro x hx
  obtain ⟨k, hk, hgx⟩ := List.mem_iff_getElem.mp hx
  obtain ⟨a, ha⟩ := hsome k hk
  rw [List.getElem?_eq_getElem hk, hgx] at ha
  have : x = some a := Option.some_inj.mp ha
  rw [this]
  rfl

/-- A vertex compaction pass is the identity as soon as every vertex slot is
live with its id equal to its index. -/
theorem compactVertices_id_of (m : Mesh)
    (hsome : ∀ k, k < m.vertexArray.length →
      ∃ v, m.vertexArray[k]? = some (some v) ∧ v.id = k) :
    m.compactVertices = m := by
  have hall : ∀ x, x ∈ m.vertexArray → Option.isSome x = true :=
    all_isSome_of_slots m.vertexArray (fun k hk => ⟨(hsome k hk).choose, (hsome k hk).choose_spec.1⟩)
  have hkeep := remapKeep_all_some m.vertexArray hall
  have h1 : mapWithIndex (fun k v =>
      some { v with id := k, colocal := remapKeep m.vertexArray v.colocal })
      (m.vertexArray.filterMap id) = m.vertexArray := by
    apply mapWithIndex_filterMap_reconstruct
    intro k hk
    obtain ⟨v, hv, hid⟩ := hsome k hk
    refine ⟨v, hv, ?_⟩
    rw [hkeep, ← hid]
  have h2 : m.edgeArray.map (Option.map (fun e =>
      { e with vertex := remapKeep m.vertexArray e.vertex })) = m.edgeArray := by
    apply map_option_congr_id
    intro k e _
    rw [hkeep]
  have hform : m.compactVertices = { m with
      vertexArray := mapWithIndex (fun k v =>
        some { v with id := k, colocal := remapKeep m.vertexArray v.colocal })
        (m.vertexArray.filterMap id),
      edgeArray := m.edgeArray.map (Option.map (fun e =>
        { e with vertex := remapKeep m.vertexArray e.vertex })) } := rfl
  rw [hform, h1, h2]

/-- An edge compaction pass is the identity as soon as every edge slot is live
with its id equal to its index and every edge reference is in range. -/
theorem compactEdges_id_of (m : Mesh)
    (hsome : ∀ k, k < m.edgeArray.length →
      ∃ e, m.edgeArray[k]? = some (some e) ∧ e.id = k)
    (hnext : ∀ k e n, lookupEdge m k = some e → e.next = some n → n < m.edgeArray.length)
    (hprev : ∀ k e q, lookupEdge m k = some e → e.prev = some q → q < m.edgeArray.length)
    (hpair : ∀ k e p, lookupEdge m k = some e → e.pair = some p → p < m.edgeArray.length)
    (hvedge : ∀ k v r, lookupVertex m k = some v → v.edge = some r → r < m.edgeArray.length)
    (hfedge : ∀ k f r, lookupFace m k = some f → f.edge = some r → r < m.edgeArray.length) :
    m.compactEdges = m := by
  have hall : ∀ x, x ∈ m.edgeArray → Option.isSome x = true :=
    all_isSome_of_slots m.edgeArray (fun k hk => ⟨(hsome k hk).choose, (hsome k hk).choose_spec.1⟩)
  have hremap : ∀ r, r < m.edgeArray.length → remapRef m.edgeArray r = some r := by
    intro r hr
    rw [remapRef_all_some m.edgeArray hall r, if_pos hr]
  have hbind : ∀ (o : Option Nat), (∀ r, o = some r → r < m.edgeArray.length) →
      o.bind (remapRef m.edgeArray) = o := by
    intro o ho
    rcases o with _ | r
    · rfl
    · show remapRef m.edgeArray r = some r
      exact hremap r (ho r rfl)
  have h1 : mapWithIndex (fun k e =>
      some { e with id := k,
                    next := e.next.bind (remapRef m.edgeArray),
                    prev := e.prev.bind (remapRef m.edgeArray),
                    pair := e.pair.bind (remapRef m.edgeArray) })
      (m.edgeArray.filterMap id) = m.edgeArray := by
    apply mapWithIndex_filterMap_reconstruct
    intro k hk
    obtain ⟨e, he, hid⟩ := hsome k hk
    have hle : lookupEdge m k = some e := (lookupEdge_eq_some_iff m k e).mpr he
    refine ⟨e, he, ?_⟩
    rw [hbind e.next (fun r hr => hnext k e r hle hr),
        hbind e.prev (fun r hr => hprev k e r hle hr),
        hbind e.pair (fun r hr => hpair k e r hle hr), ← hid]
  have h2 : m.vertexArray.map (Option.map (fun v =>
      { v with edge := v.edge.bind (remapRef m.edgeArray) })) = m.vertexArray := by
    apply map_option_congr_id
    intro k v hv
    have hlv : lookupVertex m k = some v := (lookupVertex_eq_some_iff m k v).mpr hv
    rw [hbind v.edge (fun r hr => hvedge k v r hlv hr)]
  have h3 : m.faceArray.map (Option.map (fun f =>
      { f with edge := f.edge.bind (remapRef m.edgeArray) })) = m.faceArray := by
    apply map_option_congr_id
    intro k f hf
    have hlf : lookupFace m k = some f := (lookupFace_eq_some_iff m k f).mpr hf
    rw [hbind f.edge (fun r hr => hfedge k f r hlf hr)]
  have hform : m.compactEdges = { m with
      edgeArray := mapWithIndex (fun k e =>
        some { e with id := k,
                      next := e.next.bind (remapRef m.edgeArray),
                      prev := e.prev.bind (remapRef m.edgeArray),
                      pair := e.pair.bind (remapRef m.edgeArray) })
        (m.edgeArray.filterMap id),
      vertexArray := m.vertexArray.map (Option.map (fun v =>
        { v with edge := v.edge.bind (remapRef m.edgeArray) })),
      faceArray := m.faceArray.map (Option.map (fun f =>
        { f with edge := f.edge.bind (remapRef m.edgeArray) })) } := rfl
  rw [hform, h1, h2, h3]

/-- A face compaction pass is the identity as soon as every face slot is live
with its id equal to its index and every owning-face reference is in range. -/
theorem compactFaces_id_of (m : Mesh)
    (hsome : ∀ k, k < m.faceArray.length →
      ∃ f, m.faceArray[k]? = some (some f) ∧ f.id = k)
    (heface : ∀ k e r, lookupEdge m k = some e → e.face = some r → r < m.faceArray.length) :
    m.compactFaces = m := by
  have hall : ∀ x, x ∈ m.faceArray → Option.isSome x = true :=
    all_isSome_of_slots m.faceArray (fun k hk => ⟨(hsome k hk).choose, (hsome k hk).choose_spec.1⟩)
  have hremap : ∀ r, r < m.faceArray.length → remapRef m.faceArray r = some r := by
    intro r hr
    rw [remapRef_all_some m.faceArray hall r, if_pos hr]
  have h1 : mapWithIndex (fun k f => some { f with id := k })
      (m.faceArray.filterMap id) = m.faceArray := by
    apply mapWithIndex_filterMap_reconstruct
    intro k hk
    obtain ⟨f, hf, hid⟩ := hsome k hk
    exact ⟨f, hf, by rw [← hid]⟩
  have h2 : m.edgeArray.map (Option.map (fun e =>
      { e with face := e.face.bind (remapRef m.faceArray) })) = m.edgeArray := by
    apply map_option_congr_id
    intro k e he
    have hle : lookupEdge m k = some e := (lookupEdge_eq_some_iff m k e).mpr he
    have hres : e.face.bind (remapRef m.faceArray) = e.face := by
      rcases hface : e.face with _ | r
      · rfl
      · show remapRef m.faceArray r = some r
        exact hremap r (heface k e r hle hface)
    rw [hres]
  have hform : m.compactFaces = { m with
      faceArray := mapWithIndex (fun k f => some { f with id := k })
        (m.faceArray.filterMap id),
      edgeArray := m.edgeArray.map (Option.map (fun e =>
        { e with face := e.face.bind (remapRef m.faceArray) })) } := rfl
  rw [hform, h1, h2]

theorem mapWithIndex_some_slots (g : Nat → α → α) (l : List α) :
    ∀ k, k < l.length →
      ∃ a, (mapWithIndex (fun k a => some (g k a)) l)[k]? = some (some (g k a)) := by
  intro k hk
  obtain ⟨a, ha⟩ : ∃ a, l[k]? = some a := ⟨l[k], List.getElem?_eq_getElem hk⟩
  refine ⟨a, ?_⟩
  rw [mapWithIndex_getElem?, ha]
  rfl

/-- Slots of a freshly vertex-compacted mesh: all live, ids equal indices. -/
theorem compactVertices_slots (m : Mesh) :
    ∀ k, k < m.compactVertices.vertexArray.length →
      ∃ v, m.compactVertices.vertexArray[k]? = some (some v) ∧ v.id = k := by
  intro k hk
  have harr : m.compactVertices.vertexArray = mapWithIndex (fun k v =>
      some { v with id := k, colocal := remapKeep m.vertexArray v.colocal })
      (m.vertexArray.filterMap id) := rfl
  rw [harr, mapWithIndex_length] at hk
  obtain ⟨a, ha⟩ := mapWithIndex_some_slots
    (fun k (v : Vertex) => { v with id := k, colocal := remapKeep m.vertexArray v.colocal })
    (m.vertexArray.filterMap id) k hk
  rw [harr]
  exact ⟨_, ha, rfl⟩

/-- Slots of a freshly edge-compacted mesh: all live, ids equal indices. -/
theorem compactEdges_slots (m : Mesh) :
    ∀ k, k < m.compactEdges.edgeArray.length →
      ∃ e, m.compactEdges.edgeArray[k]? = some (some e) ∧ e.id = k := by
  intro k hk
  have harr : m.compactEdges.edgeArray = mapWithIndex (fun k e =>
      some { e with id := k,
                    next := e.next.bind (remapRef m.edgeArray),
                    prev := e.prev.bind (remapRef m.edgeArray),
                    pair := e.pair.bind (remapRef m.edgeArray) })
      (m.edgeArray.filterMap id) := rfl
  rw [harr, mapWithIndex_length] at hk
  obtain ⟨a, ha⟩ := mapWithIndex_some_slots
    (fun k (e : Edge) =>
      { e with id := k,
               next := e.next.bind (remapRef m.edgeArray),
               prev := e.prev.bind (remapRef m.edgeArray),
               pair := e.pair.bind (remapRef m.edgeArray) })
    (m.edgeArray.filterMap id) k hk
  rw [harr]
  exact ⟨_, ha, rfl⟩

/-- Slots of a freshly face-compacted mesh: all live, ids equal indices. -/
theorem compactFaces_slots (m : Mesh) :
    ∀ k, k < m.compactFaces.faceArray.length →
      ∃ f, m.compactFaces.faceArray[k]? = some (some f) ∧ f.id = k := by
  intro k hk
  have harr : m.compactFaces.faceArray = mapWithIndex (fun k f => some { f with id := k })
      (m.faceArray.filterMap id) := rfl
  rw [harr, mapWithIndex_length] at hk
  obtain ⟨a, ha⟩ := mapWithIndex_some_slots
    (fun k (f : Face) => { f with id := k }) (m.faceArray.filterMap id) k hk
  rw [harr]
  exact ⟨_, ha, rfl⟩

/-- After an edge compaction, every slot of the edge array arises from a slot
of the filtered old array by the compaction rewrite. -/
theorem compactEdges_slot_src (m : Mesh) (k : Nat) (e : Edge)
    (h : lookupEdge m.compactEdges k = some e) :
    ∃ e0, (m.edgeArray.filterMap id)[k]? = some e0 ∧
      e = { e0 with id := k,
                    next := e0.next.bind (remapRef m.edgeArray),
                    prev := e0.prev.bind (remapRef m.edgeArray),
                    pair := e0.pair.bind (remapRef m.edgeArray) } := by
  rw [lookupEdge_eq_some_iff] at h
  have harr : m.compactEdges.edgeArray = mapWithIndex (fun k e =>
      some { e with id := k,
                    next := e.next.bind (remapRef m.edgeArray),
                    prev := e.prev.bind (remapRef m.edgeArray),
                    pair := e.pair.bind (remapRef m.edgeArray) })
      (m.edgeArray.filterMap id) := rfl
  rw [harr, mapWithIndex_getElem?] at h
  rcases hx : (m.edgeArray.filterMap id)[k]? with _ | e0
  · rw [hx] at h; cases h
  · rw [hx] at h
    refine ⟨e0, rfl, ?_⟩
    have := Option.some_inj.mp h
    exact (Option.some_inj.mp this).symm

/-- One bound for all rewritten references: a reference produced by the
old-id to new-id map is in range of the compacted array. -/
theorem bind_remapRef_lt (arr : List (Option α)) (o : Option Nat) (n : Nat)
    (h : o.bind (remapRef arr) = some n) : n < (arr.filterMap id).length := by
  rcases o with _ | t
  · cases h
  · exact remapRef_lt arr t n h

/-- C5 auxiliary: a second vertex compaction is the identity. -/
theorem compactVertices_idem (m : Mesh) :
    m.compactVertices.compactVertices = m.compactVertices :=
  compactVertices_id_of m.compactVertices (compactVertices_slots m)

/-- C5 auxiliary: a second edge compaction is the identity. -/
theorem compactEdges_idem (m : Mesh) :
    m.compactEdges.compactEdges = m.compactEdges := by
  have hlen : m.compactEdges.edgeArray.length = (m.edgeArray.filterMap id).length := by
    have harr : m.compactEdges.edgeArray = mapWithIndex (fun k e =>
        some { e with id := k,
                      next := e.next.bind (remapRef m.edgeArray),
                      prev := e.prev.bind (remapRef m.edgeArray),
                      pair := e.pair.bind (remapRef m.edgeArray) })
        (m.edgeArray.filterMap id) := rfl
    rw [harr, mapWithIndex_length]
  apply compactEdges_id_of
  · exact compactEdges_slots m
  · intro k e n he hn
    obtain ⟨e0, _, hee⟩ := compactEdges_slot_src m k e he
    rw [hlen]
    apply bind_remapRef_lt m.edgeArray e0.next n
    rw [hee] at hn
    exact hn
  · intro k e q he hq
    obtain ⟨e0, _, hee⟩ := compactEdges_slot_src m k e he
    rw [hlen]
    apply bind_remapRef_lt m.edgeArray e0.prev q
    rw [hee] at hq
    exact hq
  · intro k e p he hp
    obtain ⟨e0, _, hee⟩ := compactEdges_slot_src m k e he
    rw [hlen]
    apply bind_remapRef_lt m.edgeArray e0.pair p
    rw [hee] at hp
    exact hp
  · intro k v r hv hr
    rw [lookupVertex_eq_some_iff] at hv
    have harr : m.compactEdges.vertexArray = m.vertexArray.map (Option.map (fun v =>
        { v with edge := v.edge.bind (remapRef m.edgeArray) })) := rfl
    rw [harr, List.getElem?_map] at hv
    rcases hx : m.vertexArray[k]? with _ | ov
    · rw [hx] at hv; cases hv
    · rw [hx] at hv
      rcases ov with _ | v0
      · cases hv
      · have hv2 : v = { v0 with edge := v0.edge.bind (remapRef m.edgeArray) } :=
          (Option.some_inj.mp (Option.some_inj.mp hv)).symm
        rw [hlen]
        apply bind_remapRef_lt m.edgeArray v0.edge r
        rw [hv2] at hr
        exact hr
  · intro k f r hf hr
    rw [lookupFace_eq_some_iff] at hf
    have harr : m.compactEdges.faceArray = m.faceArray.map (Option.map (fun f =>
        { f with edge := f.edge.bind (remapRef m.edgeArray) })) := rfl
    rw [harr, List.getElem?_map] at hf
    rcases hx : m.faceArray[k]? with _ | og
    · rw [hx] at hf; cases hf
    · rw [hx] at hf
      rcases og with _ | f0
      · cases hf
      · have hf2 : f = { f0 with edge := f0.edge.bind (remapRef m.edgeArray) } :=
          (Option.some_inj.mp (Option.some_inj.mp hf)).symm
        rw [hlen]
        apply bind_remapRef_lt m.edgeArray f0.edge r
        rw [hf2] at hr
        exact hr

/-- C5 auxiliary: a second face compaction is the identity. -/
theorem compactFaces_idem (m : Mesh) :
    m.compactFaces.compactFaces = m.compactFaces := by
  have hlen : m.compactFaces.faceArray.length = (m.faceArray.filterMap id).length := by
    have harr : m.compactFaces.faceArray = mapWithIndex (fun k f => some { f with id := k })
        (m.faceArray.filterMap id) := rfl
    rw [harr, mapWithIndex_length]
  apply compactFaces_id_of
  · exact compactFaces_slots m
  · intro k e r he hr
    rw [lookupEdge_eq_some_iff] at he
    have harr : m.compactFaces.edgeArray = m.edgeArray.map (Option.map (fun e =>
        { e with face := e.face.bind (remapRef m.faceArray) })) := rfl
    rw [harr, List.getElem?_map] at he
    rcases hx : m.edgeArray[k]? with _ | oe
    · rw [hx] at he; cases he
    · rw [hx] at he
      rcases oe with _ | e0
      · cases he
      · have he2 : e = { e0 with face := e0.face.bind (remapRef m.faceArray) } :=
          (Option.some_inj.mp (Option.some_inj.mp he)).symm
        rw [hlen]
        apply bind_remapRef_lt m.faceArray e0.face r
        rw [he2] at hr
        exact hr

/-- C5: each compaction pass is idempotent: with no intervening mutation, a
second invocation returns the mesh byte-identically, entity arrays and all
cross-references included. -/
theorem compaction_idempotent (m : Mesh) :
    m.compactVertices.compactVertices = m.compactVertices ∧
    m.compactEdges.compactEdges = m.compactEdges ∧
    m.compactFaces.compactFaces = m.compactFaces :=
  ⟨compactVertices_idem m, compactEdges_idem m, compactFaces_idem m⟩

/-- On a well-formed mesh a vertex compaction pass changes nothing. -/
theorem WF.compactVertices_eq (w : WF m) : m.compactVertices = m :=
  compactVertices_id_of m (fun k hk => w.vSlot k hk)

/-- On a well-formed mesh an edge compaction pass changes nothing. -/
theorem WF.compactEdges_eq (w : WF m) : m.compactEdges = m := by
  apply compactEdges_id_of
  · exact fun k hk => w.eSlot k hk
  · exact fun k e n hle hn => w.nextBound k e n hle hn
  · exact fun k e q hle hq => w.prevBound k e q hle hq
  · intro k e p hle hp
    obtain ⟨e2, he2, _⟩ := w.pairSym k e p hle hp
    exact lookupEdge_lt m p e2 he2
  · exact fun k v r hv hr => w.vEdgeRange k v r hv hr
  · intro k f r hf hr
    obtain ⟨cyc, hfe, hne, hnd, hstep⟩ := w.faceCycles k f hf
    have hr2 : r = cyc.headD 0 := by
      rw [hfe] at hr
      exact (Option.some_inj.mp hr).symm
    have hlen : 0 < cyc.length := List.length_pos.mpr hne
    obtain ⟨e0, he0, _, _, _⟩ := hstep 0 hlen
    rw [headD_eq_getD cyc hne] at hr2
    rw [hr2]
    exact lookupEdge_lt m _ e0 he0

/-- On a well-formed mesh a face compaction pass changes nothing. -/
theorem WF.compactFaces_eq (w : WF m) : m.compactFaces = m := by
  apply compactFaces_id_of
  · exact fun k hk => w.fSlot k hk
  · exact fun k e r he hr => w.eFaceRange k e r he hr

/-! Helper lemmas for the `addFace` preservation proof. -/

theorem setPairAt_length (arr : List (Option Edge)) (k q : Nat) :
    (setPairAt arr k q).length = arr.length := by
  unfold setPairAt
  rcases h : arr[k]? with _ | oe
  · rfl
  · rcases oe with _ | e
    · rfl
    · exact List.length_set arr k _

theorem setPairAt_getElem?_ne (arr : List (Option Edge)) (k q x : Nat) (h : x ≠ k) :
    (setPairAt arr k q)[x]? = arr[x]? := by
  unfold setPairAt
  rcases hk : arr[k]? with _ | oe
  · rfl
  · rcases oe with _ | e
    · rfl
    · exact List.getElem?_set_ne (fun he => h he.symm)

theorem setPairAt_getElem?_eq (arr : List (Option Edge)) (k q : Nat) (e : Edge)
    (h : arr[k]? = some (some e)) :
    (setPairAt arr k q)[k]? = some (some { e with pair := some q }) := by
  unfold setPairAt
  rw [h]
  exact List.getElem?_set_self (List.getElem?_eq_some_iff.mp h).1

theorem facePairs_length (idx : List Nat) (first num : Nat) :
    (facePairs idx first num).length = num := by
  unfold facePairs
  rw [List.length_map, List.length_range]

theorem facePairs_getD (idx : List Nat) (first num t : Nat) (ht : t < num) :
    (facePairs idx first num).getD t (0, 0) =
      (idx.getD (first + t) 0, idx.getD (first + (t + 1) % num) 0) := by
  unfold facePairs
  rw [List.getD_eq_getElem?_getD, List.getElem?_map, List.getElem?_range ht]
  rfl

theorem facePairs_chain (idx : List Nat) (first num t : Nat) (ht : t < num) :
    ((facePairs idx first num).getD t (0, 0)).2 =
      ((facePairs idx first num).getD ((t + 1) % num) (0, 0)).1 := by
  have h0 : 0 < num := by omega
  rw [facePairs_getD idx first num t ht,
      facePairs_getD idx first num ((t + 1) % num) (Nat.mod_lt _ h0)]

theorem findEdge_mem (m : Mesh) (i j eid : Nat) (h : m.findEdge i j = some eid) :
    ((i, j), eid) ∈ m.edgeMap := by
  unfold Mesh.findEdge at h
  rcases hf : m.edgeMap.find? (fun kv => decide (kv.1 = (i, j))) with _ | kv
  · rw [hf] at h; cases h
  · rw [hf] at h
    have hp := List.find?_some hf
    have hkey : kv.1 = (i, j) := of_decide_eq_true hp
    have hval : kv.2 = eid := Option.some_inj.mp h
    have hmem : kv ∈ m.edgeMap := List.mem_of_find?_eq_some hf
    have : kv = ((i, j), eid) := Prod.ext hkey hval
    rw [← this]
    exact hmem

theorem findEdge_none_not_mem (m : Mesh) (i j : Nat) (h : m.findEdge i j = none) :
    ∀ eid, ((i, j), eid) ∉ m.edgeMap := by
  intro eid hmem
  unfold Mesh.findEdge at h
  rcases hf : m.edgeMap.find? (fun kv => decide (kv.1 = (i, j))) with _ | kv
  · have := List.find?_eq_none.mp hf _ hmem
    simp at this
  · rw [hf] at h
    cases h

theorem countP_one_not_mem_take (ps : List (Nat × Nat)) (q : Nat × Nat) (t : Nat)
    (hc : ps.countP (fun r => decide (r = q)) = 1) (ht : ps[t]? = some q) :
    q ∉ ps.take t := by
  intro hmem
  have hsplit : ps.countP (fun r => decide (r = q)) =
      (ps.take t).countP (fun r => decide (r = q)) +
      (ps.drop t).countP (fun r => decide (r = q)) := by
    rw [← List.countP_append, List.take_append_drop]
  have h1 : 1 ≤ (ps.take t).countP (fun r => decide (r = q)) := by
    rw [Nat.succ_le_iff, List.countP_pos_iff]
    exact ⟨q, hmem, by simp⟩
  have h2 : 1 ≤ (ps.drop t).countP (fun r => decide (r = q)) := by
    have hd : (ps.drop t)[0]? = some q := by
      rw [List.getElem?_drop]
      simpa using ht
    rcases hdl : ps.drop t with _ | ⟨y, ys⟩
    · rw [hdl] at hd; cases hd
    · rw [hdl] at hd
      simp only [List.getElem?_cons_zero] at hd
      have hy : y = q := Option.some_inj.mp hd
      rw [List.countP_cons]
      simp [hy]
  omega

theorem mapWithIndexFrom_mem_iff (f : Nat → α → β) (s : Nat) (l : List α) (b : β) :
    b ∈ mapWithIndexFrom f s l ↔ ∃ t, t < l.length ∧ ∃ a, l[t]? = some a ∧ b = f (s + t) a := by
  induction l generalizing s with
  | nil => simp [mapWithIndexFrom]
  | cons x xs ih =>
    simp only [mapWithIndexFrom, List.mem_cons]
    constructor
    · rintro (hb | hb)
      · exact ⟨0, by simp, x, by simp, by simpa using hb⟩
      · obtain ⟨t, htl, a, ha, hba⟩ := (ih (s + 1)).mp hb
        refine ⟨t + 1, by simpa using Nat.succ_lt_succ htl, a, by simpa using ha, ?_⟩
        rw [hba]
        congr 1
        omega
    · rintro ⟨t, htl, a, ha, hba⟩
      cases t with
      | zero =>
        left
        simp only [List.getElem?_cons_zero] at ha
        rw [hba, Option.some_inj.mp ha.symm]
        simp
      | succ t =>
        right
        apply (ih (s + 1)).mpr
        refine ⟨t, by simpa using Nat.lt_of_succ_lt_succ htl, a, by simpa using ha, ?_⟩
        rw [hba]
        congr 1
        omega

theorem mapWithIndexFrom_append (f : Nat → α → β) (s : Nat) (l1 l2 : List α) :
    mapWithIndexFrom f s (l1 ++ l2) =
      mapWithIndexFrom f s l1 ++ mapWithIndexFrom f (s + l1.length) l2 := by
  induction l1 generalizing s with
  | nil => simp [mapWithIndexFrom]
  | cons a as ih =>
    have hred : mapWithIndexFrom f s (a :: as ++ l2) =
        f s a :: mapWithIndexFrom f (s + 1) (as ++ l2) := rfl
    rw [hred, ih (s + 1)]
    have h2 : s + 1 + as.length = s + (a :: as).length := by
      rw [List.length_cons]
      omega
    rw [h2]
    rfl

theorem mapWithIndexFrom_fst (g : Nat → Nat) (s : Nat) (l : List (Nat × Nat)) :
    (mapWithIndexFrom (fun t (q : Nat × Nat) => (q, g t)) s l).map Prod.fst = l := by
  induction l generalizing s with
  | nil => rfl
  | cons a as ih => simp [mapWithIndexFrom, ih (s + 1)]

theorem findEdge_isSome_of_mem (m : Mesh) (i j eid : Nat)
    (h : ((i, j), eid) ∈ m.edgeMap) : (m.findEdge i j).isSome = true := by
  unfold Mesh.findEdge
  have hf : (m.edgeMap.find? (fun kv => decide (kv.1 = (i, j)))).isSome = true :=
    List.find?_isSome.mpr ⟨((i, j), eid), h, by simp⟩
  rcases hx : m.edgeMap.find? (fun kv => decide (kv.1 = (i, j))) with _ | kv
  · rw [hx] at hf; cases hf
  · rw [hx]
    rfl

theorem nodup_append_singleton (l : List α) (a : α) (hnd : l.Nodup) (hna : a ∉ l) :
    (l ++ [a]).Nodup := by
  rw [List.nodup_append]
  exact ⟨hnd, List.nodup_singleton a, by
    intro x hx hxa
    rw [List.mem_singleton.mp hxa] at hx
    exact hna hx⟩

/-- The intermediate state of the `addEdge` fold of `addFace`: after the first
`t` consecutive pairs have been processed, the mesh extends the start mesh
`m0` by `t` fresh half-edges (not yet linked into the face), the lookup
extends the start lookup by exactly the processed keys, the untouched slots
keep all their links, and the relational lookup and pairing invariants hold. -/
structure Mid (m0 : Mesh) (ps : List (Nat × Nat)) (t : Nat) (m : Mesh) : Prop where
  va : m.vertexArray = m0.vertexArray
  fa : m.faceArray = m0.faceArray
  cc : m.colocalVertexCount = m0.colocalVertexCount
  de0 : m.errorCount = m0.errorCount
  de1 : m.errorIndex0 = m0.errorIndex0
  de2 : m.errorIndex1 = m0.errorIndex1
  elen : m.edgeCount = m0.edgeCount + t
  emap : m.edgeMap = m0.edgeMap ++
    mapWithIndexFrom (fun s (q : Nat × Nat) => (q, m0.edgeCount + s)) 0 (ps.take t)
  eLive : ∀ k, k < m.edgeCount → ∃ e, lookupEdge m k = some e ∧ e.id = k
  oldSlot : ∀ k ea, k < m0.edgeCount → lookupEdge m0 k = some ea →
    ∃ eb, lookupEdge m k = some eb ∧ eb.id = ea.id ∧ eb.vertex = ea.vertex ∧
      eb.next = ea.next ∧ eb.prev = ea.prev ∧ eb.face = ea.face
  newSlot : ∀ s, s < t → ∃ e, lookupEdge m (m0.edgeCount + s) = some e ∧
    e.vertex = (ps.getD s (0, 0)).1 ∧ e.next = none ∧ e.prev = none ∧ e.face = none
  nextBound : ∀ k e n, lookupEdge m k = some e → e.next = some n → n < m.edgeCount
  keysNodup : (m.edgeMap.map Prod.fst).Nodup
  valsNodup : (m.edgeMap.map Prod.snd).Nodup
  entryOrigin : ∀ i j eid, ((i, j), eid) ∈ m.edgeMap →
    eid < m.edgeCount ∧ ∀ e, lookupEdge m eid = some e → e.vertex = i ∧
      ∀ n en, e.next = some n → lookupEdge m n = some en → en.vertex = j
  cover : ∀ eid e, lookupEdge m eid = some e → ∃ i j, ((i, j), eid) ∈ m.edgeMap
  psym : ∀ k e p, lookupEdge m k = some e → e.pair = some p →
    ∃ e2, lookupEdge m p = some e2 ∧ e2.pair = some k
  pairBack : ∀ k e p, lookupEdge m k = some e → e.pair = some p →
    (∃ e0, lookupEdge m0 k = some e0 ∧ e0.pair = some p) ∨
    (∃ i j, ((i, j), k) ∈ m.edgeMap ∧ ((j, i), p) ∈ m.edgeMap)

/-- The fold invariant at the start: no pair processed, mesh untouched. -/
theorem Mid.base (m0 : Mesh) (ps : List (Nat × Nat)) (w : WF m0) : Mid m0 ps 0 m0 := by
  refine ⟨rfl, rfl, rfl, rfl, rfl, rfl, rfl, by simp [mapWithIndexFrom], ?_, ?_, ?_, ?_,
    w.mapKeysNodup, w.mapValsNodup, w.mapEntryOrigin, w.mapCover, w.pairSym,
    fun k e p he hp => Or.inl ⟨e, he, hp⟩⟩
  · intro k hk
    obtain ⟨e, he, hid⟩ := w.eSlot k hk
    exact ⟨e, (lookupEdge_eq_some_iff m0 k e).mpr he, hid⟩
  · intro k ea hk hea
    exact ⟨ea, hea, rfl, rfl, rfl, rfl, rfl⟩
  · intro s hs
    omega
  · intro k e n he hn
    exact w.nextBound k e n he hn

/-- The fold invariant survives an `addEdge` step that appends an unpaired
half-edge (no reusable reverse half-edge, or a fully-paired one). -/
theorem Mid.stepPlain (m0 : Mesh) (ps : List (Nat × Nat)) (t : Nat) (mt m2 : Mesh)
    (mid : Mid m0 ps t mt) (q : Nat × Nat) (hq : ps[t]? = some q)
    (hcount : ps.countP (fun r => decide (r = q)) = 1)
    (hfnone : m0.findEdge q.1 q.2 = none)
    (hA : m2.edgeArray = mt.edgeArray ++ [some (freshEdge mt.edgeArray.length q.1 none)])
    (hB : m2.edgeMap = mt.edgeMap ++ [((q.1, q.2), mt.edgeArray.length)])
    (hv : m2.vertexArray = mt.vertexArray) (hf : m2.faceArray = mt.faceArray)
    (hc : m2.colocalVertexCount = mt.colocalVertexCount)
    (h0 : m2.errorCount = mt.errorCount) (h1 : m2.errorIndex0 = mt.errorIndex0)
    (h2 : m2.errorIndex1 = mt.errorIndex1) :
    Mid m0 ps (t + 1) m2 := by
  have htlen : t < ps.length := (List.getElem?_eq_some_iff.mp hq).1
  have hce : mt.edgeCount = mt.edgeArray.length := rfl
  have heid : mt.edgeArray.length = m0.edgeCount + t := mid.elen
  have hgetD : ps.getD t (0, 0) = q := by
    rw [List.getD_eq_getElem?_getD, hq]
    rfl
  have hlookup : ∀ x, lookupEdge m2 x =
      ((mt.edgeArray ++ [some (freshEdge mt.edgeArray.length q.1 none)])[x]?).join := by
    intro x
    unfold lookupEdge
    rw [hA]
  have hlookOld : ∀ x, x < mt.edgeArray.length → lookupEdge m2 x = lookupEdge mt x := by
    intro x hx
    rw [hlookup, List.getElem?_append_left hx]
    rfl
  have hlookNew : lookupEdge m2 mt.edgeArray.length =
      some (freshEdge mt.edgeArray.length q.1 none) := by
    rw [hlookup, List.getElem?_append_right (Nat.le_refl _)]
    simp
  have hcnt : m2.edgeCount = mt.edgeArray.length + 1 := by
    unfold Mesh.edgeCount
    rw [hA]
    simp
  have hlookInv : ∀ x e, lookupEdge m2 x = some e →
      (x < mt.edgeArray.length ∧ lookupEdge mt x = some e) ∨
      (x = mt.edgeArray.length ∧ e = freshEdge mt.edgeArray.length q.1 none) := by
    intro x e he
    have hx : x < m2.edgeCount := lookupEdge_lt m2 x e he
    rw [hcnt] at hx
    rcases Nat.lt_or_ge x mt.edgeArray.length with hlt | hge
    · left
      exact ⟨hlt, by rw [← hlookOld x hlt]; exact he⟩
    · right
      have hxe : x = mt.edgeArray.length := by omega
      subst hxe
      rw [hlookNew] at he
      exact ⟨rfl, (Option.some_inj.mp he).symm⟩
  have hmem2 : ∀ kv : (Nat × Nat) × Nat, kv ∈ m2.edgeMap ↔
      kv ∈ mt.edgeMap ∨ kv = ((q.1, q.2), mt.edgeArray.length) := by
    intro kv
    rw [hB, List.mem_append, List.mem_singleton]
  have hknotin : (q.1, q.2) ∉ mt.edgeMap.map Prod.fst := by
    rw [mid.emap, List.map_append, mapWithIndexFrom_fst]
    intro hmem
    rcases List.mem_append.mp hmem with hm | hm
    · obtain ⟨kv, hkv, hfst⟩ := List.mem_map.mp hm
      apply findEdge_none_not_mem m0 q.1 q.2 hfnone kv.2
      have hkv2 : kv = ((q.1, q.2), kv.2) := by
        rw [← hfst]
      rw [← hkv2]
      exact hkv
    · exact countP_one_not_mem_take ps q t hcount hq hm
  have hvallt : ∀ v, v ∈ mt.edgeMap.map Prod.snd → v < mt.edgeArray.length := by
    intro v hvm
    obtain ⟨kv, hkv, hsnd⟩ := List.mem_map.mp hvm
    have hb := (mid.entryOrigin kv.1.1 kv.1.2 kv.2 hkv).1
    rw [hce] at hb
    omega
  refine ⟨by rw [hv, mid.va], by rw [hf, mid.fa], by rw [hc, mid.cc],
    by rw [h0, mid.de0], by rw [h1, mid.de1], by rw [h2, mid.de2], ?_, ?_, ?_, ?_, ?_, ?_,
    ?_, ?_, ?_, ?_, ?_, ?_⟩
  · rw [hcnt, heid]
    omega
  · rw [hB, mid.emap]
    have htake : ps.take (t + 1) = ps.take t ++ [q] := by
      rw [List.take_succ, hq]
      rfl
    have hlentake : (ps.take t).length = t := by
      rw [List.length_take]
      omega
    rw [htake, mapWithIndexFrom_append, hlentake, Nat.zero_add, List.append_assoc, heid]
    rfl
  · intro k hk
    rw [hcnt] at hk
    rcases Nat.lt_or_ge k mt.edgeArray.length with hlt | hge
    · obtain ⟨e, he, hid⟩ := mid.eLive k (by omega)
      exact ⟨e, by rw [hlookOld k hlt]; exact he, hid⟩
    · have hk2 : k = mt.edgeArray.length := by omega
      subst hk2
      exact ⟨freshEdge mt.edgeArray.length q.1 none, hlookNew, rfl⟩
  · intro k ea hk hea
    obtain ⟨eb, heb, hprops⟩ := mid.oldSlot k ea hk hea
    have hklt : k < mt.edgeArray.length := by
      have := lookupEdge_lt mt k eb heb
      omega
    exact ⟨eb, by rw [hlookOld k hklt]; exact heb, hprops⟩
  · intro s hs
    rcases Nat.lt_or_ge s t with hst | hst
    · obtain ⟨e, he, hprops⟩ := mid.newSlot s hst
      have hklt : m0.edgeCount + s < mt.edgeArray.length := by omega
      exact ⟨e, by rw [hlookOld _ hklt]; exact he, hprops⟩
    · have hs2 : s = t := by omega
      subst hs2
      refine ⟨freshEdge mt.edgeArray.length q.1 none, ?_, ?_, rfl, rfl, rfl⟩
      · rw [← heid]
        exact hlookNew
      · rw [hgetD]
        rfl
  · intro k e n he hn
    rcases hlookInv k e he with ⟨hk, hmt⟩ | ⟨hk, hfresh⟩
    · have := mid.nextBound k e n hmt hn
      rw [hcnt]
      omega
    · rw [hfresh] at hn
      cases hn
  · rw [hB, List.map_append]
    exact nodup_append_singleton _ _ mid.keysNodup hknotin
  · rw [hB, List.map_append]
    apply nodup_append_singleton _ _ mid.valsNodup
    intro hmem
    have := hvallt _ hmem
    omega
  · intro i j eid2 hmem
    rcases (hmem2 _).mp hmem with hold | hnew
    · have hb := mid.entryOrigin i j eid2 hold
      refine ⟨by rw [hcnt]; rw [hce] at hb; omega, ?_⟩
      intro e he
      rcases hlookInv eid2 e he with ⟨hx, hmt⟩ | ⟨hx, hfresh⟩
      · refine ⟨(hb.2 e hmt).1, ?_⟩
        intro n en hn hen
        have hnlt : n < mt.edgeCount := mid.nextBound eid2 e n hmt hn
        rw [hce] at hnlt
        rw [hlookOld n hnlt] at hen
        exact (hb.2 e hmt).2 n en hn hen
      · have := hb.1
        rw [hce] at this
        omega
    · have hij : (i, j) = (q.1, q.2) := congrArg Prod.fst hnew
      have hei : eid2 = mt.edgeArray.length := congrArg Prod.snd hnew
      subst hei
      refine ⟨by rw [hcnt]; omega, ?_⟩
      intro e he
      rw [hlookNew] at he
      have he2 : e = freshEdge mt.edgeArray.length q.1 none := (Option.some_inj.mp he).symm
      constructor
      · rw [he2]
        have : i = q.1 := congrArg Prod.fst hij
        rw [this]
        rfl
      · intro n en hn hen
        rw [he2] at hn
        cases hn
  · intro eid2 e he
    rcases hlookInv eid2 e he with ⟨hx, hmt⟩ | ⟨hx, _⟩
    · obtain ⟨i, j, hm⟩ := mid.cover eid2 e hmt
      exact ⟨i, j, (hmem2 _).mpr (Or.inl hm)⟩
    · subst hx
      exact ⟨q.1, q.2, (hmem2 _).mpr (Or.inr rfl)⟩
  · intro k e p he hp
    rcases hlookInv k e he with ⟨hk, hmt⟩ | ⟨hk, hfresh⟩
    · obtain ⟨e2, he2, hp2⟩ := mid.psym k e p hmt hp
      have hplt : p < mt.edgeArray.length := by
        have := lookupEdge_lt mt p e2 he2
        omega
      exact ⟨e2, by rw [hlookOld p hplt]; exact he2, hp2⟩
    · rw [hfresh] at hp
      cases hp
  · intro k e p he hp
    rcases hlookInv k e he with ⟨hk, hmt⟩ | ⟨hk, hfresh⟩
    · rcases mid.pairBack k e p hmt hp with hinh | ⟨i, j, hk1, hk2⟩
      · exact Or.inl hinh
      · exact Or.inr ⟨i, j, (hmem2 _).mpr (Or.inl hk1), (hmem2 _).mpr (Or.inl hk2)⟩
    · rw [hfresh] at hp
      cases hp

/-- The fold invariant survives an `addEdge` step that reuses an unpaired
reverse half-edge by pairing it with the appended half-edge. -/
theorem Mid.stepPair (m0 : Mesh) (ps : List (Nat × Nat)) (t : Nat) (mt m2 : Mesh)
    (mid : Mid m0 ps t mt) (q : Nat × Nat) (p : Nat) (hq : ps[t]? = some q)
    (hcount : ps.countP (fun r => decide (r = q)) = 1)
    (hfnone : m0.findEdge q.1 q.2 = none)
    (hfind : mt.findEdge q.2 q.1 = some p)
    (hnp : pairedAt mt p = false)
    (hA : m2.edgeArray = setPairAt mt.edgeArray p mt.edgeArray.length ++
      [some (freshEdge mt.edgeArray.length q.1 (some p))])
    (hB : m2.edgeMap = mt.edgeMap ++ [((q.1, q.2), mt.edgeArray.length)])
    (hv : m2.vertexArray = mt.vertexArray) (hf : m2.faceArray = mt.faceArray)
    (hc : m2.colocalVertexCount = mt.colocalVertexCount)
    (h0 : m2.errorCount = mt.errorCount) (h1 : m2.errorIndex0 = mt.errorIndex0)
    (h2 : m2.errorIndex1 = mt.errorIndex1) :
    Mid m0 ps (t + 1) m2 := by
  have htlen : t < ps.length := (List.getElem?_eq_some_iff.mp hq).1
  have hce : mt.edgeCount = mt.edgeArray.length := rfl
  have heid : mt.edgeArray.length = m0.edgeCount + t := mid.elen
  have hgetD : ps.getD t (0, 0) = q := by
    rw [List.getD_eq_getElem?_getD, hq]
    rfl
  have hpmem : ((q.2, q.1), p) ∈ mt.edgeMap := findEdge_mem mt q.2 q.1 p hfind
  have hplt : p < mt.edgeArray.length := by
    have := (mid.entryOrigin q.2 q.1 p hpmem).1
    rw [hce] at this
    exact this
  obtain ⟨ep, hep, hepid⟩ := mid.eLive p (by rw [hce]; exact hplt)
  have heppair : ep.pair = none := by
    unfold pairedAt at hnp
    rw [hep] at hnp
    have hnp2 : ep.pair.isSome = false := hnp
    rcases hpp : ep.pair with _ | r
    · rfl
    · rw [hpp] at hnp2
      cases hnp2
  have hepslot : mt.edgeArray[p]? = some (some ep) := (lookupEdge_eq_some_iff mt p ep).mp hep
  have hsl : (setPairAt mt.edgeArray p mt.edgeArray.length).length = mt.edgeArray.length :=
    setPairAt_length mt.edgeArray p mt.edgeArray.length
  have hlookup : ∀ x, lookupEdge m2 x =
      ((setPairAt mt.edgeArray p mt.edgeArray.length ++
        [some (freshEdge mt.edgeArray.length q.1 (some p))])[x]?).join := by
    intro x
    unfold lookupEdge
    rw [hA]
  have hlookOld : ∀ x, x < mt.edgeArray.length → x ≠ p → lookupEdge m2 x = lookupEdge mt x := by
    intro x hx hxp
    rw [hlookup, List.getElem?_append_left (by rw [hsl]; exact hx),
        setPairAt_getElem?_ne mt.edgeArray p mt.edgeArray.length x hxp]
    rfl
  have hlookP : lookupEdge m2 p = some { ep with pair := some mt.edgeArray.length } := by
    rw [hlookup, List.getElem?_append_left (by rw [hsl]; exact hplt),
        setPairAt_getElem?_eq mt.edgeArray p mt.edgeArray.length ep hepslot]
    rfl
  have hlookNew : lookupEdge m2 mt.edgeArray.length =
      some (freshEdge mt.edgeArray.length q.1 (some p)) := by
    rw [hlookup, List.getElem?_append_right (by rw [hsl])]
    rw [hsl, Nat.sub_self]
    rfl
  have hcnt : m2.edgeCount = mt.edgeArray.length + 1 := by
    unfold Mesh.edgeCount
    rw [hA]
    rw [List.length_append, hsl]
    rfl
  have hlookInv : ∀ x e, lookupEdge m2 x = some e →
      (x < mt.edgeArray.length ∧ x ≠ p ∧ lookupEdge mt x = some e) ∨
      (x = p ∧ e = { ep with pair := some mt.edgeArray.length }) ∨
      (x = mt.edgeArray.length ∧ e = freshEdge mt.edgeArray.length q.1 (some p)) := by
    intro x e he
    have hx : x < m2.edgeCount := lookupEdge_lt m2 x e he
    rw [hcnt] at hx
    by_cases hxp : x = p
    · subst hxp
      rw [hlookP] at he
      exact Or.inr (Or.inl ⟨rfl, (Option.some_inj.mp he).symm⟩)
    · rcases Nat.lt_or_ge x mt.edgeArray.length with hlt | hge
      · left
        exact ⟨hlt, hxp, by rw [← hlookOld x hlt hxp]; exact he⟩
      · right; right
        have hxe : x = mt.edgeArray.length := by omega
        subst hxe
        rw [hlookNew] at he
        exact ⟨rfl, (Option.some_inj.mp he).symm⟩
  have hlookBack : ∀ x e, lookupEdge m2 x = some e → x ≠ mt.edgeArray.length →
      ∃ e1, lookupEdge mt x = some e1 ∧ e1.id = e.id ∧ e1.vertex = e.vertex ∧
        e1.next = e.next ∧ e1.prev = e.prev ∧ e1.face = e.face := by
    intro x e he hxl
    rcases hlookInv x e he with ⟨_, _, hmt⟩ | ⟨hxp, hee⟩ | ⟨hxe, _⟩
    · exact ⟨e, hmt, rfl, rfl, rfl, rfl, rfl⟩
    · subst hxp
      exact ⟨ep, hep, by rw [hee], by rw [hee], by rw [hee], by rw [hee], by rw [hee]⟩
    · exact absurd hxe hxl
  have hmem2 : ∀ kv : (Nat × Nat) × Nat, kv ∈ m2.edgeMap ↔
      kv ∈ mt.edgeMap ∨ kv = ((q.1, q.2), mt.edgeArray.length) := by
    intro kv
    rw [hB, List.mem_append, List.mem_singleton]
  have hknotin : (q.1, q.2) ∉ mt.edgeMap.map Prod.fst := by
    rw [mid.emap, List.map_append, mapWithIndexFrom_fst]
    intro hmem
    rcases List.mem_append.mp hmem with hm | hm
    · obtain ⟨kv, hkv, hfst⟩ := List.mem_map.mp hm
      apply findEdge_none_not_mem m0 q.1 q.2 hfnone kv.2
      have hkv2 : kv = ((q.1, q.2), kv.2) := by
        rw [← hfst]
      rw [← hkv2]
      exact hkv
    · exact countP_one_not_mem_take ps q t hcount hq hm
  have hvallt : ∀ v, v ∈ mt.edgeMap.map Prod.snd → v < mt.edgeArray.length := by
    intro v hvm
    obtain ⟨kv, hkv, hsnd⟩ := List.mem_map.mp hvm
    have hb := (mid.entryOrigin kv.1.1 kv.1.2 kv.2 hkv).1
    rw [hce] at hb
    omega
  refine ⟨by rw [hv, mid.va], by rw [hf, mid.fa], by rw [hc, mid.cc],
    by rw [h0, mid.de0], by rw [h1, mid.de1], by rw [h2, mid.de2], ?_, ?_, ?_, ?_, ?_, ?_,
    ?_, ?_, ?_, ?_, ?_, ?_⟩
  · rw [hcnt, heid]
    omega
  · rw [hB, mid.emap]
    have htake : ps.take (t + 1) = ps.take t ++ [q] := by
      rw [List.take_succ, hq]
      rfl
    have hlentake : (ps.take t).length = t := by
      rw [List.length_take]
      omega
    rw [htake, mapWithIndexFrom_append, hlentake, Nat.zero_add, List.append_assoc, heid]
    rfl
  · intro k hk
    rw [hcnt] at hk
    by_cases hkp : k = p
    · subst hkp
      exact ⟨{ ep with pair := some mt.edgeArray.length }, hlookP, hepid⟩
    · rcases Nat.lt_or_ge k mt.edgeArray.length with hlt | hge
      · obtain ⟨e, he, hid⟩ := mid.eLive k (by rw [hce]; omega)
        exact ⟨e, by rw [hlookOld k hlt hkp]; exact he, hid⟩
      · have hk2 : k = mt.edgeArray.length := by omega
        subst hk2
        exact ⟨freshEdge mt.edgeArray.length q.1 (some p), hlookNew, rfl⟩
  · intro k ea hk hea
    obtain ⟨eb, heb, hid, hvtx, hnx, hpv, hfc⟩ := mid.oldSlot k ea hk hea
    have hklt : k < mt.edgeArray.length := by
      have := lookupEdge_lt mt k eb heb
      omega
    by_cases hkp : k = p
    · subst hkp
      have hebp : eb = ep := by
        rw [hep] at heb
        exact (Option.some_inj.mp heb).symm
      subst hebp
      exact ⟨{ eb with pair := some mt.edgeArray.length }, hlookP, hid, hvtx, hnx, hpv, hfc⟩
    · exact ⟨eb, by rw [hlookOld k hklt hkp]; exact heb, hid, hvtx, hnx, hpv, hfc⟩
  · intro s hs
    rcases Nat.lt_or_ge s t with hst | hst
    · obtain ⟨e, he, hvtx, hnx, hpv, hfc⟩ := mid.newSlot s hst
      have hklt : m0.edgeCount + s < mt.edgeArray.length := by omega
      by_cases hkp : m0.edgeCount + s = p
      · have hekp : e = ep := by
          rw [hkp, hep] at he
          exact (Option.some_inj.mp he).symm
        subst hekp
        refine ⟨{ e with pair := some mt.edgeArray.length }, ?_, hvtx, hnx, hpv, hfc⟩
        rw [hkp]
        exact hlookP
      · exact ⟨e, by rw [hlookOld _ hklt hkp]; exact he, hvtx, hnx, hpv, hfc⟩
    · have hs2 : s = t := by omega
      subst hs2
      refine ⟨freshEdge mt.edgeArray.length q.1 (some p), ?_, ?_, rfl, rfl, rfl⟩
      · rw [← heid]
        exact hlookNew
      · rw [hgetD]
        rfl
  · intro k e n he hn
    rw [hcnt]
    by_cases hkl : k = mt.edgeArray.length
    · subst hkl
      rw [hlookNew] at he
      rw [(Option.some_inj.mp he).symm] at hn
      cases hn
    · obtain ⟨e1, he1, _, _, hnx, _, _⟩ := hlookBack k e he hkl
      have := mid.nextBound k e1 n he1 (by rw [hnx]; exact hn)
      rw [hce] at this
      omega
  · rw [hB, List.map_append]
    exact nodup_append_singleton _ _ mid.keysNodup hknotin
  · rw [hB, List.map_append]
    apply nodup_append_singleton _ _ mid.valsNodup
    intro hmem
    have := hvallt _ hmem
    omega
  · intro i j eid2 hmem
    rcases (hmem2 _).mp hmem with hold | hnew
    · have hb := mid.entryOrigin i j eid2 hold
      have hblt : eid2 < mt.edgeArray.length := by
        have := hb.1
        rw [hce] at this
        exact this
      refine ⟨by rw [hcnt]; omega, ?_⟩
      intro e he
      obtain ⟨e1, he1, _, hvtx, hnx, _, _⟩ := hlookBack eid2 e he (by omega)
      refine ⟨by rw [← hvtx]; exact (hb.2 e1 he1).1, ?_⟩
      intro n en hn hen
      have hnlt : n < mt.edgeCount := mid.nextBound eid2 e1 n he1 (by rw [hnx]; exact hn)
      rw [hce] at hnlt
      obtain ⟨en1, hen1, _, henv, _, _, _⟩ := hlookBack n en hen (by omega)
      rw [← henv]
      exact (hb.2 e1 he1).2 n en1 (by rw [hnx]; exact hn) hen1
    · have hij : (i, j) = (q.1, q.2) := congrArg Prod.fst hnew
      have hei : eid2 = mt.edgeArray.length := congrArg Prod.snd hnew
      subst hei
      refine ⟨by rw [hcnt]; omega, ?_⟩
      intro e he
      rw [hlookNew] at he
      have he2 : e = freshEdge mt.edgeArray.length q.1 (some p) := (Option.some_inj.mp he).symm
      constructor
      · rw [he2]
        have : i = q.1 := congrArg Prod.fst hij
        rw [this]
        rfl
      · intro n en hn hen
        rw [he2] at hn
        cases hn
  · intro eid2 e he
    rcases hlookInv eid2 e he with ⟨_, _, hmt⟩ | ⟨hxp, _⟩ | ⟨hxe, _⟩
    · obtain ⟨i, j, hm⟩ := mid.cover eid2 e hmt
      exact ⟨i, j, (hmem2 _).mpr (Or.inl hm)⟩
    · subst hxp
      exact ⟨q.2, q.1, (hmem2 _).mpr (Or.inl hpmem)⟩
    · subst hxe
      exact ⟨q.1, q.2, (hmem2 _).mpr (Or.inr rfl)⟩
  · intro k e pr he hp
    rcases hlookInv k e he with ⟨hk, hkp, hmt⟩ | ⟨hxp, hee⟩ | ⟨hxe, hee⟩
    · obtain ⟨e2, he2, hp2⟩ := mid.psym k e pr hmt hp
      have hprltm : pr < mt.edgeArray.length := by
        have := lookupEdge_lt mt pr e2 he2
        omega
      have hprp : pr ≠ p := by
        intro hpr
        subst hpr
        rw [hep] at he2
        have : e2 = ep := Option.some_inj.mp he2.symm
        rw [this, heppair] at hp2
        cases hp2
      exact ⟨e2, by rw [hlookOld pr hprltm hprp]; exact he2, hp2⟩
    · rw [hee] at hp
      have hpr : pr = mt.edgeArray.length := Option.some_inj.mp hp.symm
      subst hpr
      refine ⟨freshEdge mt.edgeArray.length q.1 (some p), hlookNew, ?_⟩
      rw [hxp]
      rfl
    · subst hxe
      rw [hee] at hp
      have hpr : pr = p := Option.some_inj.mp hp.symm
      subst hpr
      exact ⟨{ ep with pair := some mt.edgeArray.length }, hlookP, rfl⟩
  · intro k e pr he hp
    rcases hlookInv k e he with ⟨hk, hkp, hmt⟩ | ⟨hxp, hee⟩ | ⟨hxe, hee⟩
    · rcases mid.pairBack k e pr hmt hp with hinh | ⟨i, j, hk1, hk2⟩
      · exact Or.inl hinh
      · exact Or.inr ⟨i, j, (hmem2 _).mpr (Or.inl hk1), (hmem2 _).mpr (Or.inl hk2)⟩
    · rw [hee] at hp
      have hpr : pr = mt.edgeArray.length := Option.some_inj.mp hp.symm
      subst hpr
      subst hxp
      exact Or.inr ⟨q.2, q.1, (hmem2 _).mpr (Or.inl hpmem), (hmem2 _).mpr (Or.inr rfl)⟩
    · subst hxe
      rw [hee] at hp
      have hpr : pr = p := Option.some_inj.mp hp.symm
      subst hpr
      exact Or.inr ⟨q.1, q.2, (hmem2 _).mpr (Or.inr rfl), (hmem2 _).mpr (Or.inl hpmem)⟩

/-- The fold invariant survives any single `addEdge` step. -/
theorem Mid.step (m0 : Mesh) (ps : List (Nat × Nat)) (t : Nat) (mt : Mesh)
    (mid : Mid m0 ps t mt) (q : Nat × Nat) (hq : ps[t]? = some q)
    (hcount : ps.countP (fun r => decide (r = q)) = 1)
    (hfnone : m0.findEdge q.1 q.2 = none) :
    Mid m0 ps (t + 1) (Mesh.addEdge mt q.1 q.2).1 := by
  rcases hfind : mt.findEdge q.2 q.1 with _ | p
  · have hred : (Mesh.addEdge mt q.1 q.2).1 = { mt with
        edgeArray := mt.edgeArray ++ [some (freshEdge mt.edgeArray.length q.1 none)],
        edgeMap := mt.edgeMap ++ [((q.1, q.2), mt.edgeArray.length)] } := by
      unfold Mesh.addEdge
      rw [hfind]
    rw [hred]
    exact Mid.stepPlain m0 ps t mt _ mid q hq hcount hfnone rfl rfl rfl rfl rfl rfl rfl rfl
  · by_cases hnp : pairedAt mt p = true
    · have hred : (Mesh.addEdge mt q.1 q.2).1 = { mt with
          edgeArray := mt.edgeArray ++ [some (freshEdge mt.edgeArray.length q.1 none)],
          edgeMap := mt.edgeMap ++ [((q.1, q.2), mt.edgeArray.length)] } := by
        simp [Mesh.addEdge, hfind, hnp]
      rw [hred]
      exact Mid.stepPlain m0 ps t mt _ mid q hq hcount hfnone rfl rfl rfl rfl rfl rfl rfl rfl
    · have hnp2 : pairedAt mt p = false := Bool.eq_false_iff.mpr hnp
      have hred : (Mesh.addEdge mt q.1 q.2).1 = { mt with
          edgeArray := setPairAt mt.edgeArray p mt.edgeArray.length ++
            [some (freshEdge mt.edgeArray.length q.1 (some p))],
          edgeMap := mt.edgeMap ++ [((q.1, q.2), mt.edgeArray.length)] } := by
        simp [Mesh.addEdge, hfind, hnp2]
      rw [hred]
      exact Mid.stepPair m0 ps t mt _ mid q p hq hcount hfnone hfind hnp2
        rfl rfl rfl rfl rfl rfl rfl rfl

/-- After the whole `addEdge` fold, the fold invariant holds at `ps.length`. -/
theorem Mid.fold (m0 : Mesh) (ps : List (Nat × Nat)) (w : WF m0)
    (hok : ∀ q, q ∈ ps → okPair m0 ps q = true) :
    Mid m0 ps ps.length (addEdgesFold m0 ps) := by
  have haux : ∀ t, t ≤ ps.length → Mid m0 ps t (addEdgesFold m0 (ps.take t)) := by
    intro t
    induction t with
    | zero =>
      intro _
      exact Mid.base m0 ps w
    | succ t ih =>
      intro ht
      have ht2 : t < ps.length := by omega
      obtain ⟨q, hq⟩ : ∃ q, ps[t]? = some q := ⟨ps[t], List.getElem?_eq_getElem ht2⟩
      have hmem : q ∈ ps := by
        have := List.getElem?_eq_some_iff.mp hq
        obtain ⟨h1, h2⟩ := this
        rw [← h2]
        exact List.getElem_mem h1
      have hokq := hok q hmem
      unfold okPair at hokq
      simp only [Bool.and_eq_true] at hokq
      obtain ⟨⟨⟨⟨_, _⟩, hisnone⟩, hcnt⟩, _⟩ := hokq
      have hfnone : m0.findEdge q.1 q.2 = none := Option.isNone_iff_eq_none.mp hisnone
      have hcount : ps.countP (fun r => decide (r = q)) = 1 := by simpa using hcnt
      have htake : ps.take (t + 1) = ps.take t ++ [q] := by
        rw [List.take_succ, hq]
        rfl
      have hfold : addEdgesFold m0 (ps.take (t + 1)) =
          (Mesh.addEdge (addEdgesFold m0 (ps.take t)) q.1 q.2).1 := by
        unfold addEdgesFold
        rw [htake, List.foldl_append]
        rfl
      rw [hfold]
      exact Mid.step m0 ps t _ (ih (by omega)) q hq hcount hfnone
  have := haux ps.length (Nat.le_refl _)
  rw [List.take_length] at this
  exact this

theorem join_map_comm (o : Option (Option α)) (f : α → β) :
    (o.map (Option.map f)).join = o.join.map f := by
  rcases o with _ | oa
  · rfl
  · cases oa <;> rfl

/-- One vertex incident-edge update: slots keep their identity except possibly
one live slot whose empty edge reference is filled in. -/
theorem setVertexEdge_slots (arr : List (Option Vertex)) (x eid : Nat) :
    (setVertexEdge arr x eid).length = arr.length ∧
    ∀ (v : Nat), (setVertexEdge arr x eid)[v]? = arr[v]? ∨
      ∃ ov : Vertex, arr[v]? = some (some ov) ∧
        (setVertexEdge arr x eid)[v]? = some (some { ov with edge := some eid }) := by
  have hcases : setVertexEdge arr x eid = arr ∨
      ∃ vv : Vertex, arr[x]? = some (some vv) ∧
        setVertexEdge arr x eid = arr.set x (some { vv with edge := some eid }) := by
    rcases hx : arr[x]? with _ | ox
    · left
      unfold setVertexEdge
      rw [hx]
    · rcases ox with _ | vv
      · left
        unfold setVertexEdge
        rw [hx]
      · by_cases hnone : vv.edge.isNone = true
        · right
          refine ⟨vv, rfl, ?_⟩
          unfold setVertexEdge
          rw [hx]
          show (if vv.edge.isNone = true then arr.set x (some { vv with edge := some eid })
            else arr) = arr.set x (some { vv with edge := some eid })
          rw [if_pos hnone]
        · left
          unfold setVertexEdge
          rw [hx]
          show (if vv.edge.isNone = true then arr.set x (some { vv with edge := some eid })
            else arr) = arr
          rw [if_neg hnone]
  rcases hcases with heq | ⟨vv, hx, heq⟩
  · rw [heq]
    exact ⟨rfl, fun v => Or.inl rfl⟩
  · rw [heq]
    refine ⟨List.length_set arr x _, ?_⟩
    intro v
    by_cases hvx : v = x
    · subst hvx
      right
      refine ⟨vv, hx, ?_⟩
      rw [List.getElem?_set_self (List.getElem?_eq_some_iff.mp hx).1]
    · left
      exact List.getElem?_set_ne (fun he => hvx he.symm)

/-- The incident-edge fold of `addFace`: every slot either keeps its value or
has its empty edge reference filled with one of the new half-edge ids. -/
theorem foldl_setVertexEdge_slots (e0 : Nat) (ps : List (Nat × Nat)) :
    ∀ (ts : List Nat) (arr : List (Option Vertex)), (∀ t, t ∈ ts → t < ps.length) →
    ((ts.foldl (fun a t => setVertexEdge a (ps.getD t (0, 0)).1 (e0 + t)) arr).length
      = arr.length) ∧
    ∀ (v : Nat), ((ts.foldl (fun a t => setVertexEdge a (ps.getD t (0, 0)).1 (e0 + t)) arr)[v]?
        = arr[v]?) ∨
      ∃ (ov : Vertex) (t : Nat), t < ps.length ∧ arr[v]? = some (some ov) ∧
        ((ts.foldl (fun a t => setVertexEdge a (ps.getD t (0, 0)).1 (e0 + t)) arr)[v]?
          = some (some { ov with edge := some (e0 + t) })) := by
  intro ts
  induction ts with
  | nil => exact fun arr _ => ⟨rfl, fun v => Or.inl rfl⟩
  | cons t0 rest ih =>
    intro arr hts
    have hstep := setVertexEdge_slots arr (ps.getD t0 (0, 0)).1 (e0 + t0)
    have hrest := ih (setVertexEdge arr (ps.getD t0 (0, 0)).1 (e0 + t0))
      (fun t ht => hts t (List.mem_cons_of_mem t0 ht))
    constructor
    · rw [List.foldl_cons, hrest.1, hstep.1]
    · intro v
      rcases hrest.2 v with hkeep | ⟨ov, t, htlt, hov, hset⟩
      · rcases hstep.2 v with hkeep0 | ⟨ov, hov, hset0⟩
        · left
          rw [List.foldl_cons, hkeep, hkeep0]
        · right
          refine ⟨ov, t0, hts t0 (List.mem_cons_self t0 rest), hov, ?_⟩
          rw [List.foldl_cons, hkeep, hset0]
      · rcases hstep.2 v with hkeep0 | ⟨ov0, hov0, hset0⟩
        · right
          refine ⟨ov, t, htlt, by rw [← hkeep0]; exact hov, ?_⟩
          rw [List.foldl_cons, hset]
        · right
          rw [hset0] at hov
          have hoveq : ov = { ov0 with edge := some (e0 + t0) } :=
            (Option.some_inj.mp (Option.some_inj.mp hov)).symm
          refine ⟨ov0, t, htlt, hov0, ?_⟩
          rw [List.foldl_cons, hset, hoveq]

theorem linkFaceEdges_vertexArray (m1 : Mesh) (e0 num fid : Nat) :
    (linkFaceEdges m1 e0 num fid).vertexArray = m1.vertexArray := rfl

theorem linkFaceEdges_faceArray (m1 : Mesh) (e0 num fid : Nat) :
    (linkFaceEdges m1 e0 num fid).faceArray = m1.faceArray := rfl

theorem linkFaceEdges_edgeMap (m1 : Mesh) (e0 num fid : Nat) :
    (linkFaceEdges m1 e0 num fid).edgeMap = m1.edgeMap := rfl

theorem linkFaceEdges_edgeCount (m1 : Mesh) (e0 num fid : Nat) :
    (linkFaceEdges m1 e0 num fid).edgeCount = m1.edgeCount := by
  show (mapWithIndex _ m1.edgeArray).length = _
  rw [mapWithIndex_length]
  rfl

theorem linkFaceEdges_lookup_lt (m1 : Mesh) (e0 num fid x : Nat) (hx : x < e0) :
    lookupEdge (linkFaceEdges m1 e0 num fid) x = lookupEdge m1 x := by
  unfold lookupEdge
  show ((mapWithIndex _ m1.edgeArray)[x]?).join = _
  rw [mapWithIndex_getElem?]
  rcases hsl : m1.edgeArray[x]? with _ | oe
  · rfl
  · have hcond : ¬ (e0 ≤ x ∧ x < e0 + num) := by omega
    show (some (if e0 ≤ x ∧ x < e0 + num then _ else oe)).join = _
    rw [if_neg hcond]

theorem linkFaceEdges_lookup_in (m1 : Mesh) (e0 num fid s : Nat) (hs : s < num) :
    lookupEdge (linkFaceEdges m1 e0 num fid) (e0 + s) =
      (lookupEdge m1 (e0 + s)).map (fun e =>
        { e with next := some (e0 + (s + 1) % num),
                 prev := some (e0 + (s + num - 1) % num),
                 face := some fid }) := by
  unfold lookupEdge
  show ((mapWithIndex _ m1.edgeArray)[(e0 + s)]?).join = _
  rw [mapWithIndex_getElem?]
  rcases hsl : m1.edgeArray[(e0 + s)]? with _ | oe
  · rfl
  · have hcond : e0 ≤ e0 + s ∧ e0 + s < e0 + num := by omega
    show (some (if e0 ≤ e0 + s ∧ e0 + s < e0 + num then
          oe.map (fun e =>
            { e with next := some (e0 + (e0 + s - e0 + 1) % num),
                     prev := some (e0 + (e0 + s - e0 + num - 1) % num),
                     face := some fid })
        else oe)).join = _
    rw [if_pos hcond, Nat.add_sub_cancel_left]
    cases oe <;> rfl

theorem getD_range_map_add (n0 num t : Nat) (ht : t < num) :
    (((List.range num).map (fun s => n0 + s)).getD t 0) = n0 + t := by
  rw [List.getD_eq_getElem?_getD, List.getElem?_map, List.getElem?_range ht]
  rfl

theorem nodup_range_map_add (n0 num : Nat) :
    (((List.range num).map (fun s => n0 + s))).Nodup :=
  (List.nodup_range num).map (fun a b hab => Nat.add_left_cancel hab)

theorem cycle_prev_arith (t num : Nat) (ht : t < num) :
    ((t + 1) % num + num - 1) % num = t := by
  rcases Nat.lt_or_ge (t + 1) num with h | h
  · rw [Nat.mod_eq_of_lt h]
    have harith : t + 1 + num - 1 = t + num := by omega
    rw [harith, Nat.add_mod_right, Nat.mod_eq_of_lt ht]
  · have ht1 : t + 1 = num := by omega
    rw [ht1, Nat.mod_self]
    have harith : 0 + num - 1 = num - 1 := by omega
    rw [harith, Nat.mod_eq_of_lt (by omega)]
    omega


theorem WF.addFaceAssembled (m : Mesh) (w : WF m) (ps : List (Nat × Nat)) (num : Nat) (M3 : Mesh)
    (hnum : 3 ≤ num) (hps : ps.length = num)
    (hchain : ∀ t, t < num → (ps.getD t (0, 0)).2 = (ps.getD ((t + 1) % num) (0, 0)).1)
    (hok : ∀ q, q ∈ ps → okPair m ps q = true)
    (hEA : M3.edgeArray = (linkFaceEdges (addEdgesFold m ps) m.edgeArray.length num
      m.faceArray.length).edgeArray)
    (hVA : M3.vertexArray = setFaceVertexEdges (addEdgesFold m ps).vertexArray ps
      m.edgeArray.length)
    (hFA : M3.faceArray = (addEdgesFold m ps).faceArray ++
      [some { id := m.faceArray.length, edge := some m.edgeArray.length }])
    (hMP : M3.edgeMap = (addEdgesFold m ps).edgeMap) :
    WF M3 := by
  set m1 := addEdgesFold m ps with hm1
  have hmid := Mid.fold m ps w hok
  rw [hps] at hmid
  have hce : m.edgeCount = m.edgeArray.length := rfl
  have hcf : m.faceCount = m.faceArray.length := rfl
  have htakeall : ps.take num = ps := by rw [← hps, List.take_length]
  have hnum0 : 0 < num := by omega
  -- shorthand facts
  have helen1 : m1.edgeCount = m.edgeArray.length + num := by
    have := hmid.elen
    rw [hce] at this
    exact this
  have hokD : ∀ s, s < num → okPair m ps (ps.getD s (0, 0)) = true := by
    intro s hs
    apply hok
    have hsl : s < ps.length := by omega
    rw [List.getD_eq_getElem?_getD, List.getElem?_eq_getElem hsl]
    exact List.getElem_mem hsl
  have hranges : ∀ s, s < num →
      (ps.getD s (0, 0)).1 < m.vertexCount ∧ (ps.getD s (0, 0)).2 < m.vertexCount := by
    intro s hs
    have h := hokD s hs
    unfold okPair at h
    simp only [Bool.and_eq_true, decide_eq_true_eq] at h
    exact ⟨h.1.1.1.1, h.1.1.1.2⟩
  -- edge lookups in M3
  have hLE : ∀ x, lookupEdge M3 x =
      lookupEdge (linkFaceEdges m1 m.edgeArray.length num m.faceArray.length) x := by
    intro x
    unfold lookupEdge
    rw [hEA]
  have hLold : ∀ x, x < m.edgeArray.length → lookupEdge M3 x = lookupEdge m1 x := by
    intro x hx
    rw [hLE x]
    exact linkFaceEdges_lookup_lt m1 m.edgeArray.length num m.faceArray.length x hx
  have hLnew : ∀ s, s < num → lookupEdge M3 (m.edgeArray.length + s) =
      (lookupEdge m1 (m.edgeArray.length + s)).map (fun e =>
        { e with next := some (m.edgeArray.length + (s + 1) % num),
                 prev := some (m.edgeArray.length + (s + num - 1) % num),
                 face := some m.faceArray.length }) := by
    intro s hs
    rw [hLE _]
    exact linkFaceEdges_lookup_in m1 m.edgeArray.length num m.faceArray.length s hs
  have hM3ecount : M3.edgeCount = m.edgeArray.length + num := by
    have h1 : M3.edgeCount = (linkFaceEdges m1 m.edgeArray.length num
        m.faceArray.length).edgeCount := by
      unfold Mesh.edgeCount
      rw [hEA]
    rw [h1, linkFaceEdges_edgeCount, helen1]
  -- the fully described new edge slots of M3
  have hnew3 : ∀ s, s < num → ∃ e, lookupEdge M3 (m.edgeArray.length + s) = some e ∧
      e.id = m.edgeArray.length + s ∧ e.vertex = (ps.getD s (0, 0)).1 ∧
      e.next = some (m.edgeArray.length + (s + 1) % num) ∧
      e.prev = some (m.edgeArray.length + (s + num - 1) % num) ∧
      e.face = some m.faceArray.length := by
    intro s hs
    obtain ⟨e1, he1, hv1, hn1, hp1, hf1⟩ := hmid.newSlot s hs
    rw [hce] at he1
    obtain ⟨e2, he2, hid2⟩ := hmid.eLive (m.edgeArray.length + s) (by rw [helen1]; omega)
    have he12 : e2 = e1 := by
      rw [he1] at he2
      exact (Option.some_inj.mp he2).symm
    refine ⟨{ e1 with
                next := some (m.edgeArray.length + (s + 1) % num),
                prev := some (m.edgeArray.length + (s + num - 1) % num),
                face := some m.faceArray.length }, ?_, ?_, hv1, rfl, rfl, rfl⟩
    · rw [hLnew s hs, he1]
      rfl
    · show e1.id = m.edgeArray.length + s
      rw [← he12]
      exact hid2
  have hLinv : ∀ x e, lookupEdge M3 x = some e →
      (x < m.edgeArray.length ∧ lookupEdge m1 x = some e) ∨
      ∃ s, s < num ∧ x = m.edgeArray.length + s := by
    intro x e he
    have hx : x < M3.edgeCount := lookupEdge_lt M3 x e he
    rw [hM3ecount] at hx
    rcases Nat.lt_or_ge x m.edgeArray.length with hlt | hge
    · left
      exact ⟨hlt, by rw [← hLold x hlt]; exact he⟩
    · right
      exact ⟨x - m.edgeArray.length, by omega, by omega⟩
  have hpairpres : ∀ x e, lookupEdge M3 x = some e → ∃ e1, lookupEdge m1 x = some e1 ∧
      e1.pair = e.pair ∧ e1.vertex = e.vertex ∧ e1.id = e.id := by
    intro x e he
    rcases hLinv x e he with ⟨hx, hm1x⟩ | ⟨s, hs, hxs⟩
    · exact ⟨e, hm1x, rfl, rfl, rfl⟩
    · subst hxs
      rw [hLnew s hs] at he
      rcases hm1x : lookupEdge m1 (m.edgeArray.length + s) with _ | e1
      · rw [hm1x] at he
        cases he
      · rw [hm1x] at he
        refine ⟨e1, rfl, ?_, ?_, ?_⟩ <;>
          · rw [← Option.some_inj.mp he]
  have hpairfwd : ∀ x e1, lookupEdge m1 x = some e1 → ∃ e, lookupEdge M3 x = some e ∧
      e.pair = e1.pair := by
    intro x e1 he1
    have hx : x < m1.edgeCount := lookupEdge_lt m1 x e1 he1
    rw [helen1] at hx
    rcases Nat.lt_or_ge x m.edgeArray.length with hlt | hge
    · exact ⟨e1, by rw [hLold x hlt]; exact he1, rfl⟩
    · obtain ⟨s, hs, hxs⟩ : ∃ s, s < num ∧ x = m.edgeArray.length + s :=
        ⟨x - m.edgeArray.length, by omega, by omega⟩
      subst hxs
      refine ⟨{ e1 with
                  next := some (m.edgeArray.length + (s + 1) % num),
                  prev := some (m.edgeArray.length + (s + num - 1) % num),
                  face := some m.faceArray.length }, ?_, rfl⟩
      rw [hLnew s hs, he1]
      rfl
  -- vertex lookups in M3
  have hvarr : M3.vertexArray = setFaceVertexEdges m.vertexArray ps m.edgeArray.length := by
    rw [hVA, hmid.va]
  have hvfold := foldl_setVertexEdge_slots m.edgeArray.length ps (List.range ps.length)
    m.vertexArray (fun t ht => List.mem_range.mp ht)
  have hvlen : M3.vertexArray.length = m.vertexArray.length := by
    rw [hvarr]
    exact hvfold.1
  have hvslots : ∀ (v : Nat), (M3.vertexArray[v]? = m.vertexArray[v]?) ∨
      ∃ (ov : Vertex) (t : Nat), t < ps.length ∧ m.vertexArray[v]? = some (some ov) ∧
        M3.vertexArray[v]? = some (some { ov with edge := some (m.edgeArray.length + t) }) := by
    intro v
    rw [hvarr]
    exact hvfold.2 v
  have hM3vcount : M3.vertexCount = m.vertexCount := hvlen
  -- face lookups in M3
  have hfarr : M3.faceArray = m.faceArray ++
      [some { id := m.faceArray.length, edge := some m.edgeArray.length }] := by
    rw [hFA, hmid.fa]
  have hM3fcount : M3.faceCount = m.faceArray.length + 1 := by
    unfold Mesh.faceCount
    rw [hfarr]
    simp
  have hLFold : ∀ k, k < m.faceArray.length → M3.faceArray[k]? = m.faceArray[k]? := by
    intro k hk
    rw [hfarr]
    exact List.getElem?_append_left hk
  have hLFnew : M3.faceArray[m.faceArray.length]? =
      some (some { id := m.faceArray.length, edge := some m.edgeArray.length }) := by
    rw [hfarr, List.getElem?_append_right (Nat.le_refl _)]
    simp
  -- the map of M3
  have hmap3 : M3.edgeMap = m.edgeMap ++
      mapWithIndexFrom (fun s (q : Nat × Nat) => (q, m.edgeCount + s)) 0 ps := by
    rw [hMP]
    have := hmid.emap
    rw [htakeall] at this
    exact this
  have hposM : ∀ v, posAt M3 v = posAt m v := by
    intro v
    simp only [posAt, lookupVertex]
    rcases hvslots v with hkeep | ⟨ov, t, htl, hov, hset⟩
    · rw [hkeep]
    · rw [hset, hov]
      rfl
  have hliveM : ∀ x, x < M3.edgeCount → ∃ e, lookupEdge M3 x = some e := by
    intro x hx
    rw [hM3ecount] at hx
    rcases Nat.lt_or_ge x m.edgeArray.length with hlt | hge
    · obtain ⟨e, he, _⟩ := hmid.eLive x (by rw [helen1]; omega)
      exact ⟨e, by rw [hLold x hlt]; exact he⟩
    · obtain ⟨s, hs, hks⟩ : ∃ s, s < num ∧ x = m.edgeArray.length + s :=
        ⟨x - m.edgeArray.length, by omega, by omega⟩
      subst hks
      obtain ⟨e, he, _⟩ := hnew3 s hs
      exact ⟨e, he⟩
  have hEO : ∀ i j eid, ((i, j), eid) ∈ M3.edgeMap →
      eid < M3.edgeCount ∧ ∀ e, lookupEdge M3 eid = some e → e.vertex = i ∧
        ∀ n en, e.next = some n → lookupEdge M3 n = some en → en.vertex = j := by
    intro i j eid hmem
    have hmem1 : ((i, j), eid) ∈ m1.edgeMap := by rw [← hMP]; exact hmem
    have hlt1 := (hmid.entryOrigin i j eid hmem1).1
    refine ⟨by rw [hM3ecount]; rw [helen1] at hlt1; exact hlt1, ?_⟩
    intro e he
    have hsplit : ((i, j), eid) ∈ m.edgeMap ∨
        ((i, j), eid) ∈ mapWithIndexFrom (fun s (q : Nat × Nat) => (q, m.edgeCount + s)) 0 ps := by
      have := hmem
      rw [hmap3] at this
      exact List.mem_append.mp this
    rcases hsplit with hmOld | hmNew
    · -- an entry of the original lookup: eid is an original edge
      have heidlt : eid < m.edgeArray.length := by
        have := (w.mapEntryOrigin i j eid hmOld).1
        rw [hce] at this
        exact this
      have hm1e : lookupEdge m1 eid = some e := by
        rw [← hLold eid heidlt]
        exact he
      refine ⟨((hmid.entryOrigin i j eid hmem1).2 e hm1e).1, ?_⟩
      intro n en hn hen
      -- the next of an original edge is an original edge
      obtain ⟨e0, he0, _⟩ := w.eSlot eid (by rw [hce]; exact heidlt)
      have he0l := (lookupEdge_eq_some_iff m eid e0).mpr he0
      obtain ⟨eb, hebl, _, _, hbn, _, _⟩ := hmid.oldSlot eid e0 (by rw [hce]; exact heidlt) he0l
      have hebe : eb = e := by
        rw [hm1e] at hebl
        exact (Option.some_inj.mp hebl).symm
      have hn0 : e0.next = some n := by
        rw [← hbn, hebe]
        exact hn
      have hnlt : n < m.edgeArray.length := by
        have := w.nextBound eid e0 n he0l hn0
        rw [hce] at this
        exact this
      have hen1 : lookupEdge m1 n = some en := by
        rw [← hLold n hnlt]
        exact hen
      exact ((hmid.entryOrigin i j eid hmem1).2 e hm1e).2 n en hn hen1
    · -- a fresh entry: eid is one of the new face half-edges
      obtain ⟨t, htl, a, ha, hba⟩ := (mapWithIndexFrom_mem_iff _ 0 ps _).mp hmNew
      have hta : ps.getD t (0, 0) = a := by
        rw [List.getD_eq_getElem?_getD, ha]
        rfl
      have hia : (i, j) = a := congrArg Prod.fst hba
      have heidv : eid = m.edgeCount + t := by
        have := congrArg Prod.snd hba
        simpa using this
      have htnum : t < num := by omega
      obtain ⟨e3, he3, _, hv3, hn3, _, _⟩ := hnew3 t htnum
      have he3e : e3 = e := by
        rw [heidv, hce] at he
        rw [he] at he3
        exact (Option.some_inj.mp he3).symm
      constructor
      · rw [← he3e, hv3, hta]
        exact (congrArg Prod.fst hia).symm
      · intro n en hn hen
        have hnv : n = m.edgeArray.length + (t + 1) % num := by
          rw [← he3e] at hn
          rw [hn3] at hn
          exact (Option.some_inj.mp hn).symm
        have hs2 : (t + 1) % num < num := Nat.mod_lt _ hnum0
        obtain ⟨e4, he4, _, hv4, _, _, _⟩ := hnew3 ((t + 1) % num) hs2
        have he4en : e4 = en := by
          rw [hnv] at hen
          rw [hen] at he4
          exact (Option.some_inj.mp he4).symm
        rw [← he4en, hv4, ← hchain t htnum, hta]
        exact (congrArg Prod.snd hia).symm
  refine ⟨?_, ?_, ?_, ?_, ?_, ?_, ?_, ?_, ?_, ?_, ?_, ?_, ?_, ?_, ?_, ?_⟩
  · -- vSlot
    intro k hk
    rw [hM3vcount] at hk
    obtain ⟨v0, hv0, hid0⟩ := w.vSlot k hk
    rcases hvslots k with hkeep | ⟨ov, t, htl, hov, hset⟩
    · exact ⟨v0, by rw [hkeep]; exact hv0, hid0⟩
    · have hov2 : v0 = ov := by
        rw [hv0] at hov
        exact Option.some_inj.mp (Option.some_inj.mp hov)
      refine ⟨{ ov with edge := some (m.edgeArray.length + t) }, by rw [hset], ?_⟩
      show ov.id = k
      rw [← hov2]
      exact hid0
  · -- eSlot
    intro k hk
    rw [hM3ecount] at hk
    rcases Nat.lt_or_ge k m.edgeArray.length with hlt | hge
    · obtain ⟨e, he, hid⟩ := hmid.eLive k (by rw [helen1]; omega)
      have he3 : lookupEdge M3 k = some e := by rw [hLold k hlt]; exact he
      exact ⟨e, (lookupEdge_eq_some_iff M3 k e).mp he3, hid⟩
    · obtain ⟨s, hs, hks⟩ : ∃ s, s < num ∧ k = m.edgeArray.length + s :=
        ⟨k - m.edgeArray.length, by omega, by omega⟩
      subst hks
      obtain ⟨e, he, hid, _, _, _, _⟩ := hnew3 s hs
      exact ⟨e, (lookupEdge_eq_some_iff M3 _ e).mp he, hid⟩
  · -- fSlot
    intro k hk
    rw [hM3fcount] at hk
    rcases Nat.lt_or_ge k m.faceArray.length with hlt | hge
    · obtain ⟨f0, hf0, hid0⟩ := w.fSlot k (by rw [hcf]; exact hlt)
      exact ⟨f0, by rw [hLFold k hlt]; exact hf0, hid0⟩
    · have hke : k = m.faceArray.length := by omega
      subst hke
      exact ⟨{ id := m.faceArray.length, edge := some m.edgeArray.length }, hLFnew, rfl⟩
  · -- vEdgeRange
    intro k v e hv he
    rw [lookupVertex_eq_some_iff] at hv
    rw [hM3ecount]
    rcases hvslots k with hkeep | ⟨ov, t, htl, hov, hset⟩
    · rw [hkeep] at hv
      have := w.vEdgeRange k v e ((lookupVertex_eq_some_iff m k v).mpr hv) he
      rw [hce] at this
      omega
    · rw [hset] at hv
      have hveq : v = { ov with edge := some (m.edgeArray.length + t) } :=
        (Option.some_inj.mp (Option.some_inj.mp hv)).symm
      rw [hveq] at he
      have hee : e = m.edgeArray.length + t := Option.some_inj.mp he.symm
      rw [hps] at htl
      omega
  · -- vColRange
    intro k v hv
    rw [lookupVertex_eq_some_iff] at hv
    rw [hM3vcount]
    rcases hvslots k with hkeep | ⟨ov, t, htl, hov, hset⟩
    · rw [hkeep] at hv
      exact w.vColRange k v ((lookupVertex_eq_some_iff m k v).mpr hv)
    · rw [hset] at hv
      have hveq : v = { ov with edge := some (m.edgeArray.length + t) } :=
        (Option.some_inj.mp (Option.some_inj.mp hv)).symm
      rw [hveq]
      show ov.colocal < m.vertexCount
      exact w.vColRange k ov ((lookupVertex_eq_some_iff m k ov).mpr hov)
  · -- eVertRange
    intro k e he
    rw [hM3vcount]
    obtain ⟨e1, he1, _, hvtx, _⟩ := hpairpres k e he
    rw [← hvtx]
    rcases hLinv k e he with ⟨hk, hm1k⟩ | ⟨s, hs, hks⟩
    · obtain ⟨e0, he0, hid0⟩ := w.eSlot k (by rw [hce]; exact hk)
      have he0l := (lookupEdge_eq_some_iff m k e0).mpr he0
      obtain ⟨eb, hebl, _, hbv, _, _, _⟩ := hmid.oldSlot k e0 (by rw [hce]; exact hk) he0l
      have hebe1 : eb = e1 := by
        rw [he1] at hebl
        exact (Option.some_inj.mp hebl).symm
      rw [← hebe1, hbv]
      exact w.eVertRange k e0 he0l
    · subst hks
      obtain ⟨es, hesl, hsv, _, _, _⟩ := hmid.newSlot s hs
      rw [hce] at hesl
      have hese1 : es = e1 := by
        rw [he1] at hesl
        exact (Option.some_inj.mp hesl).symm
      rw [← hese1, hsv]
      exact (hranges s hs).1
  · -- eFaceRange
    intro k e f he hf
    rw [hM3fcount]
    rcases hLinv k e he with ⟨hk, hm1k⟩ | ⟨s, hs, hks⟩
    · obtain ⟨e0, he0, _⟩ := w.eSlot k (by rw [hce]; exact hk)
      have he0l := (lookupEdge_eq_some_iff m k e0).mpr he0
      obtain ⟨eb, hebl, _, _, _, _, hbf⟩ := hmid.oldSlot k e0 (by rw [hce]; exact hk) he0l
      have hebe : eb = e := by
        rw [hm1k] at hebl
        exact (Option.some_inj.mp hebl).symm
      rw [← hebe, hbf] at hf
      have := w.eFaceRange k e0 f he0l hf
      rw [hcf] at this
      omega
    · subst hks
      obtain ⟨e3, he3, _, _, _, _, hf3⟩ := hnew3 s hs
      have he3e : e3 = e := by
        rw [he] at he3
        exact (Option.some_inj.mp he3).symm
      rw [← he3e, hf3] at hf
      have : f = m.faceArray.length := Option.some_inj.mp hf.symm
      omega
  · -- mapKeysNodup
    rw [hMP]
    exact hmid.keysNodup
  · -- mapValsNodup
    rw [hMP]
    exact hmid.valsNodup
  · -- mapEntryOrigin
    exact hEO
  · -- mapCover
    intro eid e he
    rcases hLinv eid e he with ⟨hk, hm1k⟩ | ⟨s, hs, hks⟩
    · obtain ⟨i, j, hm⟩ := hmid.cover eid e hm1k
      exact ⟨i, j, by rw [hMP]; exact hm⟩
    · subst hks
      obtain ⟨es, hesl, _⟩ := hmid.newSlot s hs
      rw [hce] at hesl
      obtain ⟨i, j, hm⟩ := hmid.cover _ es hesl
      exact ⟨i, j, by rw [hMP]; exact hm⟩
  · -- pairSym
    intro k e p he hp
    obtain ⟨e1, he1, hpair, _, _⟩ := hpairpres k e he
    have hp1 : e1.pair = some p := by rw [hpair]; exact hp
    obtain ⟨e2, he2, hp2⟩ := hmid.psym k e1 p he1 hp1
    obtain ⟨e3, he3, hp3⟩ := hpairfwd p e2 he2
    exact ⟨e3, he3, by rw [hp3]; exact hp2⟩
  · -- pairColoc
    intro k e p he hp
    obtain ⟨e1, he1, hpair, _, _⟩ := hpairpres k e he
    have hp1 : e1.pair = some p := by rw [hpair]; exact hp
    rcases hmid.pairBack k e1 p he1 hp1 with ⟨e0, he0m, he0p⟩ | ⟨i, j, hk1, hk2⟩
    · have hklt : k < m.edgeArray.length := by
        have := lookupEdge_lt m k e0 he0m
        rw [hce] at this
        exact this
      obtain ⟨ep, hepm, hcol⟩ := w.pairColoc k e0 p he0m he0p
      have hplt : p < m.edgeArray.length := by
        have := lookupEdge_lt m p ep hepm
        rw [hce] at this
        exact this
      obtain ⟨epb, hepb1, _, hepbv, _, _, _⟩ := hmid.oldSlot p ep (by rw [hce]; exact hplt) hepm
      have hepb3 : lookupEdge M3 p = some epb := by
        rw [hLold p hplt]
        exact hepb1
      refine ⟨epb, hepb3, ?_⟩
      intro vd hvd
      obtain ⟨e', n, en, he', hn', hen', hv'⟩ := edgeDest_some_inv M3 k vd hvd
      have hee : e' = e := by
        rw [he] at he'
        exact (Option.some_inj.mp he').symm
      obtain ⟨eb, hebl, _, _, hbn, _, _⟩ := hmid.oldSlot k e0 (by rw [hce]; exact hklt) he0m
      have hebe : eb = e := by
        have hm1k : lookupEdge m1 k = some e := by rw [← hLold k hklt]; exact he
        rw [hm1k] at hebl
        exact (Option.some_inj.mp hebl).symm
      have hn0 : e0.next = some n := by
        rw [← hbn, hebe, ← hee]
        exact hn'
      have hnlt : n < m.edgeArray.length := by
        have := w.nextBound k e0 n he0m hn0
        rw [hce] at this
        exact this
      obtain ⟨en0, hen0e, _⟩ := w.eSlot n (by rw [hce]; exact hnlt)
      have hen0l := (lookupEdge_eq_some_iff m n en0).mpr hen0e
      obtain ⟨enb, henbl, _, henbv, _, _, _⟩ := hmid.oldSlot n en0 (by rw [hce]; exact hnlt) hen0l
      have henbe : enb = en := by
        have hm1n : lookupEdge m1 n = some en := by rw [← hLold n hnlt]; exact hen'
        rw [hm1n] at henbl
        exact (Option.some_inj.mp henbl).symm
      have hdm : edgeDest m k = some vd := by
        have hred : edgeDest m k = ((lookupEdge m k).bind (fun e2 => e2.next)).bind
            (fun n2 => (lookupEdge m n2).map (fun e2 => e2.vertex)) := rfl
        rw [hred, he0m]
        show (e0.next.bind (fun n2 => (lookupEdge m n2).map (fun e2 => e2.vertex))) = some vd
        rw [hn0]
        show (lookupEdge m n).map (fun e2 => e2.vertex) = some vd
        rw [hen0l]
        show some en0.vertex = some vd
        rw [← hv', ← henbe, henbv]
      have hcv := hcol vd hdm
      rw [hposM epb.vertex, hposM vd, hepbv]
      exact hcv
    · have hmm1 : ((i, j), k) ∈ M3.edgeMap := by rw [hMP]; exact hk1
      have hmm2 : ((j, i), p) ∈ M3.edgeMap := by rw [hMP]; exact hk2
      obtain ⟨hplt3, hpe⟩ := hEO j i p hmm2
      obtain ⟨ep3, hep3⟩ := hliveM p hplt3
      refine ⟨ep3, hep3, ?_⟩
      intro vd hvd
      obtain ⟨e', n, en, he', hn', hen', hv'⟩ := edgeDest_some_inv M3 k vd hvd
      have hee : e' = e := by
        rw [he] at he'
        exact (Option.some_inj.mp he').symm
      have hvdj : vd = j := by
        rw [← hv']
        exact ((hEO i j k hmm1).2 e he).2 n en (by rw [← hee]; exact hn') hen'
      have hpj : ep3.vertex = j := (hpe ep3 hep3).1
      rw [hpj, hvdj]
  · -- nextBound
    intro k e n he hn
    rw [hM3ecount]
    rcases hLinv k e he with ⟨hk, hm1k⟩ | ⟨s, hs, hks⟩
    · obtain ⟨e0, he0, _⟩ := w.eSlot k (by rw [hce]; exact hk)
      have he0l := (lookupEdge_eq_some_iff m k e0).mpr he0
      obtain ⟨eb, hebl, _, _, hbn, _, _⟩ := hmid.oldSlot k e0 (by rw [hce]; exact hk) he0l
      have hebe : eb = e := by
        rw [hm1k] at hebl
        exact (Option.some_inj.mp hebl).symm
      have hn0 : e0.next = some n := by
        rw [← hbn, hebe]
        exact hn
      have := w.nextBound k e0 n he0l hn0
      rw [hce] at this
      omega
    · subst hks
      obtain ⟨e3, he3, _, _, hn3, _, _⟩ := hnew3 s hs
      have he3e : e3 = e := by
        rw [he] at he3
        exact (Option.some_inj.mp he3).symm
      rw [← he3e, hn3] at hn
      have hnv := Option.some_inj.mp hn
      have := Nat.mod_lt (s + 1) hnum0
      omega
  · -- prevBound
    intro k e n he hn
    rw [hM3ecount]
    rcases hLinv k e he with ⟨hk, hm1k⟩ | ⟨s, hs, hks⟩
    · obtain ⟨e0, he0, _⟩ := w.eSlot k (by rw [hce]; exact hk)
      have he0l := (lookupEdge_eq_some_iff m k e0).mpr he0
      obtain ⟨eb, hebl, _, _, _, hbp, _⟩ := hmid.oldSlot k e0 (by rw [hce]; exact hk) he0l
      have hebe : eb = e := by
        rw [hm1k] at hebl
        exact (Option.some_inj.mp hebl).symm
      have hp0 : e0.prev = some n := by
        rw [← hbp, hebe]
        exact hn
      have := w.prevBound k e0 n he0l hp0
      rw [hce] at this
      omega
    · subst hks
      obtain ⟨e3, he3, _, _, _, hp3, _⟩ := hnew3 s hs
      have he3e : e3 = e := by
        rw [he] at he3
        exact (Option.some_inj.mp he3).symm
      rw [← he3e, hp3] at hn
      have hnv := Option.some_inj.mp hn
      have := Nat.mod_lt (s + num - 1) hnum0
      omega
  · -- faceCycles
    intro fid f hf
    rw [lookupFace_eq_some_iff] at hf
    rcases Nat.lt_or_ge fid m.faceArray.length with hlt | hge
    · rw [hLFold fid hlt] at hf
      have hfm : lookupFace m fid = some f := (lookupFace_eq_some_iff m fid f).mpr hf
      obtain ⟨cyc, hfe, hne, hnd, hstep⟩ := w.faceCycles fid f hfm
      refine ⟨cyc, hfe, hne, hnd, ?_⟩
      intro t ht
      obtain ⟨e, he, hface, hnext, hprev⟩ := hstep t ht
      have hel : cyc.getD t 0 < m.edgeArray.length := by
        have := lookupEdge_lt m _ e he
        rw [hce] at this
        exact this
      obtain ⟨eb, hebl, _, _, hbn, hbp, hbf⟩ := hmid.oldSlot _ e (by rw [hce]; exact hel) he
      exact ⟨eb, by rw [hLold _ hel]; exact hebl, by rw [hbf]; exact hface,
        by rw [hbn]; exact hnext, by rw [hbp]; exact hprev⟩
    · have hfv : fid < M3.faceCount :=
        lookupFace_lt M3 fid f ((lookupFace_eq_some_iff M3 fid f).mpr hf)
      rw [hM3fcount] at hfv
      have hfe : fid = m.faceArray.length := by omega
      subst hfe
      rw [hLFnew] at hf
      have hfval : f = { id := m.faceArray.length, edge := some m.edgeArray.length } :=
        (Option.some_inj.mp (Option.some_inj.mp hf)).symm
      have hlen : ((List.range num).map (fun s => m.edgeArray.length + s)).length = num := by
        rw [List.length_map, List.length_range]
      refine ⟨(List.range num).map (fun s => m.edgeArray.length + s), ?_, ?_,
        nodup_range_map_add m.edgeArray.length num, ?_⟩
      · rw [hfval]
        have hne2 : ((List.range num).map (fun s => m.edgeArray.length + s)) ≠ [] := by
          intro hcon
          have := congrArg List.length hcon
          rw [hlen] at this
          simp at this
          omega
        rw [headD_eq_getD _ hne2, getD_range_map_add m.edgeArray.length num 0 hnum0]
        rfl
      · intro hcon
        have := congrArg List.length hcon
        rw [hlen] at this
        simp at this
        omega
      · intro t ht
        rw [hlen] at ht
        obtain ⟨e3, he3, _, _, hn3, hp3, hf3⟩ := hnew3 t ht
        refine ⟨e3, ?_, hf3, ?_, ?_⟩
        · rw [getD_range_map_add m.edgeArray.length num t ht]
          exact he3
        · rw [hn3, hlen, getD_range_map_add m.edgeArray.length num ((t + 1) % num)
            (Nat.mod_lt _ hnum0)]
        · rw [hp3, hlen, getD_range_map_add m.edgeArray.length num ((t + num - 1) % num)
            (Nat.mod_lt _ hnum0)]

/-- `addFace` preserves well-formedness: the violation branch only touches the
diagnostic triple, the guard-failure branch returns the mesh unchanged, and the
success branch assembles a well-formed face. -/
theorem WF.addFace (m : Mesh) (w : WF m) (idx : List Nat) (first num : Nat) :
    WF (m.addFace idx first num).1 := by
  rcases Decidable.em (3 ≤ num ∧ first + num ≤ idx.length) with hcond | hcond
  · rcases hviol : firstViolation m (facePairs idx first num) with _ | q
    · have hok : ∀ q ∈ facePairs idx first num,
          okPair m (facePairs idx first num) q = true := by
        intro q hq
        have := List.find?_eq_none.mp hviol q hq
        simpa using this
      refine WF.addFaceAssembled m w (facePairs idx first num) num _ hcond.1
        (facePairs_length idx first num)
        (fun t ht => facePairs_chain idx first num t ht) hok ?_ ?_ ?_ ?_
      · simp [Mesh.addFace, hcond, hviol, linkFaceEdges]
      · simp [Mesh.addFace, hcond, hviol, linkFaceEdges]
      · simp [Mesh.addFace, hcond, hviol, linkFaceEdges]
      · simp [Mesh.addFace, hcond, hviol, linkFaceEdges]
    · have hred : (m.addFace idx first num).1 =
          { m with errorCount := m.errorCount + 1,
                   errorIndex0 := q.1, errorIndex1 := q.2 } := by
        simp [Mesh.addFace, hcond, hviol]
      rw [hred]
      exact w.diag _ _ _
  · have hred : (m.addFace idx first num).1 = m := by
      simp [Mesh.addFace, hcond]
    rw [hred]
    exact w

/-! Preservation of well-formedness by the boundary sewing operation. -/

theorem setSewnAt_length (arr : List (Option Edge)) (k p : Nat) :
    (setSewnAt arr k p).length = arr.length := by
  unfold setSewnAt
  rcases h : arr[k]? with _ | oe
  · rfl
  · rcases oe with _ | e
    · rfl
    · exact List.length_set arr k _

theorem setSewnAt_getElem?_ne (arr : List (Option Edge)) (k p x : Nat) (h : x ≠ k) :
    (setSewnAt arr k p)[x]? = arr[x]? := by
  unfold setSewnAt
  rcases hk : arr[k]? with _ | oe
  · rfl
  · rcases oe with _ | e
    · rfl
    · exact List.getElem?_set_ne (fun he => h he.symm)

theorem setSewnAt_getElem?_eq (arr : List (Option Edge)) (k p : Nat) (e : Edge)
    (h : arr[k]? = some (some e)) :
    (setSewnAt arr k p)[k]? = some (some (sewnEdge e p)) := by
  unfold setSewnAt
  rw [h]
  exact List.getElem?_set_self (List.getElem?_eq_some_iff.mp h).1

theorem sewAttach_lookup_other (m : Mesh) (k c x : Nat) (h1 : x ≠ k) (h2 : x ≠ c) :
    lookupEdge (sewAttach m k c) x = lookupEdge m x := by
  show ((setSewnAt (setSewnAt m.edgeArray k c) c k)[x]?).join = (m.edgeArray[x]?).join
  rw [setSewnAt_getElem?_ne _ _ _ _ h2, setSewnAt_getElem?_ne _ _ _ _ h1]

theorem sewAttach_lookup_fst (m : Mesh) (k c : Nat) (hkc : k ≠ c) (e : Edge)
    (he : lookupEdge m k = some e) :
    lookupEdge (sewAttach m k c) k = some (sewnEdge e c) := by
  have harr : m.edgeArray[k]? = some (some e) := (lookupEdge_eq_some_iff m k e).mp he
  show ((setSewnAt (setSewnAt m.edgeArray k c) c k)[k]?).join = some (sewnEdge e c)
  rw [setSewnAt_getElem?_ne _ _ _ _ hkc, setSewnAt_getElem?_eq _ _ _ _ harr]
  rfl

theorem sewAttach_lookup_snd (m : Mesh) (k c : Nat) (hkc : k ≠ c) (e : Edge)
    (he : lookupEdge m c = some e) :
    lookupEdge (sewAttach m k c) c = some (sewnEdge e k) := by
  have harr : m.edgeArray[c]? = some (some e) := (lookupEdge_eq_some_iff m c e).mp he
  have hinner : (setSewnAt m.edgeArray k c)[c]? = some (some e) := by
    rw [setSewnAt_getElem?_ne _ _ _ _ (Ne.symm hkc)]
    exact harr
  show ((setSewnAt (setSewnAt m.edgeArray k c) c k)[c]?).join = some (sewnEdge e k)
  rw [setSewnAt_getElem?_eq _ _ _ _ hinner]
  rfl

theorem edgeIsBoundary_inv (m : Mesh) (k : Nat) (h : edgeIsBoundary m k = true) :
    ∃ e, lookupEdge m k = some e ∧ e.pair = none := by
  rcases he : lookupEdge m k with _ | e
  · rw [edgeIsBoundary, he] at h
    cases h
  · rw [edgeIsBoundary, he] at h
    have h2 : e.pair.isNone = true := h
    refine ⟨e, rfl, ?_⟩
    rcases hp : e.pair with _ | q
    · rfl
    · rw [hp] at h2
      simp at h2

theorem sewPred_parts (m : Mesh) (k c : Nat) (h : sewPred m k c = true) :
    c ≠ k ∧ edgeIsBoundary m c = true ∧
    (lookupEdge m c).bind (fun e => posAt m e.vertex) = (edgeDest m k).bind (posAt m) ∧
    (edgeDest m c).bind (posAt m) = (lookupEdge m k).bind (fun e => posAt m e.vertex) := by
  unfold sewPred at h
  simp only [Bool.and_eq_true, decide_eq_true_eq] at h
  exact ⟨h.1.1.1.1.1, h.1.1.1.1.2, h.1.1.1.2, h.1.1.2⟩

theorem WF.sewStep (m : Mesh) (w : WF m) (k c : Nat)
    (hb : edgeIsBoundary m k = true) (hpred : sewPred m k c = true) :
    WF (sewAttach m k c) := by
  obtain ⟨hck, hbc, hd1, hd2⟩ := sewPred_parts m k c hpred
  have hkc : k ≠ c := fun h => hck h.symm
  obtain ⟨ek, hek, hekp⟩ := edgeIsBoundary_inv m k hb
  obtain ⟨ec, hec, hecp⟩ := edgeIsBoundary_inv m c hbc
  have hlk : lookupEdge (sewAttach m k c) k = some (sewnEdge ek c) :=
    sewAttach_lookup_fst m k c hkc ek hek
  have hlc : lookupEdge (sewAttach m k c) c = some (sewnEdge ec k) :=
    sewAttach_lookup_snd m k c hkc ec hec
  have hlo : ∀ x, x ≠ k → x ≠ c → lookupEdge (sewAttach m k c) x = lookupEdge m x :=
    fun x h1 h2 => sewAttach_lookup_other m k c x h1 h2
  have hecount : (sewAttach m k c).edgeCount = m.edgeCount := by
    show (setSewnAt (setSewnAt m.edgeArray k c) c k).length = m.edgeArray.length
    rw [setSewnAt_length, setSewnAt_length]
  have hinv : ∀ x e2, lookupEdge (sewAttach m k c) x = some e2 →
      (x ≠ k ∧ x ≠ c ∧ lookupEdge m x = some e2) ∨
      (x = k ∧ e2 = sewnEdge ek c) ∨ (x = c ∧ e2 = sewnEdge ec k) := by
    intro x e2 he2
    by_cases hxk : x = k
    · subst hxk
      rw [hlk] at he2
      exact Or.inr (Or.inl ⟨rfl, (Option.some_inj.mp he2).symm⟩)
    · by_cases hxc : x = c
      · subst hxc
        rw [hlc] at he2
        exact Or.inr (Or.inr ⟨rfl, (Option.some_inj.mp he2).symm⟩)
      · rw [hlo x hxk hxc] at he2
        exact Or.inl ⟨hxk, hxc, he2⟩
  have hvertmap : ∀ x, (lookupEdge (sewAttach m k c) x).map (fun e => e.vertex) =
      (lookupEdge m x).map (fun e => e.vertex) := by
    intro x
    by_cases hxk : x = k
    · subst hxk
      rw [hlk, hek]
      rfl
    · by_cases hxc : x = c
      · subst hxc
        rw [hlc, hec]
        rfl
      · rw [hlo x hxk hxc]
  have hnextback : ∀ x e2 n, lookupEdge (sewAttach m k c) x = some e2 → e2.next = some n →
      ∃ e0, lookupEdge m x = some e0 ∧ e0.next = some n := by
    intro x e2 n he2 hn
    rcases hinv x e2 he2 with ⟨_, _, hx⟩ | ⟨hxk, hxe⟩ | ⟨hxc, hxe⟩
    · exact ⟨e2, hx, hn⟩
    · rw [hxe] at hn
      have hn2 : (if ek.face.isSome then ek.next else none) = some n := hn
      by_cases hfs : ek.face.isSome = true
      · rw [if_pos hfs] at hn2
        subst hxk
        exact ⟨ek, hek, hn2⟩
      · rw [if_neg hfs] at hn2
        cases hn2
    · rw [hxe] at hn
      have hn2 : (if ec.face.isSome then ec.next else none) = some n := hn
      by_cases hfs : ec.face.isSome = true
      · rw [if_pos hfs] at hn2
        subst hxc
        exact ⟨ec, hec, hn2⟩
      · rw [if_neg hfs] at hn2
        cases hn2
  have hprevback : ∀ x e2 n, lookupEdge (sewAttach m k c) x = some e2 → e2.prev = some n →
      ∃ e0, lookupEdge m x = some e0 ∧ e0.prev = some n := by
    intro x e2 n he2 hn
    rcases hinv x e2 he2 with ⟨_, _, hx⟩ | ⟨hxk, hxe⟩ | ⟨hxc, hxe⟩
    · exact ⟨e2, hx, hn⟩
    · rw [hxe] at hn
      have hn2 : (if ek.face.isSome then ek.prev else none) = some n := hn
      by_cases hfs : ek.face.isSome = true
      · rw [if_pos hfs] at hn2
        subst hxk
        exact ⟨ek, hek, hn2⟩
      · rw [if_neg hfs] at hn2
        cases hn2
    · rw [hxe] at hn
      have hn2 : (if ec.face.isSome then ec.prev else none) = some n := hn
      by_cases hfs : ec.face.isSome = true
      · rw [if_pos hfs] at hn2
        subst hxc
        exact ⟨ec, hec, hn2⟩
      · rw [if_neg hfs] at hn2
        cases hn2
  refine ⟨?_, ?_, ?_, ?_, ?_, ?_, ?_, ?_, ?_, ?_, ?_, ?_, ?_, ?_, ?_, ?_⟩
  · exact w.vSlot
  · intro x hx
    rw [hecount] at hx
    obtain ⟨e0, he0, hid⟩ := w.eSlot x hx
    have he0l := (lookupEdge_eq_some_iff m x e0).mpr he0
    by_cases hxk : x = k
    · have hee : e0 = ek := by
        rw [hxk, hek] at he0l
        exact (Option.some_inj.mp he0l).symm
      refine ⟨sewnEdge ek c, ?_, ?_⟩
      · rw [hxk]
        exact (lookupEdge_eq_some_iff (sewAttach m k c) k _).mp hlk
      · show ek.id = x
        rw [← hee]
        exact hid
    · by_cases hxc : x = c
      · have hee : e0 = ec := by
          rw [hxc, hec] at he0l
          exact (Option.some_inj.mp he0l).symm
        refine ⟨sewnEdge ec k, ?_, ?_⟩
        · rw [hxc]
          exact (lookupEdge_eq_some_iff (sewAttach m k c) c _).mp hlc
        · show ec.id = x
          rw [← hee]
          exact hid
      · refine ⟨e0, ?_, hid⟩
        rw [← lookupEdge_eq_some_iff] at he0 ⊢
        rw [hlo x hxk hxc]
        exact he0
  · exact w.fSlot
  · intro a v e hv he2
    rw [hecount]
    exact w.vEdgeRange a v e hv he2
  · exact w.vColRange
  · intro x e he
    have hm := hvertmap x
    rw [he] at hm
    rcases hlx : lookupEdge m x with _ | e0
    · rw [hlx] at hm
      simp at hm
    · rw [hlx] at hm
      have hvv : e.vertex = e0.vertex := by
        have hm2 : (some e.vertex : Option Nat) = some e0.vertex := hm
        exact Option.some_inj.mp hm2
      rw [hvv]
      exact w.eVertRange x e0 hlx
  · intro x e f he hf
    rcases hinv x e he with ⟨_, _, hx⟩ | ⟨hxk, hxe⟩ | ⟨hxc, hxe⟩
    · exact w.eFaceRange x e f hx hf
    · have hff : ek.face = some f := by
        rw [hxe] at hf
        exact hf
      exact w.eFaceRange k ek f hek hff
    · have hff : ec.face = some f := by
        rw [hxe] at hf
        exact hf
      exact w.eFaceRange c ec f hec hff
  · exact w.mapKeysNodup
  · exact w.mapValsNodup
  · intro i j eid hmem
    obtain ⟨hlt, hcl⟩ := w.mapEntryOrigin i j eid hmem
    refine ⟨by rw [hecount]; exact hlt, ?_⟩
    intro e he
    constructor
    · have hm := hvertmap eid
      rw [he] at hm
      rcases hlx : lookupEdge m eid with _ | e0
      · rw [hlx] at hm
        simp at hm
      · rw [hlx] at hm
        have hm2 : (some e.vertex : Option Nat) = some e0.vertex := hm
        rw [Option.some_inj.mp hm2]
        exact (hcl e0 hlx).1
    · intro n en hn hen
      obtain ⟨e0, he0, hn0⟩ := hnextback eid e n he hn
      have hm := hvertmap n
      rw [hen] at hm
      rcases hlxn : lookupEdge m n with _ | en0
      · rw [hlxn] at hm
        simp at hm
      · rw [hlxn] at hm
        have hm2 : (some en.vertex : Option Nat) = some en0.vertex := hm
        rw [Option.some_inj.mp hm2]
        exact (hcl e0 he0).2 n en0 hn0 hlxn
  · intro eid e he
    rcases hinv eid e he with ⟨_, _, hx⟩ | ⟨hxk, _⟩ | ⟨hxc, _⟩
    · exact w.mapCover eid e hx
    · rw [hxk]
      exact w.mapCover k ek hek
    · rw [hxc]
      exact w.mapCover c ec hec
  · intro x e p he hp
    rcases hinv x e he with ⟨hxk, hxc, hx⟩ | ⟨hxk, hxe⟩ | ⟨hxc, hxe⟩
    · obtain ⟨e2, he2, hp2⟩ := w.pairSym x e p hx hp
      have hpk : p ≠ k := by
        intro hpk
        subst hpk
        have hee : e2 = ek := by
          rw [hek] at he2
          exact Option.some_inj.mp he2.symm
        rw [hee, hekp] at hp2
        cases hp2
      have hpc : p ≠ c := by
        intro hpc
        subst hpc
        have hee : e2 = ec := by
          rw [hec] at he2
          exact Option.some_inj.mp he2.symm
        rw [hee, hecp] at hp2
        cases hp2
      refine ⟨e2, ?_, hp2⟩
      rw [hlo p hpk hpc]
      exact he2
    · have hp2 : (some c : Option Nat) = some p := by
        rw [hxe] at hp
        exact hp
      have hpc : p = c := (Option.some_inj.mp hp2).symm
      rw [hpc, hxk]
      exact ⟨sewnEdge ec k, hlc, rfl⟩
    · have hp2 : (some k : Option Nat) = some p := by
        rw [hxe] at hp
        exact hp
      have hpk : p = k := (Option.some_inj.mp hp2).symm
      rw [hpk, hxc]
      exact ⟨sewnEdge ek c, hlk, rfl⟩
  · intro x e p he hp
    rcases hinv x e he with ⟨hxk, hxc, hx⟩ | ⟨hxk, hxe⟩ | ⟨hxc, hxe⟩
    · obtain ⟨e2, he2, hp2⟩ := w.pairSym x e p hx hp
      have hpk : p ≠ k := by
        intro hpk
        subst hpk
        have hee : e2 = ek := by
          rw [hek] at he2
          exact Option.some_inj.mp he2.symm
        rw [hee, hekp] at hp2
        cases hp2
      have hpc : p ≠ c := by
        intro hpc
        subst hpc
        have hee : e2 = ec := by
          rw [hec] at he2
          exact Option.some_inj.mp he2.symm
        rw [hee, hecp] at hp2
        cases hp2
      obtain ⟨ep, hepm, hcol⟩ := w.pairColoc x e p hx hp
      refine ⟨ep, by rw [hlo p hpk hpc]; exact hepm, ?_⟩
      intro vd hvd
      have hdx : edgeDest (sewAttach m k c) x = edgeDest m x := by
        have h1 : edgeDest (sewAttach m k c) x =
            ((lookupEdge (sewAttach m k c) x).bind (fun e3 => e3.next)).bind
              (fun n => (lookupEdge (sewAttach m k c) n).map (fun e3 => e3.vertex)) := rfl
        have h2 : edgeDest m x = ((lookupEdge m x).bind (fun e3 => e3.next)).bind
            (fun n => (lookupEdge m n).map (fun e3 => e3.vertex)) := rfl
        rw [h1, h2, hlo x hxk hxc]
        rcases (lookupEdge m x).bind (fun e3 => e3.next) with _ | n
        · rfl
        · show (lookupEdge (sewAttach m k c) n).map (fun e3 => e3.vertex) = _
          exact hvertmap n
      rw [hdx] at hvd
      exact hcol vd hvd
    · have hp2 : (some c : Option Nat) = some p := by
        rw [hxe] at hp
        exact hp
      have hpc : p = c := (Option.some_inj.mp hp2).symm
      rw [hpc, hxk]
      refine ⟨sewnEdge ec k, hlc, ?_⟩
      intro vd hvd
      obtain ⟨e3, n, en, he3, hn3, hen3, hv3⟩ := edgeDest_some_inv (sewAttach m k c) k vd hvd
      obtain ⟨e0, he0, hn0⟩ := hnextback k e3 n he3 hn3
      have he0k : e0 = ek := by
        rw [hek] at he0
        exact (Option.some_inj.mp he0).symm
      have hekn : ek.next = some n := by
        rw [← he0k]
        exact hn0
      have hm := hvertmap n
      rw [hen3] at hm
      rcases hlxn : lookupEdge m n with _ | en0
      · rw [hlxn] at hm
        simp at hm
      · rw [hlxn] at hm
        have hm2 : (some en.vertex : Option Nat) = some en0.vertex := hm
        have hvd0 : en0.vertex = vd := by
          rw [← Option.some_inj.mp hm2]
          exact hv3
        have hdm : edgeDest m k = some vd := by
          simp [edgeDest, hek, hekn, hlxn, hvd0]
        have h1 := hd1
        rw [hec, hdm] at h1
        exact h1
    · have hp2 : (some k : Option Nat) = some p := by
        rw [hxe] at hp
        exact hp
      have hpk : p = k := (Option.some_inj.mp hp2).symm
      rw [hpk, hxc]
      refine ⟨sewnEdge ek c, hlk, ?_⟩
      intro vd hvd
      obtain ⟨e3, n, en, he3, hn3, hen3, hv3⟩ := edgeDest_some_inv (sewAttach m k c) c vd hvd
      obtain ⟨e0, he0, hn0⟩ := hnextback c e3 n he3 hn3
      have he0c : e0 = ec := by
        rw [hec] at he0
        exact (Option.some_inj.mp he0).symm
      have hecn : ec.next = some n := by
        rw [← he0c]
        exact hn0
      have hm := hvertmap n
      rw [hen3] at hm
      rcases hlxn : lookupEdge m n with _ | en0
      · rw [hlxn] at hm
        simp at hm
      · rw [hlxn] at hm
        have hm2 : (some en.vertex : Option Nat) = some en0.vertex := hm
        have hvd0 : en0.vertex = vd := by
          rw [← Option.some_inj.mp hm2]
          exact hv3
        have hdm : edgeDest m c = some vd := by
          simp [edgeDest, hec, hecn, hlxn, hvd0]
        have h1 := hd2
        rw [hdm, hek] at h1
        exact h1.symm
  · intro x e n he hn
    obtain ⟨e0, he0, hn0⟩ := hnextback x e n he hn
    rw [hecount]
    exact w.nextBound x e0 n he0 hn0
  · intro x e n he hn
    obtain ⟨e0, he0, hn0⟩ := hprevback x e n he hn
    rw [hecount]
    exact w.prevBound x e0 n he0 hn0
  · intro fid f hf
    obtain ⟨cyc, hfe, hne, hnd, hstep⟩ := w.faceCycles fid f hf
    refine ⟨cyc, hfe, hne, hnd, ?_⟩
    intro t ht
    obtain ⟨e, he, hface, hnext, hprev⟩ := hstep t ht
    by_cases hxk : cyc.getD t 0 = k
    · have hee : e = ek := by
        rw [hxk, hek] at he
        exact (Option.some_inj.mp he).symm
      have hfs : ek.face.isSome = true := by
        rw [← hee, hface]
        rfl
      refine ⟨sewnEdge ek c, ?_, ?_, ?_, ?_⟩
      · rw [hxk]
        exact hlk
      · show ek.face = some fid
        rw [← hee]
        exact hface
      · show (if ek.face.isSome then ek.next else none) =
            some (cyc.getD ((t + 1) % cyc.length) 0)
        rw [if_pos hfs, ← hee]
        exact hnext
      · show (if ek.face.isSome then ek.prev else none) =
            some (cyc.getD ((t + cyc.length - 1) % cyc.length) 0)
        rw [if_pos hfs, ← hee]
        exact hprev
    · by_cases hxc : cyc.getD t 0 = c
      · have hee : e = ec := by
          rw [hxc, hec] at he
          exact (Option.some_inj.mp he).symm
        have hfs : ec.face.isSome = true := by
          rw [← hee, hface]
          rfl
        refine ⟨sewnEdge ec k, ?_, ?_, ?_, ?_⟩
        · rw [hxc]
          exact hlc
        · show ec.face = some fid
          rw [← hee]
          exact hface
        · show (if ec.face.isSome then ec.next else none) =
              some (cyc.getD ((t + 1) % cyc.length) 0)
          rw [if_pos hfs, ← hee]
          exact hnext
        · show (if ec.face.isSome then ec.prev else none) =
              some (cyc.getD ((t + cyc.length - 1) % cyc.length) 0)
          rw [if_pos hfs, ← hee]
          exact hprev
      · refine ⟨e, ?_, hface, hnext, hprev⟩
        rw [hlo _ hxk hxc]
        exact he

/-! Reduction equations for one step of the sewing walk. -/

theorem sewLoop_plain_stop (start fuel : Nat) (m : Mesh) (k : Nat)
    (hb : edgeIsBoundary m k = false) (hn : nextOf m k = none) :
    sewLoop start (fuel + 1) m k = (some k, m) := by
  simp [sewLoop, hb, hn]

theorem sewLoop_plain_close (start fuel : Nat) (m : Mesh) (k : Nat)
    (hb : edgeIsBoundary m k = false) (hn : nextOf m k = some start) :
    sewLoop start (fuel + 1) m k = (none, m) := by
  simp [sewLoop, hb, hn]

theorem sewLoop_plain_go (start fuel : Nat) (m : Mesh) (k n : Nat)
    (hb : edgeIsBoundary m k = false) (hn : nextOf m k = some n) (hns : n ≠ start) :
    sewLoop start (fuel + 1) m k = sewLoop start fuel m n := by
  simp [sewLoop, hb, hn, hns]

theorem sewLoop_nomatch (start fuel : Nat) (m : Mesh) (k : Nat)
    (hb : edgeIsBoundary m k = true) (hm : sewMatch m k = none) :
    sewLoop start (fuel + 1) m k = (some k, m) := by
  simp [sewLoop, hb, hm]

theorem sewLoop_att_stop (start fuel : Nat) (m : Mesh) (k c : Nat)
    (hb : edgeIsBoundary m k = true) (hm : sewMatch m k = some c)
    (hn : nextOf m k = none) :
    sewLoop start (fuel + 1) m k = (some k, sewAttach m k c) := by
  simp [sewLoop, hb, hm, hn]

theorem sewLoop_att_close (start fuel : Nat) (m : Mesh) (k c : Nat)
    (hb : edgeIsBoundary m k = true) (hm : sewMatch m k = some c)
    (hn : nextOf m k = some start) :
    sewLoop start (fuel + 1) m k = (none, sewAttach m k c) := by
  simp [sewLoop, hb, hm, hn]

theorem sewLoop_att_go (start fuel : Nat) (m : Mesh) (k c n : Nat)
    (hb : edgeIsBoundary m k = true) (hm : sewMatch m k = some c)
    (hn : nextOf m k = some n) (hns : n ≠ start) :
    sewLoop start (fuel + 1) m k = sewLoop start fuel (sewAttach m k c) n := by
  simp [sewLoop, hb, hm, hn, hns]

/-- The whole sewing walk preserves well-formedness. -/
theorem WF.sewWalk (start : Nat) : ∀ (fuel : Nat) (m : Mesh) (k : Nat),
    WF m → WF (sewLoop start fuel m k).2 := by
  intro fuel
  induction fuel with
  | zero =>
    intro m k w
    exact w
  | succ fuel ih =>
    intro m k w
    by_cases hb : edgeIsBoundary m k = true
    · rcases hm : sewMatch m k with _ | c
      · rw [sewLoop_nomatch start fuel m k hb hm]
        exact w
      · have hm2 : (List.range m.edgeCount).find? (sewPred m k) = some c := hm
        have hpred : sewPred m k c = true := List.find?_some hm2
        have hw2 : WF (sewAttach m k c) := WF.sewStep m w k c hb hpred
        rcases hn : nextOf m k with _ | n
        · rw [sewLoop_att_stop start fuel m k c hb hm hn]
          exact hw2
        · by_cases hns : n = start
          · rw [hns] at hn
            rw [sewLoop_att_close start fuel m k c hb hm hn]
            exact hw2
          · rw [sewLoop_att_go start fuel m k c n hb hm hn hns]
            exact ih (sewAttach m k c) n hw2
    · rw [Bool.not_eq_true] at hb
      rcases hn : nextOf m k with _ | n
      · rw [sewLoop_plain_stop start fuel m k hb hn]
        exact w
      · by_cases hns : n = start
        · rw [hns] at hn
          rw [sewLoop_plain_close start fuel m k hb hn]
          exact w
        · rw [sewLoop_plain_go start fuel m k n hb hn hns]
          exact ih m n w

/-- `sewBoundary` preserves well-formedness. -/
theorem WF.sewBoundaryPres (m : Mesh) (w : WF m) (start : Nat) :
    WF (m.sewBoundary start).2 :=
  WF.sewWalk start (m.edgeCount + 1) m start w

/-- Modelled from the spec: the mesh states reachable from the empty mesh
through the public construction and maintenance operations: `addVertex`,
`addFace`, `linkColocals`, `linkColocalsWithCanonicalMap`, `clear`, the three
compaction passes, and `sewBoundary`.  Not included, and therefore not
covered by the theorems quantifying over `Reachable`: `disconnect` and
`remove`, which the spec presents as the intermediate primitives of a repair
pass in progress (the claims themselves set mid-repair states aside); and
`linkBoundary`, `splitBoundaryEdges` and `triangulate`, whose behaviour the
sources underdetermine (the spec leaves the boundary-link branch policy an
explicit open question, makes the split criterion depend on the opaque
position type, and allows "another deterministic ear-splitting scheme"). -/
inductive Reachable : Mesh → Prop
  | empty : Reachable emptyMesh
  | addVertex {m : Mesh} (h : Reachable m) (p : Vector3) : Reachable (m.addVertex p)
  | addFace {m : Mesh} (h : Reachable m) (idx : List Nat) (first num : Nat) :
      Reachable (m.addFace idx first num).1
  | linkColocals {m : Mesh} (h : Reachable m) : Reachable m.linkColocals
  | linkColocalsCanonical {m : Mesh} (h : Reachable m) (canon : List Nat) :
      Reachable (m.linkColocalsWithCanonicalMap canon)
  | clear {m : Mesh} (h : Reachable m) : Reachable m.clear
  | compactVertices {m : Mesh} (h : Reachable m) : Reachable m.compactVertices
  | compactEdges {m : Mesh} (h : Reachable m) : Reachable m.compactEdges
  | compactFaces {m : Mesh} (h : Reachable m) : Reachable m.compactFaces
  | sewBoundary {m : Mesh} (h : Reachable m) (start : Nat) :
      Reachable (m.sewBoundary start).2

/-- Every reachable mesh state satisfies the well-formedness invariants. -/
theorem Reachable.wf {m : Mesh} (h : Reachable m) : WF m := by
  induction h with
  | empty => exact WF.empty
  | addVertex h p ih => exact ih.addVertex p
  | addFace h idx first num ih => exact WF.addFace _ ih idx first num
  | linkColocals h ih => exact ih.linkColocals
  | linkColocalsCanonical h canon ih => exact ih.linkColocalsCanonical canon
  | clear h ih => exact WF.empty
  | compactVertices h ih =>
    rw [WF.compactVertices_eq ih]
    exact ih
  | compactEdges h ih =>
    rw [WF.compactEdges_eq ih]
    exact ih
  | compactFaces h ih =>
    rw [WF.compactFaces_eq ih]
    exact ih
  | sewBoundary h start ih => exact WF.sewBoundaryPres _ ih start

/-- The pair reference stored at edge slot `k`, if the slot is live. -/
def pairOf (m : Mesh) (k : Nat) : Option Nat := (lookupEdge m k).bind (fun e => e.pair)

/-- The origin vertex of the half-edge at slot `k`, if the slot is live. -/
def originOf (m : Mesh) (k : Nat) : Option Nat := (lookupEdge m k).map (fun e => e.vertex)

/-- Two separate triangles over coincident position triples: vertices 0-2 and
3-5 hold the same three collinear-free positions, so after `linkColocals` the
boundary of each triangle has an exact colocal counterpart on the other. -/
def ce2base : Mesh :=
  (((((emptyMesh.addVertex ⟨0, 0, 0⟩).addVertex ⟨1, 0, 0⟩).addVertex
    ⟨2, 0, 0⟩).addVertex ⟨1, 0, 0⟩).addVertex ⟨0, 0, 0⟩).addVertex ⟨2, 0, 0⟩

/-- The two-triangle mesh after sewing the boundary loop through edge 0:
edge 0 (vertex 0 to vertex 1) is paired with edge 3 (vertex 3 to vertex 4),
whose origin is merely colocal to, not identical with, edge 0's destination. -/
def ce2 : Mesh :=
  (((((ce2base.addFace3 0 1 2).1.addFace3 3 4 5).1.linkColocals).sewBoundary 0)).2

/-- C2 is refuted as stated: the post-`sewBoundary` state `ce2` is reachable
through the public operations and satisfies the pair involution, but the
origin of edge 0's pair is vertex 3 while edge 0's destination is vertex 1:
sewing pairs colocal half-edges from distinct vertex groups, so origin and
destination agree only up to position, not as indices. -/
theorem pair_involution_refuted :
    Reachable ce2 ∧ pairOf ce2 0 = some 3 ∧ pairOf ce2 3 = some 0 ∧
      originOf ce2 3 ≠ edgeDest ce2 0 := by
  refine ⟨?_, by decide, by decide, by decide⟩
  exact Reachable.sewBoundary (Reachable.linkColocals (Reachable.addFace
    (Reachable.addFace (Reachable.addVertex (Reachable.addVertex
      (Reachable.addVertex (Reachable.addVertex (Reachable.addVertex
        (Reachable.addVertex Reachable.empty ⟨0, 0, 0⟩) ⟨1, 0, 0⟩) ⟨2, 0, 0⟩)
      ⟨1, 0, 0⟩) ⟨0, 0, 0⟩) ⟨2, 0, 0⟩)
    [0, 1, 2] 0 3) [3, 4, 5] 0 3)) 0

/-- C2 (amended): in every mesh state reachable through the public operations,
a half-edge that has a pair is in turn that pair's pair, and the pair's origin
vertex is colocated with (holds the same position as) the half-edge's
destination vertex; exact index equality fails after boundary sewing, see the
counterexample. -/
theorem pair_involution_amended (m : Mesh) (hr : Reachable m) (k p : Nat)
    (hp : pairOf m k = some p) :
    pairOf m p = some k ∧ ∃ ep, lookupEdge m p = some ep ∧
      ∀ vd, edgeDest m k = some vd → ∃ vp, originOf m p = some vp ∧
        posAt m vp = posAt m vd := by
  have w := hr.wf
  rcases he : lookupEdge m k with _ | e
  · simp [pairOf, he] at hp
  · have hpe : e.pair = some p := by simpa [pairOf, he] using hp
    obtain ⟨e2, he2, hp2⟩ := w.pairSym k e p he hpe
    obtain ⟨ep, hepm, hcol⟩ := w.pairColoc k e p he hpe
    have hee : ep = e2 := by
      rw [he2] at hepm
      exact (Option.some_inj.mp hepm).symm
    constructor
    · simp [pairOf, he2, hp2]
    · refine ⟨e2, he2, ?_⟩
      intro vd hvd
      refine ⟨e2.vertex, by simp [originOf, he2], ?_⟩
      rw [← hee]
      exact hcol vd hvd

/-- Witness: in the sewn two-triangle mesh, edge 0 is paired with edge 3; the
involution holds and edge 3's origin is colocated with edge 0's destination. -/
theorem pair_involution_amended_witness :
    pairOf ce2 0 = some 3 ∧
    (pairOf ce2 3 = some 0 ∧ ∃ ep, lookupEdge ce2 3 = some ep ∧
      ∀ vd, edgeDest ce2 0 = some vd → ∃ vp, originOf ce2 3 = some vp ∧
        posAt ce2 vp = posAt ce2 vd) := by
  have hr : Reachable ce2 := Reachable.sewBoundary (Reachable.linkColocals
    (Reachable.addFace (Reachable.addFace (Reachable.addVertex (Reachable.addVertex
      (Reachable.addVertex (Reachable.addVertex (Reachable.addVertex
        (Reachable.addVertex Reachable.empty ⟨0, 0, 0⟩) ⟨1, 0, 0⟩) ⟨2, 0, 0⟩)
      ⟨1, 0, 0⟩) ⟨0, 0, 0⟩) ⟨2, 0, 0⟩)
    [0, 1, 2] 0 3) [3, 4, 5] 0 3)) 0
  exact ⟨by decide, pair_involution_amended ce2 hr 0 3 (by decide)⟩

/-- C3: in every mesh state reachable through the public operations, every
face's half-edges form a cycle: walking `next` from the face's incident
half-edge returns to it after exactly degree-many steps, never leaving the
face, and along that cycle `prev` is the exact inverse of `next`. -/
theorem face_cycle_invariant (m : Mesh) (hr : Reachable m) (fid : Nat) (f : Face)
    (hf : lookupFace m fid = some f) :
    ∃ cyc, f.edge = some (cyc.headD 0) ∧ FaceCycle m fid cyc ∧
      ∀ t, t < cyc.length → ∃ e en,
        lookupEdge m (cyc.getD t 0) = some e ∧
        e.next = some (cyc.getD ((t + 1) % cyc.length) 0) ∧
        lookupEdge m (cyc.getD ((t + 1) % cyc.length) 0) = some en ∧
        en.prev = some (cyc.getD t 0) := by
  have w := hr.wf
  obtain ⟨cyc, hfe, hcyc⟩ := w.faceCycles fid f hf
  obtain ⟨hcne, hcnd, hstep⟩ := hcyc
  refine ⟨cyc, hfe, ⟨hcne, hcnd, hstep⟩, ?_⟩
  intro t ht
  have hpos : 0 < cyc.length := List.length_pos.mpr hcne
  obtain ⟨e, he, _, hnext, _⟩ := hstep t ht
  obtain ⟨en, hen, _, _, henprev⟩ := hstep ((t + 1) % cyc.length) (Nat.mod_lt _ hpos)
  refine ⟨e, en, he, hnext, hen, ?_⟩
  rw [henprev, cycle_prev_arith t cyc.length ht]

/-- Witness: in the two-face scenario mesh, face 0 exists and its half-edges
cycle as required with `prev` inverting `next` along the cycle. -/
theorem face_cycle_invariant_witness :
    ∃ f, lookupFace demoStep2.1 0 = some f ∧
      ∃ cyc, f.edge = some (cyc.headD 0) ∧ FaceCycle demoStep2.1 0 cyc ∧
        ∀ t, t < cyc.length → ∃ e en,
          lookupEdge demoStep2.1 (cyc.getD t 0) = some e ∧
          e.next = some (cyc.getD ((t + 1) % cyc.length) 0) ∧
          lookupEdge demoStep2.1 (cyc.getD ((t + 1) % cyc.length) 0) = some en ∧
          en.prev = some (cyc.getD t 0) := by
  have hr : Reachable demoStep2.1 :=
    Reachable.addFace (Reachable.addFace (Reachable.addVertex (Reachable.addVertex
      (Reachable.addVertex Reachable.empty ⟨0, 0, 0⟩) ⟨1, 0, 0⟩) ⟨0, 1, 0⟩)
      [0, 1, 2] 0 3) [1, 0, 2] 0 3
  exact ⟨{ id := 0, edge := some 0 }, by decide,
    face_cycle_invariant demoStep2.1 hr 0 { id := 0, edge := some 0 } (by decide)⟩
/-- The colocal link stored at vertex slot `k`, read as a step function: a
missing slot steps to itself. -/
def colocalOf (m : Mesh) (k : Nat) : Nat :=
  match lookupVertex m k with
  | some v => v.colocal
  | none => k

theorem lookupVertex_linkColocals (m : Mesh) (k : Nat) :
    lookupVertex m.linkColocals k =
      (lookupVertex m k).map (fun v => { v with colocal := colocalSucc m k }) := by
  have harr : m.linkColocals.vertexArray = mapWithIndex (fun k ov => ov.map (fun v : Vertex =>
      { v with colocal := colocalSucc m k })) m.vertexArray := rfl
  simp only [lookupVertex]
  rw [harr, mapWithIndex_getElem?]
  rcases hx : m.vertexArray[k]? with _ | ov
  · rfl
  · rcases ov with _ | v <;> rfl

theorem posAt_linkColocals (m : Mesh) (k : Nat) :
    posAt m.linkColocals k = posAt m k := by
  rw [posAt, lookupVertex_linkColocals, posAt]
  rcases lookupVertex m k with _ | v <;> rfl

theorem colocalOf_linkColocals (m : Mesh) (k : Nat) (v : Vertex)
    (h : lookupVertex m k = some v) :
    colocalOf m.linkColocals k = colocalSucc m k := by
  rw [colocalOf, lookupVertex_linkColocals, h]
  rfl

theorem filter_gt_eq_drop (S : List Nat) (hS : List.Pairwise (· < ·) S) (i : Nat)
    (hi : i < S.length) :
    S.filter (fun j => decide (S.getD i 0 < j)) = S.drop (i + 1) := by
  induction S generalizing i with
  | nil => simp at hi
  | cons x xs ih =>
    obtain ⟨hx, hxs⟩ := List.pairwise_cons.mp hS
    cases i with
    | zero =>
      rw [List.getD_cons_zero, List.filter_cons]
      have hxx : decide (x < x) = false := by simp
      rw [hxx]
      show xs.filter (fun j => decide (x < j)) = xs
      rw [List.filter_eq_self]
      intro a ha
      simpa using hx a ha
    | succ n =>
      have hn : n < xs.length := by simpa using hi
      rw [List.getD_cons_succ, List.filter_cons]
      have hmem : xs.getD n 0 ∈ xs := by
        rw [List.getD_eq_getElem?_getD, List.getElem?_eq_getElem hn]
        exact List.getElem_mem hn
      have hxk : x < xs.getD n 0 := hx _ hmem
      have hdec : decide (xs.getD n 0 < x) = false := by
        simp only [decide_eq_false_iff_not]
        omega
      rw [hdec]
      show xs.filter (fun j => decide (xs.getD n 0 < j)) = xs.drop (n + 1)
      exact ih hxs n hn

theorem colocalGroup_pairwise (m : Mesh) (p : Vector3) :
    List.Pairwise (· < ·) (colocalGroup m p) :=
  (List.pairwise_lt_range m.vertexCount).filter _

theorem colocalGroup_mem (m : Mesh) (p : Vector3) (k : Nat) :
    k ∈ colocalGroup m p ↔ k < m.vertexCount ∧ posAt m k = some p := by
  rw [colocalGroup, List.mem_filter, List.mem_range]
  simp

theorem colocalSucc_getD (m : Mesh) (p : Vector3) (i : Nat)
    (hi : i < (colocalGroup m p).length)
    (hp : posAt m ((colocalGroup m p).getD i 0) = some p) :
    colocalSucc m ((colocalGroup m p).getD i 0) =
      (colocalGroup m p).getD ((i + 1) % (colocalGroup m p).length) 0 := by
  have hred : colocalSucc m ((colocalGroup m p).getD i 0) =
      (match (colocalGroup m p).filter (fun j => decide ((colocalGroup m p).getD i 0 < j)) with
       | x :: _ => x
       | [] => (colocalGroup m p).headD ((colocalGroup m p).getD i 0)) := by
    rw [colocalSucc, hp]
  rw [hred, filter_gt_eq_drop (colocalGroup m p) (colocalGroup_pairwise m p) i hi]
  rcases Nat.lt_or_ge (i + 1) (colocalGroup m p).length with hlt | hge
  · rcases hd : (colocalGroup m p).drop (i + 1) with _ | ⟨x, rest⟩
    · have := congrArg List.length hd
      rw [List.length_drop] at this
      simp at this
      omega
    · have hx : (colocalGroup m p)[i + 1]? = some x := by
        have h0 : ((colocalGroup m p).drop (i + 1))[0]? = some x := by
          rw [hd, List.getElem?_cons_zero]
        rw [List.getElem?_drop] at h0
        simpa using h0
      show x = (colocalGroup m p).getD ((i + 1) % (colocalGroup m p).length) 0
      rw [Nat.mod_eq_of_lt hlt, List.getD_eq_getElem?_getD, hx]
      rfl
  · have heq : i + 1 = (colocalGroup m p).length := by omega
    have hdrop : (colocalGroup m p).drop (i + 1) = [] := by
      apply List.eq_nil_of_length_eq_zero
      rw [List.length_drop]
      omega
    rw [hdrop]
    have hmod : (i + 1) % (colocalGroup m p).length = 0 := by
      rw [heq, Nat.mod_self]
    rw [hmod]
    have hne : colocalGroup m p ≠ [] := by
      intro hcon
      rw [hcon] at hi
      simp at hi
    show (colocalGroup m p).headD ((colocalGroup m p).getD i 0) =
      (colocalGroup m p).getD 0 0
    rcases hgl : colocalGroup m p with _ | ⟨y, ys⟩
    · exact absurd hgl hne
    · rfl

theorem colocal_iter_getD (m : Mesh) (p : Vector3) (t : Nat) :
    ∀ i, i < (colocalGroup m p).length →
      (fun k => colocalOf m.linkColocals k)^[t] ((colocalGroup m p).getD i 0) =
        (colocalGroup m p).getD ((i + t) % (colocalGroup m p).length) 0 := by
  induction t with
  | zero =>
    intro i hi
    rw [Function.iterate_zero_apply, Nat.add_zero, Nat.mod_eq_of_lt hi]
  | succ t ih =>
    intro i hi
    rw [Function.iterate_succ_apply]
    have hmem : (colocalGroup m p).getD i 0 ∈ colocalGroup m p := by
      rw [List.getD_eq_getElem?_getD, List.getElem?_eq_getElem hi]
      exact List.getElem_mem hi
    obtain ⟨hklt, hkp⟩ := (colocalGroup_mem m p _).mp hmem
    obtain ⟨v, hv⟩ : ∃ v, lookupVertex m ((colocalGroup m p).getD i 0) = some v := by
      rcases hl : lookupVertex m ((colocalGroup m p).getD i 0) with _ | v
      · rw [posAt, hl] at hkp
        cases hkp
      · exact ⟨v, rfl⟩
    have hstep : colocalOf m.linkColocals ((colocalGroup m p).getD i 0) =
        (colocalGroup m p).getD ((i + 1) % (colocalGroup m p).length) 0 := by
      rw [colocalOf_linkColocals m _ v hv]
      exact colocalSucc_getD m p i hi hkp
    rw [hstep]
    have hi1 : (i + 1) % (colocalGroup m p).length < (colocalGroup m p).length :=
      Nat.mod_lt _ (by omega)
    rw [ih _ hi1, Nat.mod_add_mod]
    have harith : i + 1 + t = i + (t + 1) := by omega
    rw [harith]

theorem mem_getD_index (S : List Nat) (a : Nat) (h : a ∈ S) :
    ∃ i, i < S.length ∧ S.getD i 0 = a := by
  obtain ⟨n, hn, hget⟩ := List.getElem_of_mem h
  exact ⟨n, hn, by rw [List.getD_eq_getElem?_getD, List.getElem?_eq_getElem hn, hget]; rfl⟩

/-- C6: after `linkColocals`, any two vertices sharing a position are mutually
reachable by iterating the colocal link, and `colocalVertexCount` equals the
number of distinct positions occurring among the live vertices. -/
theorem linkColocals_postcondition (m : Mesh) (a b : Nat) (p : Vector3)
    (hpa : posAt m a = some p) (hpb : posAt m b = some p) :
    (∃ t, (fun k => colocalOf m.linkColocals k)^[t] a = b) ∧
    m.linkColocals.colocalVertexCount =
      ((List.range m.vertexCount).filterMap (posAt m)).toFinset.card := by
  constructor
  · have hal : a < m.vertexCount := by
      rcases hl : lookupVertex m a with _ | v
      · rw [posAt, hl] at hpa
        cases hpa
      · exact lookupVertex_lt m a v hl
    have hbl : b < m.vertexCount := by
      rcases hl : lookupVertex m b with _ | v
      · rw [posAt, hl] at hpb
        cases hpb
      · exact lookupVertex_lt m b v hl
    have hma : a ∈ colocalGroup m p := (colocalGroup_mem m p a).mpr ⟨hal, hpa⟩
    have hmb : b ∈ colocalGroup m p := (colocalGroup_mem m p b).mpr ⟨hbl, hpb⟩
    obtain ⟨i, hi, hia⟩ := mem_getD_index _ a hma
    obtain ⟨j, hj, hjb⟩ := mem_getD_index _ b hmb
    refine ⟨j + (colocalGroup m p).length - i, ?_⟩
    rw [← hia, colocal_iter_getD m p _ i hi]
    have harith : i + (j + (colocalGroup m p).length - i) = j + (colocalGroup m p).length := by
      omega
    rw [harith, Nat.add_mod_right, Nat.mod_eq_of_lt hj]
    exact hjb
  · show ((m.vertexArray.filterMap id).map Vertex.pos).dedup.length = _
    rw [← List.card_toFinset]
    congr 1
    ext x
    simp only [List.mem_toFinset, List.mem_map, List.mem_filterMap, List.mem_range, id]
    constructor
    · rintro ⟨v, ⟨ov, hov, hove⟩, hpos⟩
      obtain ⟨n, hn⟩ := List.mem_iff_getElem?.mp hov
      have hnlt : n < m.vertexCount := (List.getElem?_eq_some_iff.mp hn).1
      refine ⟨n, hnlt, ?_⟩
      rw [posAt, lookupVertex, hn, hove]
      show some v.pos = some x
      rw [hpos]
    · rintro ⟨n, hn, hpos⟩
      rcases hl : lookupVertex m n with _ | v
      · rw [posAt, hl] at hpos
        cases hpos
      · have hvp : v.pos = x := by
          rw [posAt, hl] at hpos
          exact Option.some_inj.mp hpos
        have hmem : some v ∈ m.vertexArray := by
          have h2 := (lookupVertex_eq_some_iff m n v).mp hl
          obtain ⟨hlt2, hget⟩ := List.getElem?_eq_some_iff.mp h2
          rw [← hget]
          exact List.getElem_mem hlt2
        exact ⟨v, ⟨some v, hmem, rfl⟩, hvp⟩

/-- A mesh with two vertices at the same position plus one elsewhere. -/
def colocalDemo : Mesh :=
  ((emptyMesh.addVertex ⟨0, 0, 0⟩).addVertex ⟨1, 0, 0⟩).addVertex ⟨0, 0, 0⟩

/-- Witness: in the three-vertex demo mesh, vertices 0 and 2 share a position;
after `linkColocals` vertex 2 is reached from vertex 0 along colocal links and
the distinct-position count comes out right. -/
theorem linkColocals_postcondition_witness :
    posAt colocalDemo 0 = some ⟨0, 0, 0⟩ ∧
    ((∃ t, (fun k => colocalOf colocalDemo.linkColocals k)^[t] 0 = 2) ∧
     colocalDemo.linkColocals.colocalVertexCount =
       ((List.range colocalDemo.vertexCount).filterMap (posAt colocalDemo)).toFinset.card) :=
  ⟨by decide, linkColocals_postcondition colocalDemo 0 2 ⟨0, 0, 0⟩ (by decide) (by decide)⟩

/-- In a duplicate-free list, the element at index `t` does not occur among
the first `t` elements. -/
theorem getD_nodup_not_mem_take (L : List Nat) (hnd : L.Nodup) (t : Nat)
    (ht : t < L.length) : L.getD t 0 ∉ L.take t := by
  intro hmem
  obtain ⟨s, hs, hgs⟩ := List.getElem_of_mem hmem
  have hst : s < t := by
    have h2 := hs
    rw [List.length_take] at h2
    omega
  have hsl : s < L.length := by omega
  have h2 : L[s]? = some (L.getD t 0) := by
    have h4 : (L.take t)[s]? = some (L.getD t 0) := by
      rw [List.getElem?_eq_getElem hs, hgs]
    rw [List.getElem?_take, if_pos hst] at h4
    exact h4
  have h3 : L[t]? = some (L.getD t 0) := by
    rw [List.getElem?_eq_getElem ht, List.getD_eq_getElem?_getD,
      List.getElem?_eq_getElem ht]
    rfl
  have hst2 : s = t := List.getElem?_inj hsl hnd (by rw [h2, h3])
  omega

end HalfEdge
